import Mathlib

/-!
Verification development for the TSaCt2 Boolean-network engine.

The C++ sources (gate.cpp, booleannet.cpp, aagloader.cpp) are shallowly
embedded: gates live in an arena (`Net.heap`, a `List Gate`), pointers become
`GateId` indices (a pointer parameter that may be `NULL` becomes
`Option GateId`), vectors become lists, and each C++ member function becomes a
Lean function on `Gate` or `Net`.  Loops that mutate while iterating are
translated to folds over the snapshot that the C++ iteration actually reads
(noted case by case); recursions whose termination in C++ relies on the graph
being a DAG take an explicit fuel argument that dominates the source's
recursion depth on DAGs.  Undefined behaviour in the source (dereferencing a
NULL or dangling pointer) is modelled by skipping the offending operation;
every such spot is marked with a comment.
-/

/-- Machine constant __INT_MAX__ used by the source to initialize SCOAP. -/
def INT_MAX : Nat := 2147483647

/-- Modulus of C++ unsigned int arithmetic. -/
def UINT_MOD : Nat := 4294967296

/-- gateFunction_t from types.h. -/
inductive GateFunction where
  | BUFFER
  | AND
  | OR
  | XOR
  deriving DecidableEq, Repr

/-- gatePlacement_t from types.h. -/
inductive GatePlacement where
  | INPUT
  | INNER
  | OUTPUT
  deriving DecidableEq, Repr

/-- Gate ids index the arena `Net.heap`; they stand for the C++ Gate pointers.
An id with no gate behind it models a dangling or NULL pointer. -/
abbrev GateId := Nat

/-- The Gate class (gate.h): function, role, wiring, polarity bits, depth,
SCOAP triple, coloring, placement and simulation state.  The `gateModel`
pointer (writer-only) and the float `delay` are omitted; neither is read by
any function modelled here. -/
structure Gate where
  gateName : String
  gateFunction : GateFunction
  gatePlacement : GatePlacement
  inputs : List GateId
  inputInverters : List Bool
  followingGates : List GateId
  outputInverter : Bool
  outputValue : Bool
  depth : Nat
  complementaryGate : Option GateId
  scoapCC0 : Nat
  scoapCC1 : Nat
  scoapCO : Nat
  color : Nat
  inTreeSize : Nat
  outTreeSize : Nat
  placed : Bool
  placeX : Int
  placeY : Int
  deriving DecidableEq, Repr

/-- Gate::Gate(gateName): the constructor's initial field values. -/
def Gate.mkGate (name : String) : Gate :=
  { gateName := name
    gateFunction := .BUFFER
    gatePlacement := .INNER
    inputs := []
    inputInverters := []
    followingGates := []
    outputInverter := false
    outputValue := false
    depth := 0
    complementaryGate := none
    scoapCC0 := INT_MAX
    scoapCC1 := INT_MAX
    scoapCO := INT_MAX
    color := 0
    inTreeSize := 0
    outTreeSize := 0
    placed := false
    placeX := 0
    placeY := 0 }

/-- Gate::getFanIn. -/
def Gate.getFanIn (g : Gate) : Nat := g.inputs.length

/-- Gate::getFanOut. -/
def Gate.getFanOut (g : Gate) : Nat := g.followingGates.length

/-- Gate::getDriver: NULL when the index is out of range. -/
def Gate.getDriver (g : Gate) (i : Nat) : Option GateId := g.inputs.get? i

/-- Gate::getFollow: NULL when the index is out of range. -/
def Gate.getFollow (g : Gate) (i : Nat) : Option GateId := g.followingGates.get? i

/-- Gate::isInputInverting: false when the index is out of range. -/
def Gate.isInputInverting (g : Gate) (i : Nat) : Bool := g.inputInverters.getD i false

/-- Gate::setInputInverting: writes true when the index is in range. -/
def Gate.setInputInverting (g : Gate) (i : Nat) : Gate :=
  { g with inputInverters := g.inputInverters.set i true }

/-- Gate::setInputNonInverting: writes false when the index is in range. -/
def Gate.setInputNonInverting (g : Gate) (i : Nat) : Gate :=
  { g with inputInverters := g.inputInverters.set i false }

/-- Gate::isPlaced. -/
def Gate.isPlaced (g : Gate) : Bool := g.placed

/-- Gate::getPlaceXCoord: the sentinel -1 before placement. -/
def Gate.getPlaceXCoord (g : Gate) : Int :=
  if g.placed then g.placeX else -1

/-- Gate::getPlaceYCoord: the sentinel -1 before placement. -/
def Gate.getPlaceYCoord (g : Gate) : Int :=
  if g.placed then g.placeY else -1

/-- Gate::placeGate. -/
def Gate.placeGate (g : Gate) (x y : Int) : Gate :=
  { g with placed := true, placeX := x, placeY := y }

/-- Gate::newFollow: early return on NULL, else insert at the front. -/
def Gate.newFollow (g : Gate) (follow : Option GateId) : Gate :=
  match follow with
  | none => g
  | some f => { g with followingGates := f :: g.followingGates }

/-- The erase loop shared by Gate::remFollow: erase the entry at `i` when it
matches, then advance to `i + 1` either way (the C++ for-loop increments after
erasing, so the element shifted into the erased slot is skipped).  The loop
performs at most `l.length + 1` bound checks, so the explicit fuel never runs
out when the callers pass `l.length + 1`. -/
def eraseMatchesFrom (p : GateId) : Nat → Nat → List GateId → List GateId
  | 0, _, l => l
  | fuel + 1, i, l =>
    if h : i < l.length then
      if l.get ⟨i, h⟩ = p then eraseMatchesFrom p fuel (i + 1) (l.eraseIdx i)
      else eraseMatchesFrom p fuel (i + 1) l
    else l

/-- The erase loop of Gate::remInput, erasing in lockstep from the driver list
and the inverter list. -/
def eraseMatchesFromPair (p : GateId) :
    Nat → Nat → List GateId → List Bool → List GateId × List Bool
  | 0, _, ins, invs => (ins, invs)
  | fuel + 1, i, ins, invs =>
    if h : i < ins.length then
      if ins.get ⟨i, h⟩ = p then
        eraseMatchesFromPair p fuel (i + 1) (ins.eraseIdx i) (invs.eraseIdx i)
      else eraseMatchesFromPair p fuel (i + 1) ins invs
    else (ins, invs)

/-- Gate::remFollow: early return on NULL, else the erase loop over the
follower vector. -/
def Gate.remFollow (g : Gate) (follow : Option GateId) : Gate :=
  match follow with
  | none => g
  | some f =>
    { g with followingGates :=
        eraseMatchesFrom f (g.followingGates.length + 1) 0 g.followingGates }

/-- Gate::remInput: early return on NULL, else the erase loop over the
parallel driver and inverter vectors. -/
def Gate.remInput (g : Gate) (pred : Option GateId) : Gate :=
  match pred with
  | none => g
  | some p =>
    let r := eraseMatchesFromPair p (g.inputs.length + 1) 0 g.inputs g.inputInverters
    { g with inputs := r.1, inputInverters := r.2 }

/-- The list part of Gate::swapDriver: replace the first occurrence of
`oldD` and stop (the C++ loop breaks after the first hit). -/
def replaceFirst (oldD newD : GateId) : List GateId → List GateId
  | [] => []
  | x :: xs => if x = oldD then newD :: xs else x :: replaceFirst oldD newD xs

/-- The BooleanNet class (booleannet.h): the arena of gates plus the four id
collections and the cached scalars.  `netAvgFanOut` (a float) is omitted; no
function modelled here reads it. -/
structure Net where
  heap : List Gate
  gates : List GateId
  inputs : List GateId
  outputs : List GateId
  buffers : List GateId
  netDepth : Nat
  netSumScoap : Nat
  netPlaced : Bool
  deriving DecidableEq, Repr

/-- Dereference a gate pointer; `none` models NULL or dangling. -/
def Net.get (net : Net) (g : GateId) : Option Gate := net.heap.get? g

/-- Write through a gate pointer; no effect when the pointer is invalid
(the source would crash there instead). -/
def Net.modifyGate (net : Net) (g : GateId) (f : Gate → Gate) : Net :=
  match net.get g with
  | none => net
  | some gate => { net with heap := net.heap.set g (f gate) }

/-- operator new: append a gate to the arena and return its fresh id. -/
def Net.alloc (net : Net) (gate : Gate) : Net × GateId :=
  ({ net with heap := net.heap ++ [gate] }, net.heap.length)

/-- Gate::getDepth through a pointer; the callers modelled here only invoke it
on valid gates (the source would crash otherwise). -/
def Net.getDepthOf (net : Net) (g : GateId) : Nat :=
  ((net.get g).map (fun gt => gt.depth)).getD 0

/-- Gate::getComplement through a pointer. -/
def Net.getComplementOf (net : Net) (g : GateId) : Option GateId :=
  (net.get g).bind (fun gt => gt.complementaryGate)

/-- Gate::getDriver(0) through a pointer. -/
def Net.getDriver0 (net : Net) (g : GateId) : Option GateId :=
  (net.get g).bind (fun gt => gt.inputs.get? 0)

/-- Gate::setDepth: monotone update of this gate's depth followed by the
recursive push `follower.setDepth(depth + 1)` into every follower.  The C++
recursion terminates because the graph is a DAG; the fuel bounds the recursion
depth and is chosen by `Net.setDepth` below to dominate any simple path. -/
def Net.setDepthGo : Nat → Net → GateId → Nat → Net
  | 0, net, _, _ => net
  | fuel + 1, net, g, d =>
    match net.get g with
    | none => net
    | some gate =>
      if gate.depth < d then
        let net1 := net.modifyGate g (fun gt => { gt with depth := d })
        gate.followingGates.foldl (fun n f => Net.setDepthGo fuel n f (d + 1)) net1
      else net

/-- Gate::setDepth entry point: on a DAG every simple path is shorter than the
arena, so this fuel reproduces the source behaviour. -/
def Net.setDepth (net : Net) (g : GateId) (d : Nat) : Net :=
  Net.setDepthGo (net.heap.length + 1) net g d

/-- Gate::newInput: early return on NULL, else push the (driver, inverting)
pair at the front of both vectors and run setDepth(driver.depth + 1). -/
def Net.newInputOn (net : Net) (g : GateId) (pred : Option GateId) (inv : Bool) : Net :=
  match pred with
  | none => net
  | some p =>
    let net1 := net.modifyGate g
      (fun gt => { gt with inputs := p :: gt.inputs, inputInverters := inv :: gt.inputInverters })
    net1.setDepth g (net1.getDepthOf p + 1)

/-- Gate::newFollow through a pointer. -/
def Net.newFollowOn (net : Net) (g : GateId) (f : Option GateId) : Net :=
  net.modifyGate g (fun gt => gt.newFollow f)

/-- Gate::remFollow through a pointer. -/
def Net.remFollowOn (net : Net) (g : GateId) (f : Option GateId) : Net :=
  net.modifyGate g (fun gt => gt.remFollow f)

/-- Gate::remInput through a pointer. -/
def Net.remInputOn (net : Net) (g : GateId) (pred : Option GateId) : Net :=
  net.modifyGate g (fun gt => gt.remInput pred)

/-- A call `target->remFollow(f)` where `target` itself came out of a lookup:
a NULL target is a crash in the source, modelled as a skip. -/
def remFollowOnOpt (net : Net) (target : Option GateId) (f : Option GateId) : Net :=
  match target with
  | some t => net.remFollowOn t f
  | none => net

/-- A call `target->newFollow(f)` where `target` itself came out of a lookup:
a NULL target is a crash in the source, modelled as a skip. -/
def newFollowOnOpt (net : Net) (target : Option GateId) (f : Option GateId) : Net :=
  match target with
  | some t => net.newFollowOn t f
  | none => net

/-- Gate::swapDriver through a pointer: replace the first occurrence of the
old driver, then setDepth(newDriver.depth + 1).  A NULL old driver matches no
entry (the vectors hold no NULL in this model), so the call is a no-op, as in
the source when no slot holds the old pointer.  A NULL new driver would be
written into the slot by the source and crash on the next dereference; the
model skips the write. -/
def Net.swapDriverOn (net : Net) (g : GateId) (oldD : Option GateId) (newD : Option GateId) : Net :=
  match net.get g with
  | none => net
  | some gate =>
    match oldD with
    | none => net
    | some od =>
      if gate.inputs.contains od then
        match newD with
        | none => net
        | some nd =>
          let net1 := net.modifyGate g
            (fun gt => { gt with inputs := replaceFirst od nd gt.inputs })
          net1.setDepth g (net1.getDepthOf nd + 1)
      else net

/-- A call `target->swapDriver(oldD, newD)` where `target` came out of a
lookup: a NULL target is a crash in the source, modelled as a skip. -/
def swapDriverOnOpt (net : Net) (target : Option GateId) (oldD newD : Option GateId) : Net :=
  match target with
  | some t => Net.swapDriverOn net t oldD newD
  | none => net

/-- BooleanNet::remOutput: erase the output slot when in range. -/
def Net.remOutput (net : Net) (outNr : Nat) : Net :=
  { net with outputs := net.outputs.eraseIdx outNr }

/-- BooleanNet::computeNetDepth: fold the output depths into the cached
netDepth, keeping the cached value when it is already larger. -/
def Net.computeNetDepth (net : Net) : Net :=
  let nd := net.outputs.foldl
    (fun acc o => if net.getDepthOf o > acc then net.getDepthOf o else acc) net.netDepth
  { net with netDepth := nd }

/-- Gate::getOutputValue through a driver pointer, as read inside
Gate::computeOutputValue; the source never guards the dereference, so a
dangling driver is undefined there (the model defaults to false, a case no
modelled call reaches). -/
def Net.getOutputValueOf (net : Net) (g : GateId) : Bool :=
  ((net.get g).map (fun gt => gt.outputValue)).getD false

/-- One loop term of Gate::computeOutputValue:
driver(i).outputValue XOR isInputInverting(i).  The loops only evaluate it for
i < fanIn, where the driver lookup succeeds. -/
def inputTermVal (net : Net) (gate : Gate) (i : Nat) : Bool :=
  match gate.inputs.get? i with
  | some d => xor (net.getOutputValueOf d) (gate.isInputInverting i)
  | none => false

/-- The case AND block of Gate::computeOutputValue: re-initializes result to
true (discarding the incoming value) and folds conjunction over the inputs. -/
def blockAND (net : Net) (gate : Gate) (_r : Bool) : Bool :=
  (List.range gate.getFanIn).foldl (fun r i => r && inputTermVal net gate i) true

/-- The case OR block: re-initializes result to false and folds disjunction. -/
def blockOR (net : Net) (gate : Gate) (_r : Bool) : Bool :=
  (List.range gate.getFanIn).foldl (fun r i => r || inputTermVal net gate i) false

/-- The case XOR block: re-initializes result to false and folds parity. -/
def blockXOR (net : Net) (gate : Gate) (_r : Bool) : Bool :=
  (List.range gate.getFanIn).foldl (fun r i => xor r (inputTermVal net gate i)) false

/-- The default/BUFFER block: result = result XOR (driver(0).value XOR
inverting(0)); dereferences driver 0, which is NULL when fanIn = 0 (`none`
here, a crash in the source). -/
def blockBUFFER (net : Net) (gate : Gate) (r : Bool) : Option Bool :=
  match gate.inputs.get? 0 with
  | some d => some (xor r (xor (net.getOutputValueOf d) (gate.isInputInverting 0)))
  | none => none

/-- The switch of Gate::computeOutputValue exactly as written: no case ends in
a break, so control entering at any label runs every later block, and the
value of `result` left by the AND, OR and XOR blocks is overwritten by the
next block's re-initialization before the final BUFFER block mixes in driver 0.
`r0` is the indeterminate initial value of the uninitialized local `result`
(it only matters when the function is BUFFER). -/
def computeOutputValueRun (net : Net) (gate : Gate) (r0 : Bool) : Option Bool :=
  match gate.gateFunction with
  | .AND => blockBUFFER net gate (blockXOR net gate (blockOR net gate (blockAND net gate r0)))
  | .OR => blockBUFFER net gate (blockXOR net gate (blockOR net gate r0))
  | .XOR => blockBUFFER net gate (blockXOR net gate r0)
  | .BUFFER => blockBUFFER net gate r0

/-- Gate::computeOutputValue: run the switch, then store the result negated
when the output inverter is set.  A NULL dereference inside the switch is a
crash in the source; the model leaves the net unchanged there. -/
def Net.computeOutputValueOn (net : Net) (g : GateId) (r0 : Bool) : Net :=
  match net.get g with
  | none => net
  | some gate =>
    match computeOutputValueRun net gate r0 with
    | none => net
    | some result =>
      net.modifyGate g
        (fun gt => { gt with outputValue := if gt.outputInverter then !result else result })

/-- Modelled from the spec (sec 4.1 and sec 9): the intended per-function
semantics of computeOutputValue with no fallthrough between cases — AND folds
conjunction, OR disjunction, XOR parity, BUFFER copies driver 0, each over
driver value XOR edge-inverting bit, and the combined value is XOR-ed with
outputInverting.  Kept side by side with `computeOutputValueRun` to compare
the source against the spec's words. -/
def computeOutputValueSpecVal (net : Net) (gate : Gate) : Option Bool :=
  let combined : Option Bool :=
    match gate.gateFunction with
    | .AND => some ((List.range gate.getFanIn).foldl (fun r i => r && inputTermVal net gate i) true)
    | .OR => some ((List.range gate.getFanIn).foldl (fun r i => r || inputTermVal net gate i) false)
    | .XOR => some ((List.range gate.getFanIn).foldl (fun r i => xor r (inputTermVal net gate i)) false)
    | .BUFFER => (gate.inputs.get? 0).map (fun d => xor (net.getOutputValueOf d) (gate.isInputInverting 0))
  combined.map (fun r => xor r gate.outputInverter)

/-- BooleanNet::convdual_getComplementaryGateFn: AND and OR swap; BUFFER and
the default label (reached by XOR) both return BUFFER. -/
def convdualGetComplementaryGateFn : GateFunction → GateFunction
  | .AND => .OR
  | .OR => .AND
  | .BUFFER => .BUFFER
  | .XOR => .BUFFER

/-- One iteration of the duplicate-gates loop of BooleanNet::convDualRail:
allocate the twin, set its dual function and the original's placement, link
the complements both ways, copy the output inverter, then prepend each
(driver, negated polarity) pair with the matching driver.newFollow(twin).
The loop body never changes the original's input vectors, so the snapshot
`gate` read at entry is what every access in the body sees. -/
def dupGateWireStep (t : GateId) (gate : Gate) (n : Net) (j : Nat) : Net :=
  match gate.inputs.get? j with
  | none => n
  | some dj =>
    (n.newInputOn t (some dj) (! gate.isInputInverting j)).newFollowOn dj (some t)

def dupGateStep (st : Net × List GateId) (g : GateId) : Net × List GateId :=
  let net := st.1
  match net.get g with
  | none => st
  | some gate =>
    let al := net.alloc (Gate.mkGate ("D_" ++ gate.gateName))
    let t := al.2
    let net2 := al.1.modifyGate t (fun gt =>
      { gt with gateFunction := convdualGetComplementaryGateFn gate.gateFunction
                gatePlacement := gate.gatePlacement })
    let net3 := net2.modifyGate t (fun gt => { gt with complementaryGate := some g })
    let net4 := net3.modifyGate g (fun gt => { gt with complementaryGate := some t })
    let net5 := if gate.outputInverter then
        net4.modifyGate t (fun gt => { gt with outputInverter := true })
      else net4
    let net6 := (List.range gate.getFanIn).foldl (dupGateWireStep t gate) net5
    (net6, st.2 ++ [t])

/-- The duplicate-gates phase of convDualRail: run the loop over the gate list
(which the loop does not modify; new ids go to the local newGates vector) and
append the new ids to the gate list afterwards. -/
def dupGatesPhase (net : Net) : Net :=
  let st := net.gates.foldl dupGateStep (net, [])
  { st.1 with gates := st.1.gates ++ st.2 }

/-- One iteration of the duplicate-inputs loop of convDualRail: the twin is a
BUFFER/INPUT gate fed by the original through a NON-inverting edge, with the
output inverter set afterwards and the depth reset to 0; complements are
linked both ways. -/
def dupInputStep (st : Net × List GateId) (i : GateId) : Net × List GateId :=
  let net := st.1
  match net.get i with
  | none => st
  | some gate =>
    let al := net.alloc (Gate.mkGate ("D_" ++ gate.gateName))
    let t := al.2
    let net2 := al.1.modifyGate t (fun gt =>
      { gt with gateFunction := GateFunction.BUFFER, gatePlacement := GatePlacement.INPUT })
    let net3 := net2.newInputOn t (some i) false
    let net4 := net3.newFollowOn i (some t)
    let net5 := net4.modifyGate t (fun gt => { gt with outputInverter := true })
    let net6 := net5.modifyGate t (fun gt => { gt with depth := 0 })
    let net7 := net6.modifyGate t (fun gt => { gt with complementaryGate := some i })
    let net8 := net7.modifyGate i (fun gt => { gt with complementaryGate := some t })
    (net8, st.2 ++ [t])

/-- The duplicate-inputs phase of convDualRail. -/
def dupInputsPhase (net : Net) : Net :=
  let st := net.inputs.foldl dupInputStep (net, [])
  { st.1 with inputs := st.1.inputs ++ st.2 }

/-- One iteration of the duplicate-outputs loop of convDualRail: the twin
copies function and placement, complements are linked both ways, the twin is
fed by the complement of the output's driver, and when the output's single
input edge inverts, drivers are swapped between the output and its twin with
the follower lists patched up.  Every pointer dereference of the source
(`getDriver(0)`, `getComplement()`) goes through an Option here; a `none`
models a NULL the source would crash on, and the model skips that operation. -/
def dupOutputSwap1 (o : GateId) (net7 : Net) : Net :=
  net7.swapDriverOn o (net7.getDriver0 o) ((net7.getComplementOf o).bind net7.getDriver0)

def dupOutputSwap2 (o : GateId) (net8 : Net) : Net :=
  swapDriverOnOpt net8 (net8.getComplementOf o)
    ((net8.getComplementOf o).bind net8.getDriver0)
    ((net8.getDriver0 o).bind net8.getComplementOf)

def dupOutputFix1 (o : GateId) (net9 : Net) : Net :=
  remFollowOnOpt net9 (net9.getDriver0 o) (net9.getComplementOf o)

def dupOutputFix2 (o : GateId) (net10 : Net) : Net :=
  newFollowOnOpt net10 (net10.getDriver0 o) (some o)

def dupOutputFix3 (o : GateId) (net11 : Net) : Net :=
  remFollowOnOpt net11 ((net11.getComplementOf o).bind net11.getDriver0) (some o)

def dupOutputFix4 (o : GateId) (net12 : Net) : Net :=
  newFollowOnOpt net12 ((net12.getComplementOf o).bind net12.getDriver0)
    (net12.getComplementOf o)

/-- The driver swap of the duplicate-outputs loop taken when the output's
single input edge inverts: clear the bit, swap the output's driver for the
twin's, swap the twin's for the complement of the output's new driver, then
patch the four follower lists; each stage re-reads the current pointers as
the source lines do. -/
def dupOutputSwapTail (o : GateId) (net6 : Net) : Net :=
  dupOutputFix4 o (dupOutputFix3 o (dupOutputFix2 o (dupOutputFix1 o
    (dupOutputSwap2 o (dupOutputSwap1 o
      (net6.modifyGate o (fun gt => gt.setInputNonInverting 0)))))))

/-- Feed the twin from the complement of the output's single driver and
register the twin in that complement's follower list. -/
def dupOutputTwinWire (o t : GateId) (net4 : Net) : Net :=
  let dcomp := (net4.getDriver0 o).bind net4.getComplementOf
  newFollowOnOpt (net4.newInputOn t dcomp false) dcomp (some t)

/-- Allocation, function/placement copy, mutual complement linking and twin
wiring of one duplicate-outputs iteration; returns the net and the twin id. -/
def dupOutputPrefix (st : Net × List GateId) (o : GateId) (gate : Gate) : Net × GateId :=
  let al := st.1.alloc (Gate.mkGate ("D_" ++ gate.gateName))
  let t := al.2
  let net2 := al.1.modifyGate t (fun gt =>
    { gt with gateFunction := gate.gateFunction, gatePlacement := gate.gatePlacement })
  let net3 := net2.modifyGate t (fun gt => { gt with complementaryGate := some o })
  let net4 := net3.modifyGate o (fun gt => { gt with complementaryGate := some t })
  (dupOutputTwinWire o t net4, t)

def dupOutputStepSome (st : Net × List GateId) (o : GateId) (gate : Gate) :
    Net × List GateId :=
  let p := dupOutputPrefix st o gate
  let inv0 := ((p.1.get o).map (fun gt => gt.isInputInverting 0)).getD false
  (if inv0 then dupOutputSwapTail o p.1 else p.1, st.2 ++ [p.2])

def dupOutputStep (st : Net × List GateId) (o : GateId) : Net × List GateId :=
  match st.1.get o with
  | none => st
  | some gate => dupOutputStepSome st o gate

/-- The duplicate-outputs phase of convDualRail. -/
def dupOutputsPhase (net : Net) : Net :=
  let st := net.outputs.foldl dupOutputStep (net, [])
  { st.1 with outputs := st.1.outputs ++ st.2 }

/-- The flip-followers body of the first remove-inverters loop of convDualRail
for a single follower slot `j` of gate `g`: toggle the polarity of every input
slot k of the follower whose driver is `g`.  Bit reads and writes go to the
current net because the inner loop may revisit the same follower gate. -/
def riFlipSlot (g : GateId) (fj : GateId) (n3 : Net) (k : Nat) : Net :=
  match n3.get fj with
  | none => n3
  | some fg3 =>
    if fg3.inputs.get? k = some g then
      if fg3.isInputInverting k then n3.modifyGate fj (fun gt => gt.setInputNonInverting k)
      else n3.modifyGate fj (fun gt => gt.setInputInverting k)
    else n3

def riFlipFollower (g : GateId) (n : Net) (fj : GateId) : Net :=
  match n.get fj with
  | none => n
  | some fgate => (List.range fgate.getFanIn).foldl (riFlipSlot g fj) n

/-- One iteration of the first remove-inverters loop of convDualRail: when the
gate's output inverts, toggle the matching edge bit at every follower; then
unconditionally clear the gate's output inverter.  Flipping follower bits
never changes this gate's follower vector (even on a self-loop it only touches
inverter bits), so the snapshot read at entry is what the C++ loop reads. -/
def riFlipFollowStep (g : GateId) (gate : Gate) (n2 : Net) (j : Nat) : Net :=
  match gate.followingGates.get? j with
  | none => n2
  | some fj => riFlipFollower g n2 fj

def riClearOutputStep (n : Net) (g : GateId) : Net :=
  let n1 := match n.get g with
    | none => n
    | some gate =>
      if gate.outputInverter then
        (List.range gate.getFanOut).foldl (riFlipFollowStep g gate) n
      else n
  n1.modifyGate g (fun gt => { gt with outputInverter := false })

/-- The first remove-inverters loop (over the gate list). -/
def removeInvertersLoop1 (net : Net) : Net :=
  net.gates.foldl riClearOutputStep net

/-- One iteration of the change-inputs loops of convDualRail for gate `g`:
for every input slot j in ascending order, when the edge inverts, clear the
bit, detach from the old driver's follower list, swap the driver for its
complement, and attach to the new driver's follower list.  The gate's fan-in
never changes inside the loop (swapDriver replaces in place), so the snapshot
bound read at entry matches the C++ loop bound; each slot is re-read from the
current net because earlier slots may have rewired the vectors. -/
def riRedirectTail (g : GateId) (j : Nat) (n3 : Net) : Net :=
  let dj := (n3.get g).bind (fun gt => gt.inputs.get? j)
  let n4 := remFollowOnOpt n3 dj (some g)
  let n5 := n4.swapDriverOn g dj (dj.bind n4.getComplementOf)
  newFollowOnOpt n5 ((n5.get g).bind (fun gt => gt.inputs.get? j)) (some g)

def riRedirectSlot (g : GateId) (n2 : Net) (j : Nat) : Net :=
  match n2.get g with
  | none => n2
  | some gj =>
    if gj.isInputInverting j then
      riRedirectTail g j (n2.modifyGate g (fun gt => gt.setInputNonInverting j))
    else n2

def riRedirectStep (n : Net) (g : GateId) : Net :=
  match n.get g with
  | none => n
  | some gate0 => (List.range gate0.getFanIn).foldl (riRedirectSlot g) n

/-- The second remove-inverters loop (change the inputs of every gate). -/
def removeInvertersLoop2 (net : Net) : Net :=
  net.gates.foldl riRedirectStep net

/-- The third remove-inverters loop (change the inputs of every output). -/
def removeInvertersLoop3 (net : Net) : Net :=
  net.outputs.foldl riRedirectStep net

/-- BooleanNet::convDualRail: duplicate gates, inputs and outputs into the
complementary rail, then remove every residual inversion by the three loops. -/
def Net.convDualRail (net : Net) : Net :=
  removeInvertersLoop3 (removeInvertersLoop2 (removeInvertersLoop1
    (dupOutputsPhase (dupInputsPhase (dupGatesPhase net)))))

/-- The priority key of gateScoapComparator (gate.h):
observability * 0-controllability * 1-controllability in C++ unsigned int
arithmetic (left-associated products reduced mod 2^32). -/
def scoapKey (g : Gate) : Nat :=
  (g.scoapCO * g.scoapCC0 % UINT_MOD) * g.scoapCC1 % UINT_MOD

/-- The key read through a pointer (the comparator dereferences both gates). -/
def scoapKeyOf (net : Net) (g : GateId) : Nat :=
  ((net.get g).map scoapKey).getD 0

/-- std::priority_queue with gateScoapComparator: the comparator orders by
key-greater, so top() is an element with the SMALLEST key.  The model pops the
first minimal-key element and keeps the rest in push order; the SCOAP fields
never change while the queue is alive, so the keys are stable. -/
def popMinScoap (net : Net) : List GateId → Option (GateId × List GateId)
  | [] => none
  | x :: xs =>
    match popMinScoap net xs with
    | none => some (x, [])
    | some (m, rest) =>
      if scoapKeyOf net x ≤ scoapKeyOf net m then some (x, xs)
      else some (m, x :: rest)

/-- The push filter of BooleanNet::InsertBuffsByScoap: skip BUFFER gates, and
skip fan-out-1 gates whose sole follower is NULL or a BUFFER (prevents buffer
chains).  A dangling gate id is skipped as well (the source would crash
dereferencing it). -/
def scoapEligible (net : Net) (g : GateId) : Bool :=
  match net.get g with
  | none => false
  | some gate =>
    if gate.gateFunction = GateFunction.BUFFER then false
    else if gate.getFanOut = 1 then
      match gate.followingGates.get? 0 with
      | none => false
      | some f0 =>
        match net.get f0 with
        | none => false
        | some fg => !(fg.gateFunction = GateFunction.BUFFER)
    else true

/-- The while loop `while (top.getFanOut()) top.remFollow(top.getFollow(0))`
of InsertBuffsByScoap: each call removes at least the first follower, so the
fan-out read at entry plus one bounds the iterations. -/
def clearFollowersLoop : Nat → Net → GateId → Net
  | 0, n, _ => n
  | fuel + 1, n, g =>
    match n.get g with
    | none => n
    | some gt =>
      match gt.followingGates.get? 0 with
      | none => n
      | some f0 => clearFollowersLoop fuel (n.remFollowOn g (some f0)) g

/-- The pop loop of InsertBuffsByScoap exactly as written: the loop index is
decremented at the end of every body (`i--` compensating the pop), so it stays
at 0 and the loop runs while the heap is non-empty AND `places` is non-zero —
`places` never decreases, so every eligible entry is popped once places ≥ 1.
Each iteration consumes one heap element, so the heap length plus one bounds
the iterations (the fuel). -/
def insertBuffsLoop : Nat → Nat → List GateId → Net → List GateId → Net × List GateId
  | 0, _, _, net, acc => (net, acc)
  | fuel + 1, places, heap, net, acc =>
    match popMinScoap net heap with
    | none => (net, acc)
    | some (top, rest) =>
      if places = 0 then (net, acc)
      else
        match net.get top with
        | none => insertBuffsLoop fuel places rest net acc
        | some topGate =>
          let al := net.alloc (Gate.mkGate (topGate.gateName ++ "_SCOAPBUFF"))
          let b := al.2
          let net2 := al.1.modifyGate b (fun gt =>
            { gt with gateFunction := GateFunction.BUFFER
                      outputInverter := false
                      gatePlacement := GatePlacement.INNER })
          let net3 := (List.range topGate.getFanOut).foldl (fun n j =>
            match (n.get top).bind (fun tg => tg.followingGates.get? j) with
            | none => n
            | some fj =>
              let n1 := n.newFollowOn b (some fj)
              n1.swapDriverOn fj (some top) (some b)) net2
          let net4 := clearFollowersLoop
            (((net3.get top).map (fun tg => tg.getFanOut)).getD 0 + 1) net3 top
          let net5 := net4.newFollowOn top (some b)
          let net6 := net5.newInputOn b (some top) false
          insertBuffsLoop fuel places rest net6 (acc ++ [b])

/-- BooleanNet::InsertBuffsByScoap: build the queue from the eligible gates in
gate-list order, run the pop loop, then append the new buffers to both the
gate list and the buffer list. -/
def Net.InsertBuffsByScoap (net : Net) (places : Nat) : Net :=
  let heap := net.gates.filter (fun g => scoapEligible net g)
  let st := insertBuffsLoop (heap.length + 1) places heap net []
  { st.1 with gates := st.1.gates ++ st.2, buffers := st.1.buffers ++ st.2 }

/-- BooleanNet::BooleanNet(in, out, gates): eagerly allocate the input
buffers INPUT_k, the inner gates GATE_k and the output buffers OUT_k, in that
order (ids follow allocation order); the constructor's setDepth(0) on fresh
inputs is a no-op. -/
def mkBooleanNet (inN outN gateN : Nat) : Net :=
  let inGates := (List.range inN).map (fun k =>
    { Gate.mkGate ("INPUT_" ++ toString k) with gatePlacement := GatePlacement.INPUT })
  let innerGates := (List.range gateN).map (fun k => Gate.mkGate ("GATE_" ++ toString k))
  let outGates := (List.range outN).map (fun k =>
    { Gate.mkGate ("OUT_" ++ toString k) with gatePlacement := GatePlacement.OUTPUT })
  { heap := inGates ++ innerGates ++ outGates
    gates := (List.range gateN).map (fun k => inN + k)
    inputs := List.range inN
    outputs := (List.range outN).map (fun k => inN + gateN + k)
    buffers := []
    netDepth := 0
    netSumScoap := 0
    netPlaced := false }

/-- BooleanNet::getInput through an index that the loader computes in C int
arithmetic: a negative or too-large index yields NULL (the unsigned parameter
wraps negatives far out of range). -/
def Net.inputIdIdx (net : Net) (k : Int) : Option GateId :=
  if k < 0 then none else net.inputs.get? k.toNat

/-- BooleanNet::getGate through a loader-computed index; NULL out of range. -/
def Net.gateIdIdx (net : Net) (k : Int) : Option GateId :=
  if k < 0 then none else net.gates.get? k.toNat

/-- The wiring common to the output-literal branches of AagLoader: the output
slot's gate gets its single input, and the driver gets the output as follower.
A NULL output-slot or driver pointer is dereferenced by the source (crash);
the model skips the operation. -/
def wireOutput (net : Net) (i : Nat) (drv : Option GateId) (inv : Bool) : Net :=
  match net.outputs.get? i with
  | none => net
  | some oId =>
    let net1 := net.newInputOn oId drv inv
    match drv with
    | some d => net1.newFollowOn d (some oId)
    | none => net1

/-- The output-literal loop of AagLoader, one literal per line with C
truncating division and remainder: constants (0/1) drop the output slot and
re-run the same slot index with one fewer slot to fill; input literals wire
the slot to INPUT (lit div 2 - 1) with the literal's parity as inversion;
larger literals wire it to GATE (lit div 2 - I - 1).  Returns false when the
lines run out early (the EOF branch). -/
def loadOutputs (hdrI : Int) : List Int → Nat → Nat → Net → Net × Bool
  | _, _, 0, net => (net, true)
  | [], _, _ + 1, net => (net, false)
  | lit :: rest, i, rem + 1, net =>
    if lit = 0 ∨ lit = 1 then
      loadOutputs hdrI rest i rem (net.remOutput i)
    else if lit.tdiv 2 ≤ hdrI ∧ lit.tmod 2 = 1 then
      loadOutputs hdrI rest (i + 1) rem
        (wireOutput net i (net.inputIdIdx (lit.tdiv 2 - 1)) true)
    else if lit.tdiv 2 ≤ hdrI then
      loadOutputs hdrI rest (i + 1) rem
        (wireOutput net i (net.inputIdIdx (lit.tdiv 2 - 1)) false)
    else if lit.tmod 2 = 1 then
      loadOutputs hdrI rest (i + 1) rem
        (wireOutput net i (net.gateIdIdx (lit.tdiv 2 - hdrI - 1)) true)
    else
      loadOutputs hdrI rest (i + 1) rem
        (wireOutput net i (net.gateIdIdx (lit.tdiv 2 - hdrI - 1)) false)

/-- Wire one operand of an AND line of AagLoader: literals up to 2I+1 refer to
primary inputs, larger ones to inner gates; the operand's parity is the
edge-inverting bit. -/
def wireAndInput (net : Net) (gId : GateId) (inLit hdrI : Int) : Net :=
  let drv := if inLit ≤ 2 * hdrI + 1 then net.inputIdIdx (inLit.tdiv 2 - 1)
    else net.gateIdIdx (inLit.tdiv 2 - hdrI - 1)
  let net1 := net.newInputOn gId drv (inLit.tmod 2 = 1)
  match drv with
  | some d => net1.newFollowOn d (some gId)
  | none => net1

/-- The AND-definition loop of AagLoader: each line `lhs in0 in1` marks gate
(lhs div 2 - I - 1) as AND and wires both operands.  Returns false when the
lines run out early. -/
def loadAnds (hdrI : Int) : List (Int × Int × Int) → Nat → Net → Net × Bool
  | _, 0, net => (net, true)
  | [], _ + 1, net => (net, false)
  | (lhs, in1, in2) :: rest, a + 1, net =>
    match net.gateIdIdx (lhs.tdiv 2 - hdrI - 1) with
    | none => loadAnds hdrI rest a net
    | some gid =>
      let net1 := net.modifyGate gid (fun gt => { gt with gateFunction := GateFunction.AND })
      let net2 := wireAndInput net1 gid in1 hdrI
      let net3 := wireAndInput net2 gid in2 hdrI
      loadAnds hdrI rest a net3

/-- AagLoader::AagLoader on an already-tokenized file body: the header fields
M I L O A (C ints), the input-literal lines, the output-literal lines and the
AND lines.  The first component models the out-parameter (`none` = never
assigned), the second models the isLoaded flag read by isFileLoaded().  The
magic-numbers check M = I + L + A and the latch check L = 0 run BEFORE the
BooleanNet allocation; any later EOF returns with the net allocated but
isLoaded still false. -/
def aagLoad (hdrM hdrI hdrL hdrO hdrA : Int)
    (inLits : List Int) (outLits : List Int) (ands : List (Int × Int × Int)) :
    Option Net × Bool :=
  if hdrM ≠ hdrI + hdrL + hdrA then (none, false)
  else if hdrL ≠ 0 then (none, false)
  else
    let net0 := mkBooleanNet hdrI.toNat hdrO.toNat hdrA.toNat
    if inLits.length < hdrI.toNat then (some net0, false)
    else
      let r1 := loadOutputs hdrI outLits 0 hdrO.toNat net0
      if r1.2 = false then (some r1.1, false)
      else
        let r2 := loadAnds hdrI ands hdrA.toNat r1.1
        if r2.2 = false then (some r2.1, false)
        else (some r2.1, true)

/-- Chain a reflexive transitive relation through a left fold whose every step
stays in the relation. -/
theorem foldlChain {σ α : Type} (R : σ → σ → Prop)
    (hrefl : ∀ s, R s s) (htrans : ∀ a b c, R a b → R b c → R a c)
    (step : σ → α → σ) (hstep : ∀ s a, R s (step s a)) :
    ∀ (l : List α) (s : σ), R s (l.foldl step s) := by
  intro l
  induction l with
  | nil => intro s; exact hrefl s
  | cons a t ih =>
    intro s
    exact htrans _ _ _ (hstep s a) (ih (step s a))

/-- Reading back through modifyGate: the modified slot gets the mapped gate,
every other slot is untouched. -/
theorem get_modifyGate (net : Net) (g : GateId) (f : Gate → Gate) (id : GateId) :
    (net.modifyGate g f).get id = if id = g then (net.get id).map f else net.get id := by
  unfold Net.modifyGate
  cases hg : net.get g with
  | none =>
    by_cases hid : id = g
    · subst hid; simp [hg]
    · simp [hid]
  | some gate =>
    have hlen : g < net.heap.length := by
      by_contra hlt
      push_neg at hlt
      have : net.heap.get? g = none := List.get?_eq_none.2 hlt
      rw [Net.get] at hg
      rw [this] at hg
      exact Option.noConfusion hg
    by_cases hid : id = g
    · subst hid
      simp only [Net.get, List.get?_eq_getElem?] at hg ⊢
      simp [List.getElem?_set_self, hlen, hg]
    · simp only [Net.get, List.get?_eq_getElem?]
      simp [hid, List.getElem?_set_ne (fun h => hid h.symm)]

/-- modifyGate at the modified id. -/
theorem get_modifyGate_self (net : Net) (g : GateId) (f : Gate → Gate) :
    (net.modifyGate g f).get g = (net.get g).map f := by
  rw [get_modifyGate]; simp

/-- modifyGate away from the modified id. -/
theorem get_modifyGate_ne (net : Net) (g : GateId) (f : Gate → Gate) (id : GateId)
    (h : id ≠ g) : (net.modifyGate g f).get id = net.get id := by
  rw [get_modifyGate]; simp [h]

/-- The list collections and cached scalars are untouched by modifyGate. -/
theorem modifyGate_struct (net : Net) (g : GateId) (f : Gate → Gate) :
    (net.modifyGate g f).gates = net.gates ∧ (net.modifyGate g f).inputs = net.inputs ∧
    (net.modifyGate g f).outputs = net.outputs ∧ (net.modifyGate g f).buffers = net.buffers ∧
    (net.modifyGate g f).netDepth = net.netDepth ∧
    (net.modifyGate g f).netSumScoap = net.netSumScoap ∧
    (net.modifyGate g f).netPlaced = net.netPlaced := by
  unfold Net.modifyGate
  cases net.get g <;> simp

/-- Reading back through alloc: old slots untouched, the fresh slot holds the
new gate. -/
theorem get_alloc (net : Net) (gate : Gate) (id : GateId) (h : id < net.heap.length) :
    (net.alloc gate).1.get id = net.get id := by
  simp only [Net.alloc, Net.get, List.get?_eq_getElem?]
  rw [List.getElem?_append_left h]

/-- The fresh slot of alloc. -/
theorem get_alloc_self (net : Net) (gate : Gate) :
    (net.alloc gate).1.get net.heap.length = some gate := by
  simp only [Net.alloc, Net.get, List.get?_eq_getElem?]
  rw [List.getElem?_append_right (le_refl _)]
  simp

/-- A projection of the gate record is stable between two nets when reading it
back through every id gives the same answer. -/
def stableUnder {β : Type} (F : Gate → β) (nA nB : Net) : Prop :=
  ∀ id, (nB.get id).map F = (nA.get id).map F

theorem stableUnder_refl {β : Type} (F : Gate → β) (n : Net) : stableUnder F n n :=
  fun _ => rfl

theorem stableUnder_trans {β : Type} (F : Gate → β) (a b c : Net)
    (h1 : stableUnder F a b) (h2 : stableUnder F b c) : stableUnder F a c :=
  fun id => (h2 id).trans (h1 id)

/-- modifyGate with a gate function that the projection cannot see. -/
theorem stableUnder_modifyGate {β : Type} (F : Gate → β) (net : Net) (g : GateId)
    (f : Gate → Gate) (hf : ∀ gt, F (f gt) = F gt) :
    stableUnder F net (net.modifyGate g f) := by
  intro id
  rw [get_modifyGate]
  by_cases hid : id = g
  · subst hid
    simp only [if_pos rfl, Option.map_map]
    cases net.get id <;> simp [hf]
  · simp [hid]

/-- setDepthGo only writes depth fields. -/
theorem stableUnder_setDepthGo {β : Type} (F : Gate → β)
    (hF : ∀ gt d, F { gt with depth := d } = F gt) :
    ∀ (fuel : Nat) (net : Net) (g : GateId) (d : Nat),
      stableUnder F net (Net.setDepthGo fuel net g d) := by
  intro fuel
  induction fuel with
  | zero => intro net g d; exact stableUnder_refl F net
  | succ fuel ih =>
    intro net g d
    unfold Net.setDepthGo
    cases hg : net.get g with
    | none => exact stableUnder_refl F net
    | some gate =>
      by_cases hd : gate.depth < d
      · simp only [hd, if_pos]
        refine stableUnder_trans F _ _ _
          (stableUnder_modifyGate F net g _ (fun gt => hF gt d)) ?_
        exact foldlChain (stableUnder F) (stableUnder_refl F)
          (stableUnder_trans F) _ (fun s a => ih s a (d + 1)) gate.followingGates _
      · simp only [hd, if_neg, ite_false]
        exact stableUnder_refl F net

/-- Net.setDepth only writes depth fields. -/
theorem stableUnder_setDepth {β : Type} (F : Gate → β)
    (hF : ∀ gt d, F { gt with depth := d } = F gt)
    (net : Net) (g : GateId) (d : Nat) : stableUnder F net (net.setDepth g d) :=
  stableUnder_setDepthGo F hF _ net g d

/-- newFollowOn only writes a follower vector. -/
theorem stableUnder_newFollowOn {β : Type} (F : Gate → β)
    (hF : ∀ gt f, F (Gate.newFollow gt f) = F gt)
    (net : Net) (g : GateId) (f : Option GateId) :
    stableUnder F net (net.newFollowOn g f) :=
  stableUnder_modifyGate F net g _ (fun gt => hF gt f)

/-- remFollowOn only writes a follower vector. -/
theorem stableUnder_remFollowOn {β : Type} (F : Gate → β)
    (hF : ∀ gt f, F (Gate.remFollow gt f) = F gt)
    (net : Net) (g : GateId) (f : Option GateId) :
    stableUnder F net (net.remFollowOn g f) :=
  stableUnder_modifyGate F net g _ (fun gt => hF gt f)

/-- swapDriverOn only rewrites one driver slot in place and depth fields. -/
theorem stableUnder_swapDriverOn {β : Type} (F : Gate → β)
    (hFin : ∀ gt od nd, F { gt with inputs := replaceFirst od nd gt.inputs } = F gt)
    (hFd : ∀ gt d, F { gt with depth := d } = F gt)
    (net : Net) (g : GateId) (oldD newD : Option GateId) :
    stableUnder F net (net.swapDriverOn g oldD newD) := by
  unfold Net.swapDriverOn
  cases net.get g with
  | none => exact stableUnder_refl F net
  | some gate =>
    cases oldD with
    | none => exact stableUnder_refl F net
    | some od =>
      by_cases hc : gate.inputs.contains od
      · simp only [hc, if_pos]
        cases newD with
        | none => exact stableUnder_refl F net
        | some nd =>
          exact stableUnder_trans F _
            (net.modifyGate g (fun gt => { gt with inputs := replaceFirst od nd gt.inputs })) _
            (stableUnder_modifyGate F net g _ (fun gt => hFin gt od nd))
            (stableUnder_setDepth F hFd _ g _)
      · simp only [hc, ite_false]
        exact stableUnder_refl F net

/-- newInputOn only writes the driver and inverter vectors and depth fields. -/
theorem stableUnder_newInputOn {β : Type} (F : Gate → β)
    (hFin : ∀ gt p inv, F { gt with inputs := p :: gt.inputs, inputInverters := inv :: gt.inputInverters } = F gt)
    (hFd : ∀ gt d, F { gt with depth := d } = F gt)
    (net : Net) (g : GateId) (pred : Option GateId) (inv : Bool) :
    stableUnder F net (net.newInputOn g pred inv) := by
  unfold Net.newInputOn
  cases pred with
  | none => exact stableUnder_refl F net
  | some p =>
    exact stableUnder_trans F _
      (net.modifyGate g (fun gt => { gt with inputs := p :: gt.inputs, inputInverters := inv :: gt.inputInverters })) _
      (stableUnder_modifyGate F net g _ (fun gt => hFin gt p inv))
      (stableUnder_setDepth F hFd _ g _)

/-- The id collections and cached scalars agree. -/
def sameLists (nA nB : Net) : Prop :=
  nB.gates = nA.gates ∧ nB.inputs = nA.inputs ∧ nB.outputs = nA.outputs ∧
  nB.buffers = nA.buffers

theorem sameLists_refl (n : Net) : sameLists n n := ⟨rfl, rfl, rfl, rfl⟩

theorem sameLists_trans (a b c : Net) (h1 : sameLists a b) (h2 : sameLists b c) :
    sameLists a c :=
  ⟨h2.1.trans h1.1, h2.2.1.trans h1.2.1, h2.2.2.1.trans h1.2.2.1, h2.2.2.2.trans h1.2.2.2⟩

theorem sameLists_modifyGate (net : Net) (g : GateId) (f : Gate → Gate) :
    sameLists net (net.modifyGate g f) := by
  obtain ⟨h1, h2, h3, h4, _⟩ := modifyGate_struct net g f
  exact ⟨h1, h2, h3, h4⟩

theorem sameLists_setDepthGo :
    ∀ (fuel : Nat) (net : Net) (g : GateId) (d : Nat),
      sameLists net (Net.setDepthGo fuel net g d) := by
  intro fuel
  induction fuel with
  | zero => intro net g d; exact sameLists_refl net
  | succ fuel ih =>
    intro net g d
    unfold Net.setDepthGo
    cases net.get g with
    | none => exact sameLists_refl net
    | some gate =>
      by_cases hd : gate.depth < d
      · simp only [hd, if_pos]
        refine sameLists_trans _
          (net.modifyGate g (fun gt => { gt with depth := d })) _
          (sameLists_modifyGate net g _) ?_
        exact foldlChain sameLists sameLists_refl sameLists_trans _
          (fun s a => ih s a (d + 1)) gate.followingGates _
      · simp only [hd, ite_false]
        exact sameLists_refl net

theorem sameLists_setDepth (net : Net) (g : GateId) (d : Nat) :
    sameLists net (net.setDepth g d) :=
  sameLists_setDepthGo _ net g d

theorem sameLists_newFollowOn (net : Net) (g : GateId) (f : Option GateId) :
    sameLists net (net.newFollowOn g f) :=
  sameLists_modifyGate net g _

theorem sameLists_remFollowOn (net : Net) (g : GateId) (f : Option GateId) :
    sameLists net (net.remFollowOn g f) :=
  sameLists_modifyGate net g _

theorem sameLists_newInputOn (net : Net) (g : GateId) (p : Option GateId) (inv : Bool) :
    sameLists net (net.newInputOn g p inv) := by
  unfold Net.newInputOn
  cases p with
  | none => exact sameLists_refl net
  | some pd =>
    exact sameLists_trans _
      (net.modifyGate g (fun gt => { gt with inputs := pd :: gt.inputs, inputInverters := inv :: gt.inputInverters })) _
      (sameLists_modifyGate net g _) (sameLists_setDepth _ g _)

theorem sameLists_swapDriverOn (net : Net) (g : GateId) (oldD newD : Option GateId) :
    sameLists net (net.swapDriverOn g oldD newD) := by
  unfold Net.swapDriverOn
  cases net.get g with
  | none => exact sameLists_refl net
  | some gate =>
    cases oldD with
    | none => exact sameLists_refl net
    | some od =>
      by_cases hc : gate.inputs.contains od
      · simp only [hc, if_pos]
        cases newD with
        | none => exact sameLists_refl net
        | some nd =>
          exact sameLists_trans _
            (net.modifyGate g (fun gt => { gt with inputs := replaceFirst od nd gt.inputs })) _
            (sameLists_modifyGate net g _) (sameLists_setDepth _ g _)
      · simp only [hc, ite_false]
        exact sameLists_refl net

/-- C9: calling newInput, newFollow, remInput or remFollow with a NULL gate
pointer is a no-op: each checks the pointer first and returns before touching
the input list, the input-inverter list, the follower list or the depth. -/
theorem C9_null_arguments_are_noops (net : Net) (g : GateId) (b : Bool) (gt : Gate) :
    net.newInputOn g none b = net ∧ gt.newFollow none = gt ∧
    gt.remInput none = gt ∧ gt.remFollow none = gt :=
  ⟨rfl, rfl, rfl, rfl⟩

/-- C10: a freshly constructed gate is unplaced; an unplaced gate reports the
sentinel -1 from both coordinate getters and false from isPlaced; after
placeGate(x, y) the gate is placed at exactly (x, y). -/
theorem C10_placement_sentinels (name : String) (g : Gate) (x y : Int) :
    (Gate.mkGate name).placed = false ∧
    (g.placed = false →
      g.getPlaceXCoord = -1 ∧ g.getPlaceYCoord = -1 ∧ g.isPlaced = false) ∧
    (g.placeGate x y).isPlaced = true ∧ (g.placeGate x y).getPlaceXCoord = x ∧
    (g.placeGate x y).getPlaceYCoord = y := by
  refine ⟨rfl, ?_, rfl, rfl, rfl⟩
  intro h
  simp [Gate.getPlaceXCoord, Gate.getPlaceYCoord, Gate.isPlaced, h]

/-- C10 witness: the theorem applied to a concrete fresh gate and concrete
coordinates. -/
theorem C10_placement_sentinels_witness :
    (Gate.mkGate "W").getPlaceXCoord = -1 ∧ (Gate.mkGate "W").getPlaceYCoord = -1 ∧
    (Gate.mkGate "W").isPlaced = false ∧
    ((Gate.mkGate "W").placeGate 3 4).isPlaced = true ∧
    ((Gate.mkGate "W").placeGate 3 4).getPlaceXCoord = 3 ∧
    ((Gate.mkGate "W").placeGate 3 4).getPlaceYCoord = 4 := by
  have h := C10_placement_sentinels "W" (Gate.mkGate "W") 3 4
  obtain ⟨-, himp, h1, h2, h3⟩ := h
  obtain ⟨ha, hb, hc⟩ := himp rfl
  exact ⟨ha, hb, hc, h1, h2, h3⟩

/-- The concrete net for C1: drivers 0 (value false) and 1 (value true)
feeding an AND gate 2 through non-inverting edges, output inverter clear. -/
def netC1 : Net :=
  { heap := [{ Gate.mkGate "d0" with outputValue := false, followingGates := [2] },
             { Gate.mkGate "d1" with outputValue := true, followingGates := [2] },
             { Gate.mkGate "a" with gateFunction := GateFunction.AND, inputs := [0, 1], inputInverters := [false, false], depth := 1 }]
    gates := [2], inputs := [0, 1], outputs := [], buffers := []
    netDepth := 0, netSumScoap := 0, netPlaced := false }

/-- C1: the switch in Gate::computeOutputValue falls through, so the AND gate
over drivers (false, true) stores true — the XOR-parity of all inputs
re-xored with input 0, i.e. the value of driver 1 — for either possible value
of the uninitialized local, while the specified per-function semantics
(conjunction, here false = false AND true) yields false. -/
theorem C1_fallthrough_stores_wrong_value :
    (((netC1.computeOutputValueOn 2 false).get 2).map (fun g => g.outputValue) = some true) ∧
    (((netC1.computeOutputValueOn 2 true).get 2).map (fun g => g.outputValue) = some true) ∧
    ((netC1.get 2).bind (fun gate => computeOutputValueSpecVal netC1 gate) = some false) ∧
    ((netC1.getOutputValueOf 0 && netC1.getOutputValueOf 1) = false) := by
  decide

/-- The concrete net for C2: inner AND gates 2 and 3 (gate 2 drives gate 3,
gate 3 drives both outputs), both eligible for the SCOAP heap. -/
def netC2 : Net :=
  { heap := [{ Gate.mkGate "INPUT_0" with gatePlacement := GatePlacement.INPUT, followingGates := [2] },
             { Gate.mkGate "INPUT_1" with gatePlacement := GatePlacement.INPUT, followingGates := [2] },
             { Gate.mkGate "GATE_0" with gateFunction := GateFunction.AND, inputs := [0, 1], inputInverters := [false, false], followingGates := [3], depth := 1 },
             { Gate.mkGate "GATE_1" with gateFunction := GateFunction.AND, inputs := [2, 2], inputInverters := [false, true], followingGates := [4, 5], depth := 2 },
             { Gate.mkGate "OUT_0" with gatePlacement := GatePlacement.OUTPUT, inputs := [3], inputInverters := [false], depth := 3 },
             { Gate.mkGate "OUT_1" with gatePlacement := GatePlacement.OUTPUT, inputs := [3], inputInverters := [false], depth := 3 }]
    gates := [2, 3], inputs := [0, 1], outputs := [4, 5], buffers := []
    netDepth := 3, netSumScoap := 0, netPlaced := false }

/-- C2: the pop loop of InsertBuffsByScoap decrements its index inside the
body, so it never advances: with places = 1 and two eligible gates BOTH are
popped and two buffers are appended (the claim allows at most one); with
places = 0 the loop does not run. -/
theorem C2_insertbuffs_ignores_count :
    (netC2.InsertBuffsByScoap 1).buffers.length = 2 ∧
    netC2.buffers.length = 0 ∧
    (netC2.InsertBuffsByScoap 0).buffers.length = 0 := by
  decide

/-- The maximum depth over the output gates, the quantity the spec says
computeNetDepth should produce. -/
def outsMaxDepth (net : Net) : Nat :=
  (net.outputs.map (fun o => net.getDepthOf o)).foldl max 0

/-- Folding max from an arbitrary start equals max of the start and the fold
from zero. -/
theorem foldl_max_shift (l : List Nat) : ∀ a : Nat, l.foldl max a = max a (l.foldl max 0) := by
  induction l with
  | nil => intro a; simp
  | cons d t ih =>
    intro a
    simp only [List.foldl_cons]
    rw [ih (max a d), ih (max 0 d)]
    simp [Nat.max_assoc]

/-- The fold inside computeNetDepth is a running maximum. -/
theorem netDepthFold_eq (net : Net) (a : Nat) :
    net.outputs.foldl
      (fun acc o => if net.getDepthOf o > acc then net.getDepthOf o else acc) a
      = max a (outsMaxDepth net) := by
  have hstep : (fun (acc : Nat) (o : GateId) =>
      if net.getDepthOf o > acc then net.getDepthOf o else acc)
      = fun acc o => max acc (net.getDepthOf o) := by
    funext acc o
    split <;> omega
  rw [hstep, outsMaxDepth, ← List.foldl_map (fun o => net.getDepthOf o) max, foldl_max_shift]

/-- computeNetDepth in closed form. -/
theorem computeNetDepth_eq (net : Net) :
    net.computeNetDepth = { net with netDepth := max net.netDepth (outsMaxDepth net) } :=
  congrArg (fun x => { net with netDepth := x }) (netDepthFold_eq net net.netDepth)

/-- C3 (amended): computeNetDepth sets netDepth to the maximum of the cached
netDepth and the maximum output depth — the cached value is never reset, so a
stale larger cache survives — and calling it twice equals calling it once. -/
theorem C3_computeNetDepth_maxes_into_cache (net : Net) :
    (net.computeNetDepth).netDepth = max net.netDepth (outsMaxDepth net) ∧
    (net.computeNetDepth).computeNetDepth = net.computeNetDepth := by
  constructor
  · rw [computeNetDepth_eq]
  · rw [computeNetDepth_eq net, computeNetDepth_eq]
    have houts : outsMaxDepth { net with netDepth := max net.netDepth (outsMaxDepth net) }
        = outsMaxDepth net := rfl
    rw [houts]
    simp [Nat.max_assoc]

/-- The concrete net for C3: a stale cached netDepth of 5 above a single
output gate of depth 2. -/
def netC3 : Net :=
  { heap := [{ Gate.mkGate "OUT_0" with gatePlacement := GatePlacement.OUTPUT, depth := 2 }]
    gates := [], inputs := [], outputs := [0], buffers := []
    netDepth := 5, netSumScoap := 0, netPlaced := false }

/-- C3 counterexample: with the cached netDepth 5 and maximum output depth 2,
computeNetDepth leaves 5 in place, so the claimed equality with the maximum
output depth fails. -/
theorem C3_counterexample_stale_cache :
    (netC3.computeNetDepth).netDepth = 5 ∧ outsMaxDepth netC3 = 2 ∧ (5 : Nat) ≠ 2 := by
  decide

/-- The erase loop leaves the vector alone when no entry from index `i` on
matches. -/
theorem eraseMatchesFrom_no_match (p : GateId) :
    ∀ (fuel i : Nat) (l : List GateId),
      (∀ j (hj : j < l.length), i ≤ j → l.get ⟨j, hj⟩ ≠ p) →
      eraseMatchesFrom p fuel i l = l := by
  intro fuel
  induction fuel with
  | zero => intro i l _; rfl
  | succ fuel ih =>
    intro i l h
    unfold eraseMatchesFrom
    by_cases hi : i < l.length
    · rw [dif_pos hi, if_neg (h i hi (le_refl i))]
      exact ih (i + 1) l (fun j hj hij => h j hj (le_trans (Nat.le_succ i) hij))
    · rw [dif_neg hi]

/-- The pair erase loop leaves both vectors alone when no driver entry from
index `i` on matches. -/
theorem eraseMatchesFromPair_no_match (p : GateId) :
    ∀ (fuel i : Nat) (ins : List GateId) (invs : List Bool),
      (∀ j (hj : j < ins.length), i ≤ j → ins.get ⟨j, hj⟩ ≠ p) →
      eraseMatchesFromPair p fuel i ins invs = (ins, invs) := by
  intro fuel
  induction fuel with
  | zero => intro i ins invs _; rfl
  | succ fuel ih =>
    intro i ins invs h
    unfold eraseMatchesFromPair
    by_cases hi : i < ins.length
    · rw [dif_pos hi, if_neg (h i hi (le_refl i))]
      exact ih (i + 1) ins invs (fun j hj hij => h j hj (le_trans (Nat.le_succ i) hij))
    · rw [dif_neg hi]

/-- After erasing the unique occurrence, nothing in the shrunk vector
matches. -/
theorem eraseIdx_unique_no_match (p : GateId) (l : List GateId) (k : Nat)
    (hk : k < l.length)
    (huniq : ∀ j (hj : j < l.length), l.get ⟨j, hj⟩ = p → j = k) :
    ∀ j (hj : j < (l.eraseIdx k).length), (l.eraseIdx k).get ⟨j, hj⟩ ≠ p := by
  intro j hj hjp
  have hlen : (l.eraseIdx k).length = l.length - 1 := by
    rw [List.length_eraseIdx]
    simp [hk]
  rw [List.get_eq_getElem] at hjp
  by_cases hji : j < k
  · rw [List.getElem_eraseIdx_of_lt l k j hj hji] at hjp
    have := huniq j (by omega) (by rw [List.get_eq_getElem]; exact hjp)
    omega
  · have hge : k ≤ j := Nat.le_of_not_lt hji
    rw [List.getElem_eraseIdx_of_ge l k j hj hge] at hjp
    have hjb : j + 1 < l.length := by omega
    have := huniq (j + 1) hjb (by rw [List.get_eq_getElem]; exact hjp)
    omega

/-- The erase loop removes exactly the entry at `k` when `k` holds the only
occurrence. -/
theorem eraseMatchesFrom_unique (p : GateId) :
    ∀ (fuel i : Nat) (l : List GateId) (k : Nat) (hk : k < l.length),
      i ≤ k → l.length - i < fuel → l.get ⟨k, hk⟩ = p →
      (∀ j (hj : j < l.length), l.get ⟨j, hj⟩ = p → j = k) →
      eraseMatchesFrom p fuel i l = l.eraseIdx k := by
  intro fuel
  induction fuel with
  | zero => intro i l k hk hik hfuel _ _; omega
  | succ fuel ih =>
    intro i l k hk hik hfuel hget huniq
    have hi : i < l.length := Nat.lt_of_le_of_lt hik hk
    unfold eraseMatchesFrom
    rw [dif_pos hi]
    by_cases hip : l.get ⟨i, hi⟩ = p
    · have hik2 : i = k := huniq i hi hip
      subst hik2
      rw [if_pos hip]
      exact eraseMatchesFrom_no_match p fuel (i + 1) (l.eraseIdx i)
        (fun j hj _ => eraseIdx_unique_no_match p l i hi huniq j hj)
    · rw [if_neg hip]
      have hne : i ≠ k := by
        intro he
        subst he
        exact hip hget
      exact ih (i + 1) l k hk (by omega) (by omega) hget huniq

/-- The pair erase loop removes exactly the entries at `k` from both vectors
when `k` holds the only matching driver. -/
theorem eraseMatchesFromPair_unique (p : GateId) :
    ∀ (fuel i : Nat) (ins : List GateId) (invs : List Bool) (k : Nat) (hk : k < ins.length),
      i ≤ k → ins.length - i < fuel → ins.get ⟨k, hk⟩ = p →
      (∀ j (hj : j < ins.length), ins.get ⟨j, hj⟩ = p → j = k) →
      eraseMatchesFromPair p fuel i ins invs = (ins.eraseIdx k, invs.eraseIdx k) := by
  intro fuel
  induction fuel with
  | zero => intro i ins invs k hk hik hfuel _ _; omega
  | succ fuel ih =>
    intro i ins invs k hk hik hfuel hget huniq
    have hi : i < ins.length := Nat.lt_of_le_of_lt hik hk
    unfold eraseMatchesFromPair
    rw [dif_pos hi]
    by_cases hip : ins.get ⟨i, hi⟩ = p
    · have hik2 : i = k := huniq i hi hip
      subst hik2
      rw [if_pos hip]
      exact eraseMatchesFromPair_no_match p fuel (i + 1) (ins.eraseIdx i) (invs.eraseIdx i)
        (fun j hj _ => eraseIdx_unique_no_match p ins i hi huniq j hj)
    · rw [if_neg hip]
      have hne : i ≠ k := by
        intro he
        subst he
        exact hip hget
      exact ih (i + 1) ins invs k hk (by omega) (by omega) hget huniq

/-- C4 (amended): remInput and remFollow leave the vectors alone when the
argument is absent, and remove exactly the matching entry (with its paired
inverting bit for remInput) when the argument occurs exactly once; with
repeated non-adjacent occurrences the missing break makes the loop remove
more than one entry (see the counterexample). -/
theorem C4_rem_first_occurrence (g : Gate) (p f : GateId) :
    (p ∉ g.inputs → g.remInput (some p) = g) ∧
    (f ∉ g.followingGates → g.remFollow (some f) = g) ∧
    (∀ k (hk : k < g.inputs.length), g.inputs.get ⟨k, hk⟩ = p →
      (∀ j (hj : j < g.inputs.length), g.inputs.get ⟨j, hj⟩ = p → j = k) →
      (g.remInput (some p)).inputs = g.inputs.eraseIdx k ∧
      (g.remInput (some p)).inputInverters = g.inputInverters.eraseIdx k) ∧
    (∀ k (hk : k < g.followingGates.length), g.followingGates.get ⟨k, hk⟩ = f →
      (∀ j (hj : j < g.followingGates.length), g.followingGates.get ⟨j, hj⟩ = f → j = k) →
      (g.remFollow (some f)).followingGates = g.followingGates.eraseIdx k) := by
  refine ⟨?_, ?_, ?_, ?_⟩
  · intro hp
    have h := eraseMatchesFromPair_no_match p (g.inputs.length + 1) 0 g.inputs g.inputInverters
      (fun j hj _ => by
        intro he
        exact hp (he ▸ List.get_mem g.inputs j hj))
    simp only [Gate.remInput, h]
  · intro hf
    have h := eraseMatchesFrom_no_match f (g.followingGates.length + 1) 0 g.followingGates
      (fun j hj _ => by
        intro he
        exact hf (he ▸ List.get_mem g.followingGates j hj))
    simp only [Gate.remFollow, h]
  · intro k hk hget huniq
    have h := eraseMatchesFromPair_unique p (g.inputs.length + 1) 0 g.inputs g.inputInverters
      k hk (Nat.zero_le k) (by omega) hget huniq
    simp only [Gate.remInput, h]
    trivial
  · intro k hk hget huniq
    have h := eraseMatchesFrom_unique f (g.followingGates.length + 1) 0 g.followingGates
      k hk (Nat.zero_le k) (by omega) hget huniq
    simp only [Gate.remFollow, h]

/-- The concrete gate for the C4 witness. -/
def gC4w : Gate :=
  { Gate.mkGate "w4" with inputs := [5, 7], inputInverters := [true, false], followingGates := [9] }

/-- C4 witness: on a gate whose driver 7 occurs exactly once (at slot 1),
remInput removes that driver and its paired bit; remFollow with an absent
follower is a no-op. -/
theorem C4_rem_first_occurrence_witness :
    ((gC4w.remInput (some 7)).inputs = [5] ∧
     (gC4w.remInput (some 7)).inputInverters = [true]) ∧
    gC4w.remFollow (some 3) = gC4w := by
  have h := C4_rem_first_occurrence gC4w 7 3
  refine ⟨?_, h.2.1 (by decide)⟩
  have hu := h.2.2.1 1 (by decide) (by decide) (by decide)
  exact ⟨by rw [hu.1]; decide, by rw [hu.2]; decide⟩

/-- The concrete gate for the C4 counterexample: driver 0 occurs at slots 0
and 2 (non-adjacent). -/
def gC4 : Gate :=
  { Gate.mkGate "c4" with inputs := [0, 1, 0], inputInverters := [true, false, true], followingGates := [0, 1, 0] }

/-- C4 counterexample: the claim says exactly one occurrence is removed, which
would leave [1, 0]; the loop removes BOTH non-adjacent occurrences of 0 from
the input and follower vectors, leaving [1]. -/
theorem C4_counterexample_nonadjacent_duplicates :
    (gC4.remInput (some 0)).inputs = [1] ∧
    (gC4.remInput (some 0)).inputInverters = [false] ∧
    gC4.inputs.eraseIdx 0 = [1, 0] ∧
    (gC4.remFollow (some 0)).followingGates = [1] := by
  decide

/-- C5: a header with M different from I + L + A, or with L nonzero, aborts
construction before the BooleanNet is allocated: the out-parameter stays
unassigned (none) and isFileLoaded() stays false. -/
theorem C5_header_checks_abort (hdrM hdrI hdrL hdrO hdrA : Int)
    (inLits : List Int) (outLits : List Int) (ands : List (Int × Int × Int))
    (h : hdrM ≠ hdrI + hdrL + hdrA ∨ hdrL ≠ 0) :
    aagLoad hdrM hdrI hdrL hdrO hdrA inLits outLits ands = (none, false) := by
  unfold aagLoad
  rcases h with h | h
  · rw [if_pos h]
  · by_cases hm : hdrM ≠ hdrI + hdrL + hdrA
    · rw [if_pos hm]
    · rw [if_neg hm, if_pos h]

/-- C5 witness: the header aag 1 0 1 0 0 carries a latch (L = 1), so the
loader returns with no net and isLoaded false. -/
theorem C5_header_checks_abort_witness :
    aagLoad 1 0 1 0 0 [] [] [] = (none, false) :=
  C5_header_checks_abort 1 0 1 0 0 [] [] [] (Or.inr (by decide))

/-- Push a predicate through a left fold whose steps preserve it. -/
theorem foldlPreserve {σ α : Type} (P : σ → Prop) (step : σ → α → σ)
    (hstep : ∀ s a, P s → P (step s a)) :
    ∀ (l : List α) (s : σ), P s → P (l.foldl step s) := by
  intro l
  induction l with
  | nil => intro s h; exact h
  | cons a t ih => intro s h; exact ih (step s a) (hstep s a h)

/-- getD after set at the written (in-range) index. -/
theorem getD_set_self (l : List Bool) (i : Nat) (a b : Bool) (h : i < l.length) :
    (l.set i a).getD i b = a := by
  simp [List.getD, List.getElem?_set_self, h]

/-- getD after set at a different index. -/
theorem getD_set_ne (l : List Bool) (i j : Nat) (a b : Bool) (h : i ≠ j) :
    (l.set i a).getD j b = l.getD j b := by
  simp [List.getD, List.getElem?_set_ne h]

/-- The gate behind `id` (when any) has its output inverter clear. -/
def outInvClear (net : Net) (id : GateId) : Prop :=
  ∀ gate, net.get id = some gate → gate.outputInverter = false

/-- The gate behind `id` (when any) has inverter bit `j` clear. -/
def bitClearAt (net : Net) (id : GateId) (j : Nat) : Prop :=
  ∀ gate, net.get id = some gate → gate.isInputInverting j = false

/-- The gate behind `id` (when any) has no inverting input edge. -/
def invsClear (net : Net) (id : GateId) : Prop :=
  ∀ gate, net.get id = some gate →
    ∀ j, j < gate.inputs.length → gate.isInputInverting j = false

/-- outInvClear transfers along outputInverter-stability. -/
theorem outInvClear_of_stable {nA nB : Net}
    (hs : stableUnder (fun gt => gt.outputInverter) nA nB) (id : GateId)
    (h : outInvClear nA id) : outInvClear nB id := by
  intro gate hget
  have heq := hs id
  rw [hget] at heq
  cases hA : nA.get id with
  | none => rw [hA] at heq; simp at heq
  | some gA =>
    rw [hA] at heq
    simp at heq
    rw [heq]
    exact h gA hA

/-- bitClearAt transfers along inputInverters-stability. -/
theorem bitClearAt_of_stable {nA nB : Net}
    (hs : stableUnder (fun gt => gt.inputInverters) nA nB) (id : GateId) (j : Nat)
    (h : bitClearAt nA id j) : bitClearAt nB id j := by
  intro gate hget
  have heq := hs id
  rw [hget] at heq
  cases hA : nA.get id with
  | none => rw [hA] at heq; simp at heq
  | some gA =>
    rw [hA] at heq
    simp at heq
    have := h gA hA
    rw [Gate.isInputInverting] at this ⊢
    rw [heq]
    exact this

/-- invsClear transfers along stability of the driver-length and inverter
vector. -/
theorem invsClear_of_stable {nA nB : Net}
    (hs : stableUnder (fun gt => (gt.inputs.length, gt.inputInverters)) nA nB) (id : GateId)
    (h : invsClear nA id) : invsClear nB id := by
  intro gate hget j hj
  have heq := hs id
  rw [hget] at heq
  cases hA : nA.get id with
  | none => rw [hA] at heq; simp at heq
  | some gA =>
    rw [hA] at heq
    simp at heq
    obtain ⟨hlen, hinv⟩ := heq
    have := h gA hA j (hlen ▸ hj)
    rw [Gate.isInputInverting] at this ⊢
    rw [hinv]
    exact this

/-- replaceFirst rewrites one slot in place, keeping the length. -/
theorem replaceFirst_length (od nd : GateId) :
    ∀ l : List GateId, (replaceFirst od nd l).length = l.length := by
  intro l
  induction l with
  | nil => rfl
  | cons x xs ih =>
    unfold replaceFirst
    by_cases hx : x = od
    · rw [if_pos hx]
      rfl
    · rw [if_neg hx]
      simp [ih]

/-- A projection blind to the follower vector is blind to remFollow. -/
theorem remFollow_F_eq {β : Type} (F : Gate → β)
    (hFfol : ∀ gt l, F { gt with followingGates := l } = F gt)
    (gt : Gate) (f : Option GateId) : F (gt.remFollow f) = F gt := by
  cases f with
  | none => rfl
  | some x => exact hFfol gt _

/-- A projection blind to the follower vector is blind to newFollow. -/
theorem newFollow_F_eq {β : Type} (F : Gate → β)
    (hFfol : ∀ gt l, F { gt with followingGates := l } = F gt)
    (gt : Gate) (f : Option GateId) : F (gt.newFollow f) = F gt := by
  cases f with
  | none => rfl
  | some x => exact hFfol gt _

/-- remFollowOnOpt stability. -/
theorem stableUnder_remFollowOnOpt {β : Type} (F : Gate → β)
    (hFfol : ∀ gt l, F { gt with followingGates := l } = F gt)
    (net : Net) (target : Option GateId) (f : Option GateId) :
    stableUnder F net (remFollowOnOpt net target f) := by
  cases target with
  | none => exact stableUnder_refl F net
  | some t => exact stableUnder_remFollowOn F (remFollow_F_eq F hFfol) net t f

/-- newFollowOnOpt stability. -/
theorem stableUnder_newFollowOnOpt {β : Type} (F : Gate → β)
    (hFfol : ∀ gt l, F { gt with followingGates := l } = F gt)
    (net : Net) (target : Option GateId) (f : Option GateId) :
    stableUnder F net (newFollowOnOpt net target f) := by
  cases target with
  | none => exact stableUnder_refl F net
  | some t => exact stableUnder_newFollowOn F (newFollow_F_eq F hFfol) net t f

/-- swapDriverOnOpt stability. -/
theorem stableUnder_swapDriverOnOpt {β : Type} (F : Gate → β)
    (hFin : ∀ gt od nd, F { gt with inputs := replaceFirst od nd gt.inputs } = F gt)
    (hFd : ∀ gt d, F { gt with depth := d } = F gt)
    (net : Net) (target : Option GateId) (oldD newD : Option GateId) :
    stableUnder F net (swapDriverOnOpt net target oldD newD) := by
  cases target with
  | none => exact stableUnder_refl F net
  | some t => exact stableUnder_swapDriverOn F hFin hFd net t oldD newD

/-- The rewiring tail of a change-inputs slot only touches follower vectors,
one driver slot and depth fields. -/
theorem stableUnder_riRedirectTail {β : Type} (F : Gate → β)
    (hFfol : ∀ gt l, F { gt with followingGates := l } = F gt)
    (hFin : ∀ gt od nd, F { gt with inputs := replaceFirst od nd gt.inputs } = F gt)
    (hFd : ∀ gt d, F { gt with depth := d } = F gt)
    (g : GateId) (j : Nat) (n3 : Net) :
    stableUnder F n3 (riRedirectTail g j n3) := by
  unfold riRedirectTail
  refine stableUnder_trans F _ _ _ ?h1 (stableUnder_newFollowOnOpt F hFfol _ _ _)
  refine stableUnder_trans F _ _ _ ?h2 (stableUnder_swapDriverOn F hFin hFd _ g _ _)
  exact stableUnder_remFollowOnOpt F hFfol _ _ _

/-- setInputNonInverting(j) clears bit j (or leaves it false when out of
range) and keeps every other bit. -/
theorem bitClearAt_modify_setNonInv (net : Net) (g : GateId) (j jp : Nat)
    (h : jp = j ∨ bitClearAt net g jp) :
    bitClearAt (net.modifyGate g (fun gt => gt.setInputNonInverting j)) g jp := by
  intro gate hget
  rw [get_modifyGate_self] at hget
  cases horig : net.get g with
  | none => rw [horig] at hget; exact Option.noConfusion hget
  | some gA =>
    rw [horig] at hget
    simp only [Option.map_some'] at hget
    have hgate : gate = gA.setInputNonInverting j := (Option.some.inj hget).symm
    subst hgate
    rw [Gate.setInputNonInverting, Gate.isInputInverting]
    rcases h with h | h
    · subst h
      by_cases hj : jp < gA.inputInverters.length
      · simp only
        rw [getD_set_self gA.inputInverters jp false false hj]
      · push_neg at hj
        simp only
        rw [List.set_eq_of_length_le hj, List.getD_eq_default _ _ hj]
    · by_cases hj : j = jp
      · subst hj
        by_cases hjl : j < gA.inputInverters.length
        · simp only
          rw [getD_set_self gA.inputInverters j false false hjl]
        · push_neg at hjl
          simp only
          rw [List.set_eq_of_length_le hjl, List.getD_eq_default _ _ hjl]
      · simp only
        rw [getD_set_ne gA.inputInverters j jp false false hj]
        have := h gA horig
        rw [Gate.isInputInverting] at this
        exact this

/-- setInputNonInverting preserves edge-cleanliness of every gate. -/
theorem invsClear_modify_setNonInv (net : Net) (g : GateId) (j : Nat) (id : GateId)
    (h : invsClear net id) :
    invsClear (net.modifyGate g (fun gt => gt.setInputNonInverting j)) id := by
  by_cases hid : id = g
  · subst hid
    intro gate hget jp hjp
    rw [get_modifyGate_self] at hget
    cases horig : net.get id with
    | none => rw [horig] at hget; exact Option.noConfusion hget
    | some gA =>
      rw [horig] at hget
      simp only [Option.map_some'] at hget
      have hgate : gate = gA.setInputNonInverting j := (Option.some.inj hget).symm
      subst hgate
      rw [Gate.setInputNonInverting, Gate.isInputInverting]
      by_cases hj : j = jp
      · subst hj
        by_cases hjl : j < gA.inputInverters.length
        · simp only
          rw [getD_set_self gA.inputInverters j false false hjl]
        · push_neg at hjl
          simp only
          rw [List.set_eq_of_length_le hjl, List.getD_eq_default _ _ hjl]
      · simp only
        rw [getD_set_ne gA.inputInverters j jp false false hj]
        have hlen : jp < gA.inputs.length := by
          rw [Gate.setInputNonInverting] at hjp
          exact hjp
        have := h gA horig jp hlen
        rw [Gate.isInputInverting] at this
        exact this
  · intro gate hget jp hjp
    rw [get_modifyGate_ne net g _ id hid] at hget
    exact h gate hget jp hjp

/-- A change-inputs slot keeps every clear bit of its gate clear. -/
theorem bitClearAt_riRedirectSlot_preserve (g : GateId) (n2 : Net) (j jp : Nat)
    (h : bitClearAt n2 g jp) : bitClearAt (riRedirectSlot g n2 j) g jp := by
  unfold riRedirectSlot
  split
  · exact h
  · split
    · refine bitClearAt_of_stable
        (stableUnder_riRedirectTail (fun gt => gt.inputInverters)
          (fun _ _ => rfl) (fun _ _ _ => rfl) (fun _ _ => rfl) g j _) g jp ?_
      exact bitClearAt_modify_setNonInv n2 g j jp (Or.inr h)
    · exact h

/-- A change-inputs slot clears its own bit. -/
theorem bitClearAt_riRedirectSlot_self (g : GateId) (n2 : Net) (j : Nat) :
    bitClearAt (riRedirectSlot g n2 j) g j := by
  unfold riRedirectSlot
  split
  · intro gate hget
    rename_i heq
    rw [heq] at hget
    exact Option.noConfusion hget
  · rename_i gj heq
    split
    · refine bitClearAt_of_stable
        (stableUnder_riRedirectTail (fun gt => gt.inputInverters)
          (fun _ _ => rfl) (fun _ _ _ => rfl) (fun _ _ => rfl) g j _) g j ?_
      exact bitClearAt_modify_setNonInv n2 g j j (Or.inl rfl)
    · rename_i hbit
      intro gate hget
      rw [heq] at hget
      have hgj : gj = gate := Option.some.inj hget
      subst hgj
      simp at hbit
      exact hbit

/-- A change-inputs slot preserves edge-cleanliness of every gate. -/
theorem invsClear_riRedirectSlot_preserve (g : GateId) (n2 : Net) (j : Nat) (id : GateId)
    (h : invsClear n2 id) : invsClear (riRedirectSlot g n2 j) id := by
  unfold riRedirectSlot
  split
  · exact h
  · split
    · refine invsClear_of_stable
        (stableUnder_riRedirectTail (fun gt => (gt.inputs.length, gt.inputInverters))
          (fun _ _ => rfl)
          (fun gt od nd => by simp [replaceFirst_length])
          (fun _ _ => rfl) g j _) id ?_
      exact invsClear_modify_setNonInv n2 g j id h
    · exact h

/-- Over the slot fold, already-clear bits stay clear and every visited slot
ends clear. -/
theorem riRedirect_fold_bits (g : GateId) :
    ∀ (js : List Nat) (n2 : Net),
      (∀ jp, bitClearAt n2 g jp → bitClearAt (js.foldl (riRedirectSlot g) n2) g jp) ∧
      (∀ j ∈ js, bitClearAt (js.foldl (riRedirectSlot g) n2) g j) := by
  intro js
  induction js with
  | nil => intro n2; exact ⟨fun jp h => h, by simp⟩
  | cons a t ih =>
    intro n2
    constructor
    · intro jp h
      exact (ih (riRedirectSlot g n2 a)).1 jp (bitClearAt_riRedirectSlot_preserve g n2 a jp h)
    · intro j hj
      rcases List.mem_cons.1 hj with hj | hj
      · subst hj
        exact (ih (riRedirectSlot g n2 j)).1 j (bitClearAt_riRedirectSlot_self g n2 j)
      · exact (ih (riRedirectSlot g n2 a)).2 j hj

/-- A change-inputs slot is stable for any projection blind to the inverter
vector, one driver slot, followers and depth. -/
theorem stableUnder_riRedirectSlot {β : Type} (F : Gate → β)
    (hFinv : ∀ gt j, F { gt with inputInverters := gt.inputInverters.set j false } = F gt)
    (hFfol : ∀ gt l, F { gt with followingGates := l } = F gt)
    (hFin : ∀ gt od nd, F { gt with inputs := replaceFirst od nd gt.inputs } = F gt)
    (hFd : ∀ gt d, F { gt with depth := d } = F gt)
    (g : GateId) (n2 : Net) (j : Nat) :
    stableUnder F n2 (riRedirectSlot g n2 j) := by
  unfold riRedirectSlot
  split
  · exact stableUnder_refl F n2
  · split
    · refine stableUnder_trans F _ _ _ ?h1 (stableUnder_riRedirectTail F hFfol hFin hFd g j _)
      exact stableUnder_modifyGate F n2 g _ (fun gt => hFinv gt j)
    · exact stableUnder_refl F n2

/-- A change-inputs pass over one gate leaves that gate with no inverting
edge. -/
theorem invsClear_riRedirectStep_self (n : Net) (g : GateId) :
    invsClear (riRedirectStep n g) g := by
  unfold riRedirectStep
  split
  · rename_i heq
    intro gate hget
    rw [heq] at hget
    exact Option.noConfusion hget
  · rename_i gate0 heq
    have hbits := (riRedirect_fold_bits g (List.range gate0.getFanIn) n).2
    have hlen : stableUnder (fun gt => gt.inputs.length) n
        ((List.range gate0.getFanIn).foldl (riRedirectSlot g) n) :=
      foldlChain (stableUnder (fun gt => gt.inputs.length))
        (stableUnder_refl _) (stableUnder_trans _) (riRedirectSlot g)
        (fun s a => stableUnder_riRedirectSlot (fun gt => gt.inputs.length)
          (fun _ _ => rfl) (fun _ _ => rfl)
          (fun gt od nd => by simp [replaceFirst_length]) (fun _ _ => rfl) g s a)
        (List.range gate0.getFanIn) n
    intro gate hget j hj
    have hleneq := hlen g
    rw [hget, heq] at hleneq
    simp only [Option.map_some'] at hleneq
    have hlen2 : gate.inputs.length = gate0.inputs.length := Option.some.inj hleneq
    have hjin : j ∈ List.range gate0.getFanIn := by
      rw [List.mem_range, Gate.getFanIn]
      rw [hlen2] at hj
      exact hj
    exact hbits j hjin gate hget

/-- A change-inputs pass over one gate keeps every other clean gate clean. -/
theorem invsClear_riRedirectStep_preserve (n : Net) (g : GateId) (id : GateId)
    (h : invsClear n id) : invsClear (riRedirectStep n g) id := by
  unfold riRedirectStep
  split
  · exact h
  · exact foldlPreserve (fun s => invsClear s id) (riRedirectSlot g)
      (fun s a hs => invsClear_riRedirectSlot_preserve g s a id hs) _ n h

/-- A change-inputs pass is stable for projections blind to inverter bits,
driver slots, followers and depth (in particular the output inverter, the
function and the complement field). -/
theorem stableUnder_riRedirectStep {β : Type} (F : Gate → β)
    (hFinv : ∀ gt j, F { gt with inputInverters := gt.inputInverters.set j false } = F gt)
    (hFfol : ∀ gt l, F { gt with followingGates := l } = F gt)
    (hFin : ∀ gt od nd, F { gt with inputs := replaceFirst od nd gt.inputs } = F gt)
    (hFd : ∀ gt d, F { gt with depth := d } = F gt)
    (n : Net) (g : GateId) :
    stableUnder F n (riRedirectStep n g) := by
  unfold riRedirectStep
  split
  · exact stableUnder_refl F n
  · exact foldlChain (stableUnder F) (stableUnder_refl F) (stableUnder_trans F)
      (riRedirectSlot g)
      (fun s a => stableUnder_riRedirectSlot F hFinv hFfol hFin hFd g s a) _ n

/-- A flip slot only rewrites one inverter bit of the follower. -/
theorem stableUnder_riFlipSlot {β : Type} (F : Gate → β)
    (hFinvSet : ∀ gt k b, F { gt with inputInverters := gt.inputInverters.set k b } = F gt)
    (g fj : GateId) (n3 : Net) (k : Nat) :
    stableUnder F n3 (riFlipSlot g fj n3 k) := by
  unfold riFlipSlot
  split
  · exact stableUnder_refl F n3
  · split
    · split
      · exact stableUnder_modifyGate F n3 fj _ (fun gt => hFinvSet gt k false)
      · exact stableUnder_modifyGate F n3 fj _ (fun gt => hFinvSet gt k true)
    · exact stableUnder_refl F n3

/-- Flipping the edges into one follower only rewrites inverter bits. -/
theorem stableUnder_riFlipFollower {β : Type} (F : Gate → β)
    (hFinvSet : ∀ gt k b, F { gt with inputInverters := gt.inputInverters.set k b } = F gt)
    (g : GateId) (n : Net) (fj : GateId) :
    stableUnder F n (riFlipFollower g n fj) := by
  unfold riFlipFollower
  split
  · exact stableUnder_refl F n
  · exact foldlChain (stableUnder F) (stableUnder_refl F) (stableUnder_trans F)
      (riFlipSlot g fj) (fun s a => stableUnder_riFlipSlot F hFinvSet g fj s a) _ n

/-- One follower-slot of the flip loop only rewrites inverter bits. -/
theorem stableUnder_riFlipFollowStep {β : Type} (F : Gate → β)
    (hFinvSet : ∀ gt k b, F { gt with inputInverters := gt.inputInverters.set k b } = F gt)
    (g : GateId) (gate : Gate) (n2 : Net) (j : Nat) :
    stableUnder F n2 (riFlipFollowStep g gate n2 j) := by
  unfold riFlipFollowStep
  split
  · exact stableUnder_refl F n2
  · exact stableUnder_riFlipFollower F hFinvSet g n2 _

/-- One iteration of the first remove-inverters loop only rewrites inverter
bits and the output inverter of its own gate. -/
theorem stableUnder_riClearOutputStep {β : Type} (F : Gate → β)
    (hFinvSet : ∀ gt k b, F { gt with inputInverters := gt.inputInverters.set k b } = F gt)
    (hFout : ∀ gt, F { gt with outputInverter := false } = F gt)
    (n : Net) (g : GateId) :
    stableUnder F n (riClearOutputStep n g) := by
  unfold riClearOutputStep
  refine stableUnder_trans F _ _ _ ?h1 (stableUnder_modifyGate F _ g _ (fun gt => hFout gt))
  split
  · exact stableUnder_refl F n
  · split
    · exact foldlChain (stableUnder F) (stableUnder_refl F) (stableUnder_trans F)
        _ (fun s a => stableUnder_riFlipFollowStep F hFinvSet g _ s a) _ n
    · exact stableUnder_refl F n

/-- After its iteration, a gate's output inverter is clear. -/
theorem outInvClear_riClearOutputStep_self (n : Net) (g : GateId) :
    outInvClear (riClearOutputStep n g) g := by
  unfold riClearOutputStep
  intro gate hget
  rw [get_modifyGate_self] at hget
  cases horig : Net.get _ g with
  | none => rw [horig] at hget; exact Option.noConfusion hget
  | some gA =>
    rw [horig] at hget
    simp only [Option.map_some'] at hget
    have : { gA with outputInverter := false } = gate := Option.some.inj hget
    rw [← this]

/-- An iteration of the first loop never sets an output inverter. -/
theorem outInvClear_riClearOutputStep_preserve (n : Net) (g : GateId) (id : GateId)
    (h : outInvClear n id) : outInvClear (riClearOutputStep n g) id := by
  by_cases hid : id = g
  · subst hid
    exact outInvClear_riClearOutputStep_self n id
  · unfold riClearOutputStep
    intro gate hget
    rw [get_modifyGate_ne _ g _ id hid] at hget
    have hstable : stableUnder (fun gt => gt.outputInverter) n
        (match n.get g with
         | none => n
         | some gate =>
           if gate.outputInverter then
             (List.range gate.getFanOut).foldl (riFlipFollowStep g gate) n
           else n) := by
      split
      · exact stableUnder_refl _ n
      · split
        · exact foldlChain (stableUnder (fun gt => gt.outputInverter))
            (stableUnder_refl _) (stableUnder_trans _) _
            (fun s a => stableUnder_riFlipFollowStep (fun gt => gt.outputInverter)
              (fun _ _ _ => rfl) g _ s a) _ n
        · exact stableUnder_refl _ n
    exact outInvClear_of_stable hstable id h gate hget

/-- Over a fold, a per-element property established by each step and preserved
by every later step holds for every visited element. -/
theorem fold_establish_preserve {σ α : Type} (P : σ → α → Prop) (step : σ → α → σ)
    (hself : ∀ s a, P (step s a) a)
    (hpres : ∀ s a b, P s b → P (step s a) b) :
    ∀ (l : List α) (s : σ) (a : α), a ∈ l → P (l.foldl step s) a := by
  intro l
  induction l with
  | nil => intro s a ha; exact absurd ha (List.not_mem_nil a)
  | cons x t ih =>
    intro s a ha
    rcases List.mem_cons.1 ha with ha | ha
    · subst ha
      exact foldlPreserve (fun n => P n a) step (fun n b hn => hpres n b a hn) t (step s a)
        (hself s a)
    · exact ih (step s x) a ha

/-- After the first remove-inverters loop, every listed gate has a clear
output inverter. -/
theorem loop1_outInvClear (net : Net) :
    ∀ id ∈ net.gates, outInvClear (removeInvertersLoop1 net) id := by
  intro id hid
  exact fold_establish_preserve outInvClear riClearOutputStep
    outInvClear_riClearOutputStep_self
    (fun s a b hb => outInvClear_riClearOutputStep_preserve s a b hb)
    net.gates net id hid

/-- After a change-inputs loop, every listed gate has no inverting edge. -/
theorem redirectLoop_invsClear (l : List GateId) (net : Net) :
    ∀ id ∈ l, invsClear (l.foldl riRedirectStep net) id := by
  intro id hid
  exact fold_establish_preserve invsClear riRedirectStep
    invsClear_riRedirectStep_self
    (fun s a b hb => invsClear_riRedirectStep_preserve s a b hb)
    l net id hid

/-- A change-inputs loop preserves edge-cleanliness of every gate. -/
theorem redirectLoop_invsClear_preserve (l : List GateId) (net : Net) (id : GateId)
    (h : invsClear net id) : invsClear (l.foldl riRedirectStep net) id :=
  foldlPreserve (fun s => invsClear s id) riRedirectStep
    (fun s a hs => invsClear_riRedirectStep_preserve s a id hs) l net h

/-- A change-inputs loop preserves output-inverter-cleanliness of every
gate. -/
theorem redirectLoop_outInvClear_preserve (l : List GateId) (net : Net) (id : GateId)
    (h : outInvClear net id) : outInvClear (l.foldl riRedirectStep net) id :=
  foldlPreserve (fun s => outInvClear s id) riRedirectStep
    (fun s a hs => outInvClear_of_stable
      (stableUnder_riRedirectStep (fun gt => gt.outputInverter)
        (fun _ _ => rfl) (fun _ _ => rfl) (fun _ _ _ => rfl) (fun _ _ => rfl) s a) id hs)
    l net h

/-- The remove-inverters machinery never touches the id collections. -/
theorem sameLists_remFollowOnOpt (net : Net) (target f : Option GateId) :
    sameLists net (remFollowOnOpt net target f) := by
  cases target with
  | none => exact sameLists_refl net
  | some t => exact sameLists_remFollowOn net t f

theorem sameLists_newFollowOnOpt (net : Net) (target f : Option GateId) :
    sameLists net (newFollowOnOpt net target f) := by
  cases target with
  | none => exact sameLists_refl net
  | some t => exact sameLists_newFollowOn net t f

theorem sameLists_riRedirectTail (g : GateId) (j : Nat) (n3 : Net) :
    sameLists n3 (riRedirectTail g j n3) := by
  unfold riRedirectTail
  refine sameLists_trans _ _ _ ?h1 (sameLists_newFollowOnOpt _ _ _)
  refine sameLists_trans _ _ _ ?h2 (sameLists_swapDriverOn _ g _ _)
  exact sameLists_remFollowOnOpt _ _ _

theorem sameLists_riRedirectSlot (g : GateId) (n2 : Net) (j : Nat) :
    sameLists n2 (riRedirectSlot g n2 j) := by
  unfold riRedirectSlot
  split
  · exact sameLists_refl n2
  · split
    · exact sameLists_trans _ _ _ (sameLists_modifyGate n2 g _) (sameLists_riRedirectTail g j _)
    · exact sameLists_refl n2

theorem sameLists_riRedirectStep (n : Net) (g : GateId) :
    sameLists n (riRedirectStep n g) := by
  unfold riRedirectStep
  split
  · exact sameLists_refl n
  · exact foldlChain sameLists sameLists_refl sameLists_trans (riRedirectSlot g)
      (fun s a => sameLists_riRedirectSlot g s a) _ n

theorem sameLists_riFlipSlot (g fj : GateId) (n3 : Net) (k : Nat) :
    sameLists n3 (riFlipSlot g fj n3 k) := by
  unfold riFlipSlot
  split
  · exact sameLists_refl n3
  · split
    · split
      · exact sameLists_modifyGate n3 fj _
      · exact sameLists_modifyGate n3 fj _
    · exact sameLists_refl n3

theorem sameLists_riFlipFollower (g : GateId) (n : Net) (fj : GateId) :
    sameLists n (riFlipFollower g n fj) := by
  unfold riFlipFollower
  split
  · exact sameLists_refl n
  · exact foldlChain sameLists sameLists_refl sameLists_trans (riFlipSlot g fj)
      (fun s a => sameLists_riFlipSlot g fj s a) _ n

theorem sameLists_riFlipFollowStep (g : GateId) (gate : Gate) (n2 : Net) (j : Nat) :
    sameLists n2 (riFlipFollowStep g gate n2 j) := by
  unfold riFlipFollowStep
  split
  · exact sameLists_refl n2
  · exact sameLists_riFlipFollower g n2 _

theorem sameLists_riClearOutputStep (n : Net) (g : GateId) :
    sameLists n (riClearOutputStep n g) := by
  unfold riClearOutputStep
  refine sameLists_trans _ _ _ ?h1 (sameLists_modifyGate _ g _)
  split
  · exact sameLists_refl n
  · split
    · exact foldlChain sameLists sameLists_refl sameLists_trans _
        (fun s a => sameLists_riFlipFollowStep g _ s a) _ n
    · exact sameLists_refl n

theorem sameLists_removeInvertersLoop1 (net : Net) :
    sameLists net (removeInvertersLoop1 net) :=
  foldlChain sameLists sameLists_refl sameLists_trans riClearOutputStep
    (fun s a => sameLists_riClearOutputStep s a) net.gates net

theorem sameLists_removeInvertersLoop2 (net : Net) :
    sameLists net (removeInvertersLoop2 net) :=
  foldlChain sameLists sameLists_refl sameLists_trans riRedirectStep
    (fun s a => sameLists_riRedirectStep s a) net.gates net

theorem sameLists_removeInvertersLoop3 (net : Net) :
    sameLists net (removeInvertersLoop3 net) :=
  foldlChain sameLists sameLists_refl sameLists_trans riRedirectStep
    (fun s a => sameLists_riRedirectStep s a) net.outputs net

/-- C7: after convDualRail, no inner gate has its output inverter set and no
inner gate and no output gate has an inverting input edge — the first cleanup
loop clears every output inverter and never sets one, and the two
change-inputs loops clear every edge bit of every inner and output gate and
never set one. -/
theorem C7_convDualRail_removes_inverters (net : Net) :
    (∀ id ∈ (net.convDualRail).gates,
        outInvClear (net.convDualRail) id ∧ invsClear (net.convDualRail) id) ∧
    (∀ id ∈ (net.convDualRail).outputs, invsClear (net.convDualRail) id) := by
  have hconv : net.convDualRail = removeInvertersLoop3 (removeInvertersLoop2
      (removeInvertersLoop1 (dupOutputsPhase (dupInputsPhase (dupGatesPhase net))))) := rfl
  set nD := dupOutputsPhase (dupInputsPhase (dupGatesPhase net)) with hnD
  set n1 := removeInvertersLoop1 nD with hn1
  set n2 := removeInvertersLoop2 n1 with hn2
  have hg1 : n1.gates = nD.gates := (sameLists_removeInvertersLoop1 nD).1
  have hg2 : n2.gates = n1.gates := (sameLists_removeInvertersLoop2 n1).1
  have hg3 : (net.convDualRail).gates = n2.gates := by
    rw [hconv]
    exact (sameLists_removeInvertersLoop3 n2).1
  have ho1 : n1.outputs = nD.outputs := (sameLists_removeInvertersLoop1 nD).2.2.1
  have ho2 : n2.outputs = n1.outputs := (sameLists_removeInvertersLoop2 n1).2.2.1
  have ho3 : (net.convDualRail).outputs = n2.outputs := by
    rw [hconv]
    exact (sameLists_removeInvertersLoop3 n2).2.2.1
  constructor
  · intro id hid
    have hidD : id ∈ nD.gates := by
      rw [hg3, hg2, hg1] at hid
      exact hid
    constructor
    · have h1 : outInvClear n1 id := loop1_outInvClear nD id hidD
      have h2 : outInvClear n2 id := redirectLoop_outInvClear_preserve n1.gates n1 id h1
      rw [hconv]
      exact redirectLoop_outInvClear_preserve n2.outputs n2 id h2
    · have h2 : invsClear n2 id := by
        have : id ∈ n1.gates := by rw [hg1]; exact hidD
        exact redirectLoop_invsClear n1.gates n1 id this
      rw [hconv]
      exact redirectLoop_invsClear_preserve n2.outputs n2 id h2
  · intro id hid
    have hid2 : id ∈ n2.outputs := by
      rw [ho3] at hid
      exact hid
    rw [hconv]
    exact redirectLoop_invsClear n2.outputs n2 id hid2

/-- A concrete single-rail net: inputs 0 and 1 feed AND gate 2, which feeds
output 3; used to instantiate the convDualRail theorems. -/
def netDual : Net :=
  { heap := [{ Gate.mkGate "INPUT_0" with gatePlacement := GatePlacement.INPUT, followingGates := [2] },
             { Gate.mkGate "INPUT_1" with gatePlacement := GatePlacement.INPUT, followingGates := [2] },
             { Gate.mkGate "GATE_0" with gateFunction := GateFunction.AND, inputs := [0, 1], inputInverters := [false, false], followingGates := [3], depth := 1 },
             { Gate.mkGate "OUT_0" with gatePlacement := GatePlacement.OUTPUT, inputs := [2], inputInverters := [false], depth := 2 }]
    gates := [2], inputs := [0, 1], outputs := [3], buffers := []
    netDepth := 2, netSumScoap := 0, netPlaced := false }

/-- C7 witness: on the concrete net, the theorem applied to the twin gate 4
(a member of the converted gate list) and to output 3. -/
theorem C7_convDualRail_removes_inverters_witness :
    outInvClear (netDual.convDualRail) 4 ∧ invsClear (netDual.convDualRail) 4 ∧
    invsClear (netDual.convDualRail) 3 := by
  have h := C7_convDualRail_removes_inverters netDual
  exact ⟨(h.1 4 (by decide)).1, (h.1 4 (by decide)).2, h.2 3 (by decide)⟩

/-- Pointwise projection stability at a single id. -/
def stableUnderAt {β : Type} (F : Gate → β) (nA nB : Net) (x : GateId) : Prop :=
  (nB.get x).map F = (nA.get x).map F

theorem stableUnderAt_refl {β : Type} (F : Gate → β) (n : Net) (x : GateId) :
    stableUnderAt F n n x := rfl

theorem stableUnderAt_trans {β : Type} (F : Gate → β) (a b c : Net) (x : GateId)
    (h1 : stableUnderAt F a b x) (h2 : stableUnderAt F b c x) : stableUnderAt F a c x :=
  h2.trans h1

theorem stableUnderAt_of_stable {β : Type} (F : Gate → β) {nA nB : Net}
    (h : stableUnder F nA nB) (x : GateId) : stableUnderAt F nA nB x := h x

theorem stableUnderAt_of_get_eq {β : Type} (F : Gate → β) {nA nB : Net} {x : GateId}
    (h : nB.get x = nA.get x) : stableUnderAt F nA nB x := by
  unfold stableUnderAt
  rw [h]

/-- modifyGate away from x keeps every projection of x. -/
theorem stableUnderAt_modifyGate_ne {β : Type} (F : Gate → β) (net : Net) (g : GateId)
    (f : Gate → Gate) (x : GateId) (hx : x ≠ g) :
    stableUnderAt F net (net.modifyGate g f) x :=
  stableUnderAt_of_get_eq F (get_modifyGate_ne net g f x hx)

/-- alloc keeps every projection of an existing id. -/
theorem stableUnderAt_alloc {β : Type} (F : Gate → β) (net : Net) (gate : Gate)
    (x : GateId) (hx : x < net.heap.length) :
    stableUnderAt F net (net.alloc gate).1 x :=
  stableUnderAt_of_get_eq F (get_alloc net gate x hx)

/-- The projection every convDualRail bookkeeping argument tracks: everything
except the follower vector, depth, simulation value, SCOAP, color, tree sizes
and physical placement (the fields the rewires and setDepth may touch). -/
def gateCore (gt : Gate) :
    String × GateFunction × GatePlacement × List GateId × List Bool × Bool × Option GateId :=
  (gt.gateName, gt.gateFunction, gt.gatePlacement, gt.inputs, gt.inputInverters,
    gt.outputInverter, gt.complementaryGate)

/-- The function field read through a pointer. -/
def fnOf (net : Net) (x : GateId) : Option GateFunction :=
  (net.get x).map (fun gt => gt.gateFunction)

/-- Complement-pair linkage with dual functions, as C6 asks per pair. -/
def pairAt (net : Net) (a b : GateId) : Prop :=
  net.getComplementOf a = some b ∧ net.getComplementOf b = some a ∧
  ∃ fa fb, fnOf net a = some fa ∧ fnOf net b = some fb ∧
    fb = convdualGetComplementaryGateFn fa ∧ fa = convdualGetComplementaryGateFn fb

theorem pairAt_symm (net : Net) (a b : GateId) (h : pairAt net a b) : pairAt net b a := by
  obtain ⟨h1, h2, fa, fb, hf1, hf2, hd1, hd2⟩ := h
  exact ⟨h2, h1, fb, fa, hf2, hf1, hd2, hd1⟩

/-- The gate behind the id has some complement set. -/
def complSome (net : Net) (x : GateId) : Prop :=
  ∃ c, net.getComplementOf x = some c

/-- Transfers of the tracked facts along pointwise stability. -/
theorem complOf_eq_of_stableAt {nA nB : Net} {x : GateId}
    (h : stableUnderAt (fun gt => gt.complementaryGate) nA nB x) :
    nB.getComplementOf x = nA.getComplementOf x := by
  unfold Net.getComplementOf
  unfold stableUnderAt at h
  cases hB : nB.get x with
  | none =>
    rw [hB] at h
    cases hA : nA.get x with
    | none => rfl
    | some gA => rw [hA] at h; simp at h
  | some gB =>
    rw [hB] at h
    cases hA : nA.get x with
    | none => rw [hA] at h; simp at h
    | some gA =>
      rw [hA] at h
      simp only [Option.map_some'] at h
      simp [Option.some.inj h]

theorem fnOf_eq_of_stableAt {nA nB : Net} {x : GateId}
    (h : stableUnderAt (fun gt => gt.gateFunction) nA nB x) :
    fnOf nB x = fnOf nA x := h

/-- gateCore stability implies stability of each tracked field. -/
theorem stableUnderAt_field_of_core {nA nB : Net} {x : GateId}
    (h : stableUnderAt gateCore nA nB x) :
    stableUnderAt (fun gt => gt.complementaryGate) nA nB x ∧
    stableUnderAt (fun gt => gt.gateFunction) nA nB x ∧
    stableUnderAt (fun gt => (gt.inputs, gt.inputInverters)) nA nB x ∧
    stableUnderAt (fun gt => gt.outputInverter) nA nB x ∧
    stableUnderAt (fun gt => gt.gatePlacement) nA nB x := by
  unfold stableUnderAt at h ⊢
  cases hB : nB.get x with
  | none =>
    rw [hB] at h
    cases hA : nA.get x with
    | none => simp
    | some gA => rw [hA] at h; simp [gateCore] at h
  | some gB =>
    rw [hB] at h
    cases hA : nA.get x with
    | none => rw [hA] at h; simp [gateCore] at h
    | some gA =>
      rw [hA] at h
      simp only [Option.map_some'] at h ⊢
      have := Option.some.inj h
      unfold gateCore at this
      simp only [Prod.mk.injEq] at this
      obtain ⟨-, h2, h3, h4, h5, h6, h7⟩ := this
      exact ⟨by rw [h7], by rw [h2], by rw [h4, h5], by rw [h6], by rw [h3]⟩

/-- gateCore ignores follower vectors. -/
theorem stableUnder_newFollowOn_core (net : Net) (g : GateId) (f : Option GateId) :
    stableUnder gateCore net (net.newFollowOn g f) :=
  stableUnder_newFollowOn gateCore (newFollow_F_eq gateCore (fun _ _ => rfl)) net g f

theorem stableUnder_remFollowOn_core (net : Net) (g : GateId) (f : Option GateId) :
    stableUnder gateCore net (net.remFollowOn g f) :=
  stableUnder_remFollowOn gateCore (remFollow_F_eq gateCore (fun _ _ => rfl)) net g f

theorem stableUnder_newFollowOnOpt_core (net : Net) (t f : Option GateId) :
    stableUnder gateCore net (newFollowOnOpt net t f) :=
  stableUnder_newFollowOnOpt gateCore (fun _ _ => rfl) net t f

theorem stableUnder_remFollowOnOpt_core (net : Net) (t f : Option GateId) :
    stableUnder gateCore net (remFollowOnOpt net t f) :=
  stableUnder_remFollowOnOpt gateCore (fun _ _ => rfl) net t f

/-- gateCore ignores depth. -/
theorem stableUnder_setDepth_core (net : Net) (g : GateId) (d : Nat) :
    stableUnder gateCore net (net.setDepth g d) :=
  stableUnder_setDepth gateCore (fun _ _ => rfl) net g d

/-- Arena sizes through the operations: only alloc grows the heap. -/
theorem heapLen_modifyGate (net : Net) (g : GateId) (f : Gate → Gate) :
    (net.modifyGate g f).heap.length = net.heap.length := by
  unfold Net.modifyGate
  cases net.get g <;> simp

theorem heapLen_setDepthGo :
    ∀ (fuel : Nat) (net : Net) (g : GateId) (d : Nat),
      (Net.setDepthGo fuel net g d).heap.length = net.heap.length := by
  intro fuel
  induction fuel with
  | zero => intro net g d; rfl
  | succ fuel ih =>
    intro net g d
    unfold Net.setDepthGo
    cases net.get g with
    | none => rfl
    | some gate =>
      by_cases hd : gate.depth < d
      · simp only [hd, if_pos]
        have h1 : (net.modifyGate g (fun gt => { gt with depth := d })).heap.length
            = net.heap.length := heapLen_modifyGate net g _
        have h2 := foldlChain (fun a b => b.heap.length = a.heap.length) (fun _ => rfl)
          (fun a b c hab hbc => by exact hbc.trans hab) (fun n f => Net.setDepthGo fuel n f (d + 1))
          (fun s a => ih s a (d + 1)) gate.followingGates
          (net.modifyGate g (fun gt => { gt with depth := d }))
        exact h2.trans h1
      · simp only [hd, ite_false]

theorem heapLen_setDepth (net : Net) (g : GateId) (d : Nat) :
    (net.setDepth g d).heap.length = net.heap.length :=
  heapLen_setDepthGo _ net g d

theorem heapLen_newInputOn (net : Net) (g : GateId) (p : Option GateId) (inv : Bool) :
    (net.newInputOn g p inv).heap.length = net.heap.length := by
  unfold Net.newInputOn
  cases p with
  | none => rfl
  | some pd => rw [heapLen_setDepth, heapLen_modifyGate]

theorem heapLen_newFollowOn (net : Net) (g : GateId) (f : Option GateId) :
    (net.newFollowOn g f).heap.length = net.heap.length :=
  heapLen_modifyGate net g _

theorem heapLen_remFollowOn (net : Net) (g : GateId) (f : Option GateId) :
    (net.remFollowOn g f).heap.length = net.heap.length :=
  heapLen_modifyGate net g _

theorem heapLen_newFollowOnOpt (net : Net) (t f : Option GateId) :
    (newFollowOnOpt net t f).heap.length = net.heap.length := by
  cases t with
  | none => rfl
  | some x => exact heapLen_newFollowOn net x f

theorem heapLen_remFollowOnOpt (net : Net) (t f : Option GateId) :
    (remFollowOnOpt net t f).heap.length = net.heap.length := by
  cases t with
  | none => rfl
  | some x => exact heapLen_remFollowOn net x f

theorem heapLen_swapDriverOn (net : Net) (g : GateId) (oldD newD : Option GateId) :
    (net.swapDriverOn g oldD newD).heap.length = net.heap.length := by
  unfold Net.swapDriverOn
  cases net.get g with
  | none => rfl
  | some gate =>
    cases oldD with
    | none => rfl
    | some od =>
      by_cases hc : gate.inputs.contains od
      · dsimp only
        rw [if_pos hc]
        cases newD with
        | none => rfl
        | some nd => rw [heapLen_setDepth, heapLen_modifyGate]
      · dsimp only
        rw [if_neg hc]

theorem heapLen_swapDriverOnOpt (net : Net) (t oldD newD : Option GateId) :
    (swapDriverOnOpt net t oldD newD).heap.length = net.heap.length := by
  cases t with
  | none => rfl
  | some x => exact heapLen_swapDriverOn net x oldD newD

theorem heapLen_alloc (net : Net) (gate : Gate) :
    (net.alloc gate).1.heap.length = net.heap.length + 1 := by
  simp [Net.alloc]

/-- One wiring slot of the duplicate-gates loop keeps the core of every gate
other than the twin. -/
theorem dupGateWireStep_core_at (t : GateId) (gate : Gate) (n : Net) (j : Nat)
    (x : GateId) (hx : x ≠ t) :
    stableUnderAt gateCore n (dupGateWireStep t gate n j) x := by
  unfold dupGateWireStep
  split
  · exact stableUnderAt_refl gateCore n x
  · rename_i dj hdj
    refine stableUnderAt_trans gateCore _ _ _ x ?h1
      (stableUnderAt_of_stable gateCore (stableUnder_newFollowOn_core _ dj (some t)) x)
    unfold Net.newInputOn
    dsimp only
    refine stableUnderAt_trans gateCore _ _ _ x ?h2
      (stableUnderAt_of_stable gateCore (stableUnder_setDepth_core _ t _) x)
    exact stableUnderAt_modifyGate_ne gateCore n t _ x hx

/-- Chain pointwise stability through a fold. -/
theorem foldlChainAt {β : Type} (F : Gate → β) (x : GateId) {α : Type} (step : Net → α → Net)
    (hstep : ∀ s a, stableUnderAt F s (step s a) x) (l : List α) (s : Net) :
    stableUnderAt F s (l.foldl step s) x :=
  foldlChain (fun nA nB => stableUnderAt F nA nB x) (fun n => stableUnderAt_refl F n x)
    (fun a b c h1 h2 => stableUnderAt_trans F a b c x h1 h2) step hstep l s

/-- A duplicate-gates iteration keeps the core of every gate that exists and
is not the iterated original (the fresh twin sits above the old arena). -/
theorem dupGateStep_core_at (st : Net × List GateId) (a : GateId) (x : GateId)
    (hx : x < st.1.heap.length) (hxa : x ≠ a) :
    stableUnderAt gateCore st.1 (dupGateStep st a).1 x := by
  cases hsome : st.1.get a with
  | none =>
    unfold dupGateStep
    dsimp only
    rw [hsome]
    exact stableUnderAt_refl gateCore st.1 x
  | some gate =>
    unfold dupGateStep
    dsimp only
    rw [hsome]
    dsimp only [Net.alloc]
    have hxt : x ≠ st.1.heap.length := Nat.ne_of_lt hx
    have halloc : stableUnderAt gateCore st.1
        ((st.1.alloc (Gate.mkGate ("D_" ++ gate.gateName))).1) x :=
      stableUnderAt_alloc gateCore st.1 _ x hx
    refine stableUnderAt_trans gateCore _ _ _ x ?h5
      (foldlChainAt gateCore x _
        (fun s j => dupGateWireStep_core_at _ gate s j x hxt) _ _)
    split
    all_goals
      repeat
        first
          | exact halloc
          | exact stableUnderAt_trans gateCore _ _ _ x halloc
              (stableUnderAt_modifyGate_ne gateCore _ _ _ x hxt)
          | refine stableUnderAt_trans gateCore _ _ _ x ?_
              (stableUnderAt_modifyGate_ne gateCore _ _ _ x hxt)
          | refine stableUnderAt_trans gateCore _ _ _ x ?_
              (stableUnderAt_modifyGate_ne gateCore _ a _ x hxa)

/-- Unfolding pointwise core stability at an id known to hold a gate. -/
theorem core_transfer {nA nB : Net} {x : GateId} (h : stableUnderAt gateCore nA nB x)
    {gX : Gate} (hA : nA.get x = some gX) :
    ∃ gY, nB.get x = some gY ∧ gY.gateName = gX.gateName ∧
      gY.gateFunction = gX.gateFunction ∧ gY.gatePlacement = gX.gatePlacement ∧
      gY.inputs = gX.inputs ∧ gY.inputInverters = gX.inputInverters ∧
      gY.outputInverter = gX.outputInverter ∧ gY.complementaryGate = gX.complementaryGate := by
  unfold stableUnderAt at h
  rw [hA] at h
  cases hB : nB.get x with
  | none => rw [hB] at h; simp at h
  | some gY =>
    rw [hB] at h
    simp only [Option.map_some'] at h
    have hc := Option.some.inj h
    unfold gateCore at hc
    simp only [Prod.mk.injEq] at hc
    obtain ⟨h1, h2, h3, h4, h5, h6, h7⟩ := hc
    exact ⟨gY, rfl, h1, h2, h3, h4, h5, h6, h7⟩

/-- Complement-pair linkage transfers along pointwise stability of the
function and complement fields at both ids. -/
theorem pairAt_transfer {nA nB : Net} {a b : GateId}
    (hca : stableUnderAt (fun gt => gt.complementaryGate) nA nB a)
    (hfa : stableUnderAt (fun gt => gt.gateFunction) nA nB a)
    (hcb : stableUnderAt (fun gt => gt.complementaryGate) nA nB b)
    (hfb : stableUnderAt (fun gt => gt.gateFunction) nA nB b)
    (h : pairAt nA a b) : pairAt nB a b := by
  obtain ⟨h1, h2, fa, fb, hf1, hf2, hd1, hd2⟩ := h
  exact ⟨(complOf_eq_of_stableAt hca).trans h1, (complOf_eq_of_stableAt hcb).trans h2,
    fa, fb, (fnOf_eq_of_stableAt hfa).trans hf1, (fnOf_eq_of_stableAt hfb).trans hf2, hd1, hd2⟩

/-- The complementary INPUT buffer built for a primary input `i` by the
duplicate-inputs loop of convDualRail: a BUFFER fed by `i` alone through a
NON-inverting edge, with the inversion expressed by the output inverter. -/
def inputTwinShape (net : Net) (t i : GateId) : Prop :=
  ∃ tg, net.get t = some tg ∧ tg.gateFunction = GateFunction.BUFFER ∧
    tg.inputs = [i] ∧ tg.inputInverters = [false] ∧ tg.outputInverter = true ∧
    tg.complementaryGate = some i

theorem inputTwinShape_transfer {nA nB : Net} {t i : GateId}
    (h : stableUnderAt gateCore nA nB t) (hs : inputTwinShape nA t i) :
    inputTwinShape nB t i := by
  obtain ⟨tg, hget, h1, h2, h3, h4, h5⟩ := hs
  obtain ⟨gY, hB, _, hf, _, hin, hinv, hout, hc⟩ := core_transfer h hget
  exact ⟨gY, hB, hf.trans h1, hin.trans h2, hinv.trans h3, hout.trans h4, hc.trans h5⟩

/-- The shape the duplicate-gates loop gives a twin: driver list reversed,
polarities slotwise negated (and reversed with the list). -/
def twinShapeAt (net : Net) (g t : GateId) : Prop :=
  ∃ gg tg, net.get g = some gg ∧ net.get t = some tg ∧
    tg.inputs = gg.inputs.reverse ∧
    tg.inputInverters =
      ((List.range gg.inputs.length).map (fun j => ! gg.isInputInverting j)).reverse

theorem twinShapeAt_transfer {nA nB : Net} {g t : GateId}
    (hg : stableUnderAt gateCore nA nB g) (ht : stableUnderAt gateCore nA nB t)
    (hs : twinShapeAt nA g t) : twinShapeAt nB g t := by
  obtain ⟨gg, tg, hgg, htg, h1, h2⟩ := hs
  obtain ⟨gg2, hgB, _, _, _, hgin, hginv, _, _⟩ := core_transfer hg hgg
  obtain ⟨tg2, htB, _, _, _, htin, htinv, _, _⟩ := core_transfer ht htg
  have hfun : (fun j => ! gg2.isInputInverting j) = (fun j => ! gg.isInputInverting j) := by
    funext j
    unfold Gate.isInputInverting
    rw [hginv]
  refine ⟨gg2, tg2, hgB, htB, ?_, ?_⟩
  · rw [htin, hgin, h1]
  · rw [htinv, hgin, hfun, h2]

theorem sameLists_alloc (net : Net) (gate : Gate) :
    sameLists net (net.alloc gate).1 := ⟨rfl, rfl, rfl, rfl⟩

/-- A fold of arena-size-preserving steps preserves the arena size. -/
theorem heapLen_foldl_eq {α : Type} (step : Net → α → Net)
    (hstep : ∀ n a, (step n a).heap.length = n.heap.length) :
    ∀ (l : List α) (n : Net), (l.foldl step n).heap.length = n.heap.length := by
  intro l
  induction l with
  | nil => intro n; rfl
  | cons a t ih => intro n; rw [List.foldl_cons, ih (step n a), hstep n a]

theorem heapLen_dupGateWireStep (t : GateId) (gate : Gate) (n : Net) (j : Nat) :
    (dupGateWireStep t gate n j).heap.length = n.heap.length := by
  unfold dupGateWireStep
  split
  · rfl
  · rw [heapLen_newFollowOn, heapLen_newInputOn]

/-- The duplicate-gates iteration allocates exactly one fresh slot. -/
theorem heapLen_dupGateStep (st : Net × List GateId) (a : GateId) (gate : Gate)
    (h : st.1.get a = some gate) :
    (dupGateStep st a).1.heap.length = st.1.heap.length + 1 := by
  unfold dupGateStep
  dsimp only
  rw [h]
  dsimp only
  rw [heapLen_foldl_eq (dupGateWireStep _ gate) (fun n j => heapLen_dupGateWireStep _ gate n j)]
  split
  · rw [heapLen_modifyGate, heapLen_modifyGate, heapLen_modifyGate, heapLen_modifyGate,
      heapLen_alloc]
  · rw [heapLen_modifyGate, heapLen_modifyGate, heapLen_modifyGate, heapLen_alloc]

theorem heapLen_dupGateStep_le (st : Net × List GateId) (a : GateId) :
    st.1.heap.length ≤ (dupGateStep st a).1.heap.length := by
  cases h : st.1.get a with
  | none =>
    unfold dupGateStep
    dsimp only
    rw [h]
  | some gate =>
    rw [heapLen_dupGateStep st a gate h]
    exact Nat.le_succ _

/-- The duplicate-inputs iteration allocates exactly one fresh slot. -/
theorem heapLen_dupInputStep (st : Net × List GateId) (i : GateId) (gate : Gate)
    (h : st.1.get i = some gate) :
    (dupInputStep st i).1.heap.length = st.1.heap.length + 1 := by
  unfold dupInputStep
  dsimp only
  rw [h]
  dsimp only
  rw [heapLen_modifyGate, heapLen_modifyGate, heapLen_modifyGate, heapLen_modifyGate,
    heapLen_newFollowOn, heapLen_newInputOn, heapLen_modifyGate, heapLen_alloc]

theorem heapLen_dupInputStep_le (st : Net × List GateId) (i : GateId) :
    st.1.heap.length ≤ (dupInputStep st i).1.heap.length := by
  cases h : st.1.get i with
  | none =>
    unfold dupInputStep
    dsimp only
    rw [h]
  | some gate =>
    rw [heapLen_dupInputStep st i gate h]
    exact Nat.le_succ _

theorem heapLen_dupOutputSwapTail (o : GateId) (net6 : Net) :
    (dupOutputSwapTail o net6).heap.length = net6.heap.length := by
  unfold dupOutputSwapTail dupOutputFix4 dupOutputFix3 dupOutputFix2 dupOutputFix1
    dupOutputSwap2 dupOutputSwap1
  rw [heapLen_newFollowOnOpt, heapLen_remFollowOnOpt, heapLen_newFollowOnOpt,
    heapLen_remFollowOnOpt, heapLen_swapDriverOnOpt, heapLen_swapDriverOn,
    heapLen_modifyGate]

theorem heapLen_dupOutputTwinWire (o t : GateId) (net4 : Net) :
    (dupOutputTwinWire o t net4).heap.length = net4.heap.length := by
  unfold dupOutputTwinWire
  rw [heapLen_newFollowOnOpt, heapLen_newInputOn]

theorem heapLen_dupOutputPrefix (st : Net × List GateId) (o : GateId) (gate : Gate) :
    (dupOutputPrefix st o gate).1.heap.length = st.1.heap.length + 1 := by
  unfold dupOutputPrefix
  dsimp only
  rw [heapLen_dupOutputTwinWire, heapLen_modifyGate,
    heapLen_modifyGate, heapLen_modifyGate, heapLen_alloc]

theorem heapLen_ite (c : Prop) [Decidable c] (n1 n2 : Net) (L : Nat)
    (h1 : n1.heap.length = L) (h2 : n2.heap.length = L) :
    (if c then n1 else n2).heap.length = L := by
  split
  · exact h1
  · exact h2

theorem heapLen_dupOutputStepSome (st : Net × List GateId) (o : GateId) (gate : Gate) :
    (dupOutputStepSome st o gate).1.heap.length = st.1.heap.length + 1 := by
  unfold dupOutputStepSome
  dsimp only
  refine heapLen_ite _ _ _ _ ?_ (heapLen_dupOutputPrefix st o gate)
  rw [heapLen_dupOutputSwapTail, heapLen_dupOutputPrefix]

/-- The duplicate-outputs iteration allocates exactly one fresh slot. -/
theorem heapLen_dupOutputStep (st : Net × List GateId) (o : GateId) (gate : Gate)
    (h : st.1.get o = some gate) :
    (dupOutputStep st o).1.heap.length = st.1.heap.length + 1 := by
  unfold dupOutputStep
  rw [h]
  exact heapLen_dupOutputStepSome st o gate

theorem heapLen_dupOutputStep_le (st : Net × List GateId) (o : GateId) :
    st.1.heap.length ≤ (dupOutputStep st o).1.heap.length := by
  cases h : st.1.get o with
  | none =>
    unfold dupOutputStep
    rw [h]
  | some gate =>
    rw [heapLen_dupOutputStep st o gate h]
    exact Nat.le_succ _

theorem sameLists_swapDriverOnOpt (net : Net) (t oldD newD : Option GateId) :
    sameLists net (swapDriverOnOpt net t oldD newD) := by
  cases t with
  | none => exact sameLists_refl net
  | some x => exact sameLists_swapDriverOn net x oldD newD

theorem sameLists_dupGateWireStep (t : GateId) (gate : Gate) (n : Net) (j : Nat) :
    sameLists n (dupGateWireStep t gate n j) := by
  unfold dupGateWireStep
  split
  · exact sameLists_refl n
  · exact sameLists_trans _ _ _ (sameLists_newInputOn n t _ _) (sameLists_newFollowOn _ _ _)

/-- No iteration of the three duplication loops touches the id collections
(the new ids are gathered in local vectors and appended afterwards). -/
theorem sameLists_dupGateStep (st : Net × List GateId) (a : GateId) :
    sameLists st.1 (dupGateStep st a).1 := by
  cases h : st.1.get a with
  | none =>
    unfold dupGateStep
    dsimp only
    rw [h]
    exact sameLists_refl st.1
  | some gate =>
    unfold dupGateStep
    dsimp only
    rw [h]
    dsimp only
    refine sameLists_trans _ _ _ ?h5
      (foldlChain sameLists sameLists_refl sameLists_trans _
        (fun s j => sameLists_dupGateWireStep _ gate s j) _ _)
    split
    · refine sameLists_trans _ _ _ ?_ (sameLists_modifyGate _ _ _)
      refine sameLists_trans _ _ _ ?_ (sameLists_modifyGate _ _ _)
      refine sameLists_trans _ _ _ ?_ (sameLists_modifyGate _ _ _)
      refine sameLists_trans _ _ _ ?_ (sameLists_modifyGate _ _ _)
      exact sameLists_alloc st.1 _
    · refine sameLists_trans _ _ _ ?_ (sameLists_modifyGate _ _ _)
      refine sameLists_trans _ _ _ ?_ (sameLists_modifyGate _ _ _)
      refine sameLists_trans _ _ _ ?_ (sameLists_modifyGate _ _ _)
      exact sameLists_alloc st.1 _

theorem sameLists_dupInputStep (st : Net × List GateId) (i : GateId) :
    sameLists st.1 (dupInputStep st i).1 := by
  cases h : st.1.get i with
  | none =>
    unfold dupInputStep
    dsimp only
    rw [h]
    exact sameLists_refl st.1
  | some gate =>
    unfold dupInputStep
    dsimp only
    rw [h]
    dsimp only
    refine sameLists_trans _ _ _ ?_ (sameLists_modifyGate _ _ _)
    refine sameLists_trans _ _ _ ?_ (sameLists_modifyGate _ _ _)
    refine sameLists_trans _ _ _ ?_ (sameLists_modifyGate _ _ _)
    refine sameLists_trans _ _ _ ?_ (sameLists_modifyGate _ _ _)
    refine sameLists_trans _ _ _ ?_ (sameLists_newFollowOn _ _ _)
    refine sameLists_trans _ _ _ ?_ (sameLists_newInputOn _ _ _ _)
    refine sameLists_trans _ _ _ ?_ (sameLists_modifyGate _ _ _)
    exact sameLists_alloc st.1 _

theorem sameLists_dupOutputSwapTail (o : GateId) (net6 : Net) :
    sameLists net6 (dupOutputSwapTail o net6) := by
  unfold dupOutputSwapTail dupOutputFix4 dupOutputFix3 dupOutputFix2 dupOutputFix1
    dupOutputSwap2 dupOutputSwap1
  repeat
    first
      | exact sameLists_modifyGate net6 _ _
      | refine sameLists_trans _ _ _ ?_ (sameLists_newFollowOnOpt _ _ _)
      | refine sameLists_trans _ _ _ ?_ (sameLists_remFollowOnOpt _ _ _)
      | refine sameLists_trans _ _ _ ?_ (sameLists_swapDriverOnOpt _ _ _ _)
      | refine sameLists_trans _ _ _ ?_ (sameLists_swapDriverOn _ _ _ _)

theorem sameLists_dupOutputTwinWire (o t : GateId) (net4 : Net) :
    sameLists net4 (dupOutputTwinWire o t net4) := by
  unfold dupOutputTwinWire
  exact sameLists_trans _ _ _ (sameLists_newInputOn net4 t _ _)
    (sameLists_newFollowOnOpt _ _ _)

theorem sameLists_dupOutputPrefix (st : Net × List GateId) (o : GateId) (gate : Gate) :
    sameLists st.1 (dupOutputPrefix st o gate).1 := by
  unfold dupOutputPrefix
  dsimp only
  refine sameLists_trans _ _ _ ?_ (sameLists_dupOutputTwinWire _ _ _)
  refine sameLists_trans _ _ _ ?_ (sameLists_modifyGate _ _ _)
  refine sameLists_trans _ _ _ ?_ (sameLists_modifyGate _ _ _)
  refine sameLists_trans _ _ _ ?_ (sameLists_modifyGate _ _ _)
  exact sameLists_alloc st.1 _

theorem sameLists_ite (n : Net) (c : Prop) [Decidable c] (n1 n2 : Net)
    (h1 : sameLists n n1) (h2 : sameLists n n2) : sameLists n (if c then n1 else n2) := by
  split
  · exact h1
  · exact h2

theorem sameLists_dupOutputStepSome (st : Net × List GateId) (o : GateId) (gate : Gate) :
    sameLists st.1 (dupOutputStepSome st o gate).1 := by
  unfold dupOutputStepSome
  dsimp only
  exact sameLists_ite st.1 _ _ _
    (sameLists_trans _ _ _ (sameLists_dupOutputPrefix st o gate)
      (sameLists_dupOutputSwapTail _ _))
    (sameLists_dupOutputPrefix st o gate)

theorem sameLists_dupOutputStep (st : Net × List GateId) (o : GateId) :
    sameLists st.1 (dupOutputStep st o).1 := by
  cases h : st.1.get o with
  | none =>
    unfold dupOutputStep
    rw [h]
    exact sameLists_refl st.1
  | some gate =>
    unfold dupOutputStep
    rw [h]
    exact sameLists_dupOutputStepSome st o gate

/-- sameLists through a fold of the duplication state. -/
theorem sameLists_foldl_pair {α : Type} (step : Net × List GateId → α → Net × List GateId)
    (hstep : ∀ s a, sameLists s.1 (step s a).1) :
    ∀ (l : List α) (s0 : Net × List GateId), sameLists s0.1 (l.foldl step s0).1 := by
  intro l
  induction l with
  | nil => intro s0; exact sameLists_refl s0.1
  | cons a t ih =>
    intro s0
    exact sameLists_trans _ _ _ (hstep s0 a) (ih (step s0 a))

theorem heapLen_foldl_pair_le {α : Type} (step : Net × List GateId → α → Net × List GateId)
    (hstep : ∀ s a, s.1.heap.length ≤ (step s a).1.heap.length) :
    ∀ (l : List α) (s0 : Net × List GateId),
      s0.1.heap.length ≤ (l.foldl step s0).1.heap.length := by
  intro l
  induction l with
  | nil => intro s0; exact Nat.le_refl _
  | cons a t ih =>
    intro s0
    exact Nat.le_trans (hstep s0 a) (ih (step s0 a))

/-- Chain pointwise stability through a fold of the duplication state, keeping
the id inside the arena. -/
theorem foldlStableAtPair {β : Type} (F : Gate → β) (x : GateId) {α : Type}
    (step : Net × List GateId → α → Net × List GateId)
    (hmono : ∀ s a, s.1.heap.length ≤ (step s a).1.heap.length) :
    ∀ (l : List α) (s0 : Net × List GateId),
      (∀ s, ∀ a ∈ l, x < s.1.heap.length → stableUnderAt F s.1 (step s a).1 x) →
      x < s0.1.heap.length → stableUnderAt F s0.1 (l.foldl step s0).1 x := by
  intro l
  induction l with
  | nil => intro s0 _ _; exact stableUnderAt_refl F s0.1 x
  | cons a t ih =>
    intro s0 hstep hx
    refine stableUnderAt_trans F _ _ _ x (hstep s0 a (List.mem_cons_self a t) hx)
      (ih (step s0 a) (fun s b hb h => hstep s b (List.mem_cons_of_mem a hb) h)
        (Nat.lt_of_lt_of_le hx (hmono s0 a)))

/-- The fresh ids collected by a duplication loop all lie between the arena
size at entry and the arena size at exit. -/
theorem twinsBounds_foldl {α : Type} (step : Net × List GateId → α → Net × List GateId)
    (hmono : ∀ s a, s.1.heap.length ≤ (step s a).1.heap.length)
    (htw : ∀ s a, (step s a).2 = s.2 ∨ ((step s a).2 = s.2 ++ [s.1.heap.length] ∧
      s.1.heap.length < (step s a).1.heap.length)) (lo : Nat) :
    ∀ (l : List α) (s0 : Net × List GateId),
      (∀ e ∈ s0.2, lo ≤ e ∧ e < s0.1.heap.length) → lo ≤ s0.1.heap.length →
      (∀ e ∈ (l.foldl step s0).2, lo ≤ e ∧ e < (l.foldl step s0).1.heap.length) ∧
        lo ≤ (l.foldl step s0).1.heap.length := by
  intro l
  induction l with
  | nil => intro s0 h0 hlo; exact ⟨h0, hlo⟩
  | cons a t ih =>
    intro s0 h0 hlo
    refine ih (step s0 a) ?_ (Nat.le_trans hlo (hmono s0 a))
    intro e he
    rcases htw s0 a with h | ⟨h, hlt⟩
    · rw [h] at he
      exact ⟨(h0 e he).1, Nat.lt_of_lt_of_le (h0 e he).2 (hmono s0 a)⟩
    · rw [h] at he
      rcases List.mem_append.1 he with he | he
      · exact ⟨(h0 e he).1, Nat.lt_of_lt_of_le (h0 e he).2 (hmono s0 a)⟩
      · rw [List.mem_singleton.1 he]
        exact ⟨hlo, hlt⟩

theorem twins_dupGateStep (st : Net × List GateId) (a : GateId) :
    (dupGateStep st a).2 = st.2 ∨ ((dupGateStep st a).2 = st.2 ++ [st.1.heap.length] ∧
      st.1.heap.length < (dupGateStep st a).1.heap.length) := by
  cases h : st.1.get a with
  | none =>
    left
    unfold dupGateStep
    dsimp only
    rw [h]
  | some gate =>
    right
    constructor
    · unfold dupGateStep
      dsimp only
      rw [h]
      rfl
    · rw [heapLen_dupGateStep st a gate h]
      exact Nat.lt_succ_self _

theorem twins_dupInputStep (st : Net × List GateId) (i : GateId) :
    (dupInputStep st i).2 = st.2 ∨ ((dupInputStep st i).2 = st.2 ++ [st.1.heap.length] ∧
      st.1.heap.length < (dupInputStep st i).1.heap.length) := by
  cases h : st.1.get i with
  | none =>
    left
    unfold dupInputStep
    dsimp only
    rw [h]
  | some gate =>
    right
    constructor
    · unfold dupInputStep
      dsimp only
      rw [h]
      rfl
    · rw [heapLen_dupInputStep st i gate h]
      exact Nat.lt_succ_self _

theorem twins_dupOutputStep (st : Net × List GateId) (o : GateId) :
    (dupOutputStep st o).2 = st.2 ∨ ((dupOutputStep st o).2 = st.2 ++ [st.1.heap.length] ∧
      st.1.heap.length < (dupOutputStep st o).1.heap.length) := by
  cases h : st.1.get o with
  | none =>
    left
    unfold dupOutputStep
    rw [h]
  | some gate =>
    right
    constructor
    · unfold dupOutputStep
      rw [h]
      rfl
    · rw [heapLen_dupOutputStep st o gate h]
      exact Nat.lt_succ_self _

/-- A successful pointer dereference puts the id inside the arena. -/
theorem get_some_lt {net : Net} {g : GateId} {gate : Gate}
    (h : net.get g = some gate) : g < net.heap.length := by
  by_contra hlt
  push_neg at hlt
  have hn : net.heap.get? g = none := List.get?_eq_none.2 hlt
  rw [Net.get] at h
  rw [hn] at h
  exact Option.noConfusion h

theorem stableUnderAt_ite {β : Type} (F : Gate → β) (n : Net) (c : Prop) [Decidable c]
    (n1 n2 : Net) (x : GateId) (h1 : stableUnderAt F n n1 x) (h2 : stableUnderAt F n n2 x) :
    stableUnderAt F n (if c then n1 else n2) x := by
  split
  · exact h1
  · exact h2

/-- newInputOn away from the modified id keeps every core field. -/
theorem newInputOn_core_at (net : Net) (g : GateId) (p : Option GateId) (inv : Bool)
    (x : GateId) (hx : x ≠ g) :
    stableUnderAt gateCore net (net.newInputOn g p inv) x := by
  unfold Net.newInputOn
  cases p with
  | none => exact stableUnderAt_refl gateCore net x
  | some pd =>
    dsimp only
    refine stableUnderAt_trans gateCore _ _ _ x
      (stableUnderAt_modifyGate_ne gateCore net g _ x hx)
      (stableUnderAt_of_stable gateCore (stableUnder_setDepth_core _ g _) x)

/-- swapDriver away from the rewired gate keeps every core field. -/
theorem swapDriverOn_core_at (net : Net) (g : GateId) (oldD newD : Option GateId)
    (x : GateId) (hx : x ≠ g) :
    stableUnderAt gateCore net (net.swapDriverOn g oldD newD) x := by
  unfold Net.swapDriverOn
  cases net.get g with
  | none => exact stableUnderAt_refl gateCore net x
  | some gate =>
    cases oldD with
    | none => exact stableUnderAt_refl gateCore net x
    | some od =>
      by_cases hc : gate.inputs.contains od
      · simp only [hc, if_pos]
        cases newD with
        | none => exact stableUnderAt_refl gateCore net x
        | some nd =>
          refine stableUnderAt_trans gateCore _ _ _ x
            (stableUnderAt_modifyGate_ne gateCore net g _ x hx)
            (stableUnderAt_of_stable gateCore (stableUnder_setDepth_core _ g _) x)
      · simp only [hc, ite_false]
        exact stableUnderAt_refl gateCore net x

theorem swapDriverOnOpt_core_at (net : Net) (target oldD newD : Option GateId)
    (x : GateId) (hx : ∀ c, target = some c → x ≠ c) :
    stableUnderAt gateCore net (swapDriverOnOpt net target oldD newD) x := by
  cases target with
  | none => exact stableUnderAt_refl gateCore net x
  | some c => exact swapDriverOn_core_at net c oldD newD x (hx c rfl)

/-- A duplicate-inputs iteration keeps the core of every gate that exists and
is not the iterated primary input. -/
theorem dupInputStep_core_at (st : Net × List GateId) (i : GateId) (x : GateId)
    (hx : x < st.1.heap.length) (hxi : x ≠ i) :
    stableUnderAt gateCore st.1 (dupInputStep st i).1 x := by
  cases hsome : st.1.get i with
  | none =>
    unfold dupInputStep
    dsimp only
    rw [hsome]
    exact stableUnderAt_refl gateCore st.1 x
  | some gate =>
    unfold dupInputStep
    dsimp only
    rw [hsome]
    dsimp only [Net.alloc]
    have hxt : x ≠ st.1.heap.length := Nat.ne_of_lt hx
    refine stableUnderAt_trans gateCore _ _ _ x ?_
      (stableUnderAt_modifyGate_ne gateCore _ i _ x hxi)
    refine stableUnderAt_trans gateCore _ _ _ x ?_
      (stableUnderAt_modifyGate_ne gateCore _ _ _ x hxt)
    refine stableUnderAt_trans gateCore _ _ _ x ?_
      (stableUnderAt_modifyGate_ne gateCore _ _ _ x hxt)
    refine stableUnderAt_trans gateCore _ _ _ x ?_
      (stableUnderAt_modifyGate_ne gateCore _ _ _ x hxt)
    refine stableUnderAt_trans gateCore _ _ _ x ?_
      (stableUnderAt_of_stable gateCore (stableUnder_newFollowOn_core _ i _) x)
    refine stableUnderAt_trans gateCore _ _ _ x ?_
      (newInputOn_core_at _ _ _ _ x hxt)
    refine stableUnderAt_trans gateCore _ _ _ x ?_
      (stableUnderAt_modifyGate_ne gateCore _ _ _ x hxt)
    exact stableUnderAt_alloc gateCore st.1 _ x hx

theorem dupOutputTwinWire_core_at (o t : GateId) (net4 : Net) (x : GateId)
    (hxt : x ≠ t) : stableUnderAt gateCore net4 (dupOutputTwinWire o t net4) x := by
  unfold dupOutputTwinWire
  dsimp only
  refine stableUnderAt_trans gateCore _ _ _ x (newInputOn_core_at net4 t _ false x hxt)
    (stableUnderAt_of_stable gateCore (stableUnder_newFollowOnOpt_core _ _ _) x)

theorem stableUnder_dupOutputTwinWire_compl (o t : GateId) (net4 : Net) :
    stableUnder (fun gt => gt.complementaryGate) net4 (dupOutputTwinWire o t net4) := by
  unfold dupOutputTwinWire
  dsimp only
  exact stableUnder_trans _ _ _ _
    (stableUnder_newInputOn (fun gt => gt.complementaryGate)
      (fun _ _ _ => rfl) (fun _ _ => rfl) net4 t _ false)
    (stableUnder_newFollowOnOpt (fun gt => gt.complementaryGate) (fun _ _ => rfl) _ _ _)

theorem stableUnder_dupOutputFix1_core (o : GateId) (n : Net) :
    stableUnder gateCore n (dupOutputFix1 o n) := by
  unfold dupOutputFix1
  exact stableUnder_remFollowOnOpt_core _ _ _

theorem stableUnder_dupOutputFix2_core (o : GateId) (n : Net) :
    stableUnder gateCore n (dupOutputFix2 o n) := by
  unfold dupOutputFix2
  exact stableUnder_newFollowOnOpt_core _ _ _

theorem stableUnder_dupOutputFix3_core (o : GateId) (n : Net) :
    stableUnder gateCore n (dupOutputFix3 o n) := by
  unfold dupOutputFix3
  exact stableUnder_remFollowOnOpt_core _ _ _

theorem stableUnder_dupOutputFix4_core (o : GateId) (n : Net) :
    stableUnder gateCore n (dupOutputFix4 o n) := by
  unfold dupOutputFix4
  exact stableUnder_newFollowOnOpt_core _ _ _

theorem dupOutputSwap1_core_at (o : GateId) (n : Net) (x : GateId) (hxo : x ≠ o) :
    stableUnderAt gateCore n (dupOutputSwap1 o n) x := by
  unfold dupOutputSwap1
  exact swapDriverOn_core_at n o _ _ x hxo

theorem dupOutputSwap2_core_at (o : GateId) (n : Net) (x : GateId)
    (hc : ∀ cid, n.getComplementOf o = some cid → x ≠ cid) :
    stableUnderAt gateCore n (dupOutputSwap2 o n) x := by
  unfold dupOutputSwap2
  exact swapDriverOnOpt_core_at n _ _ _ x hc

theorem stableUnder_dupOutputSwap1_compl (o : GateId) (n : Net) :
    stableUnder (fun gt => gt.complementaryGate) n (dupOutputSwap1 o n) := by
  unfold dupOutputSwap1
  exact stableUnder_swapDriverOn (fun gt => gt.complementaryGate)
    (fun _ _ _ => rfl) (fun _ _ => rfl) n o _ _

/-- After the prefix of a duplicate-outputs iteration, the output's complement
points at the fresh twin slot. -/
theorem complOf_dupOutputPrefix (st : Net × List GateId) (o : GateId) (gate g0 : Gate)
    (ho : o < st.1.heap.length) (hget : st.1.get o = some g0) :
    (dupOutputPrefix st o gate).1.getComplementOf o = some st.1.heap.length := by
  unfold dupOutputPrefix
  dsimp only
  have hot : o ≠ (st.1.alloc (Gate.mkGate ("D_" ++ gate.gateName))).2 := Nat.ne_of_lt ho
  rw [complOf_eq_of_stableAt
    (stableUnderAt_of_stable _ (stableUnder_dupOutputTwinWire_compl o _ _) o)]
  unfold Net.getComplementOf
  rw [get_modifyGate_self]
  rw [get_modifyGate_ne _ _ _ o hot]
  rw [get_modifyGate_ne _ _ _ o hot]
  rw [get_alloc st.1 _ o ho]
  rw [hget]
  rfl

theorem dupOutputPrefix_core_at (st : Net × List GateId) (o : GateId) (gate : Gate)
    (x : GateId) (hx : x < st.1.heap.length) (hxo : x ≠ o) :
    stableUnderAt gateCore st.1 (dupOutputPrefix st o gate).1 x := by
  unfold dupOutputPrefix
  dsimp only
  have hxt : x ≠ st.1.heap.length := Nat.ne_of_lt hx
  refine stableUnderAt_trans gateCore _ _ _ x ?_ (dupOutputTwinWire_core_at o _ _ x hxt)
  refine stableUnderAt_trans gateCore _ _ _ x ?_
    (stableUnderAt_modifyGate_ne gateCore _ o _ x hxo)
  refine stableUnderAt_trans gateCore _ _ _ x ?_
    (stableUnderAt_modifyGate_ne gateCore _ _ _ x hxt)
  refine stableUnderAt_trans gateCore _ _ _ x ?_
    (stableUnderAt_modifyGate_ne gateCore _ _ _ x hxt)
  exact stableUnderAt_alloc gateCore st.1 _ x hx

/-- The driver-swap tail keeps the core of every gate other than the output
and its complement. -/
theorem dupOutputSwapTail_core_at (o : GateId) (net6 : Net) (x : GateId) (hxo : x ≠ o)
    (hc : ∀ cid, net6.getComplementOf o = some cid → x ≠ cid) :
    stableUnderAt gateCore net6 (dupOutputSwapTail o net6) x := by
  unfold dupOutputSwapTail
  have h8 : stableUnder (fun gt => gt.complementaryGate) net6
      (dupOutputSwap1 o (net6.modifyGate o (fun gt => gt.setInputNonInverting 0))) :=
    stableUnder_trans _ _ _ _
      (stableUnder_modifyGate (fun gt => gt.complementaryGate) net6 o
        (fun gt => gt.setInputNonInverting 0) (fun gt => rfl))
      (stableUnder_dupOutputSwap1_compl o _)
  have hc8 : ∀ cid,
      (dupOutputSwap1 o (net6.modifyGate o (fun gt =>
        gt.setInputNonInverting 0))).getComplementOf o = some cid → x ≠ cid := by
    intro cid hcid
    rw [complOf_eq_of_stableAt (stableUnderAt_of_stable _ h8 o)] at hcid
    exact hc cid hcid
  refine stableUnderAt_trans gateCore _ _ _ x ?_
    (stableUnderAt_of_stable gateCore (stableUnder_dupOutputFix4_core o _) x)
  refine stableUnderAt_trans gateCore _ _ _ x ?_
    (stableUnderAt_of_stable gateCore (stableUnder_dupOutputFix3_core o _) x)
  refine stableUnderAt_trans gateCore _ _ _ x ?_
    (stableUnderAt_of_stable gateCore (stableUnder_dupOutputFix2_core o _) x)
  refine stableUnderAt_trans gateCore _ _ _ x ?_
    (stableUnderAt_of_stable gateCore (stableUnder_dupOutputFix1_core o _) x)
  refine stableUnderAt_trans gateCore _ _ _ x ?_ (dupOutputSwap2_core_at o _ x hc8)
  refine stableUnderAt_trans gateCore _ _ _ x ?_ (dupOutputSwap1_core_at o _ x hxo)
  exact stableUnderAt_modifyGate_ne gateCore net6 o _ x hxo

theorem dupOutputStepSome_core_at (st : Net × List GateId) (o : GateId) (gate g0 : Gate)
    (hget : st.1.get o = some g0) (x : GateId) (hx : x < st.1.heap.length) (hxo : x ≠ o) :
    stableUnderAt gateCore st.1 (dupOutputStepSome st o gate).1 x := by
  have ho : o < st.1.heap.length := get_some_lt hget
  have hpre := dupOutputPrefix_core_at st o gate x hx hxo
  unfold dupOutputStepSome
  dsimp only
  refine stableUnderAt_ite gateCore st.1 _ _ _ x ?_ hpre
  refine stableUnderAt_trans gateCore _ _ _ x hpre ?_
  refine dupOutputSwapTail_core_at o _ x hxo ?_
  intro cid hcid
  rw [complOf_dupOutputPrefix st o gate g0 ho hget] at hcid
  have hcl := Option.some.inj hcid
  rw [← hcl]
  exact Nat.ne_of_lt hx

/-- A duplicate-outputs iteration keeps the core of every gate that exists
and is not the iterated output (the twin and the rewired drivers sit
elsewhere). -/
theorem dupOutputStep_core_at (st : Net × List GateId) (o : GateId) (x : GateId)
    (hx : x < st.1.heap.length) (hxo : x ≠ o) :
    stableUnderAt gateCore st.1 (dupOutputStep st o).1 x := by
  cases hsome : st.1.get o with
  | none =>
    unfold dupOutputStep
    rw [hsome]
    exact stableUnderAt_refl gateCore st.1 x
  | some g0 =>
    unfold dupOutputStep
    rw [hsome]
    exact dupOutputStepSome_core_at st o g0 g0 hsome x hx hxo

theorem take_reverse_cons (l : List GateId) (j : Nat) (hjl : j < l.length) :
    (l.take (j+1)).reverse = l[j] :: (l.take j).reverse := by
  rw [List.take_succ, List.getElem?_eq_getElem hjl]
  simp

theorem map_range_reverse_cons (f : Nat → Bool) (j : Nat) :
    ((List.range (j+1)).map f).reverse = f j :: ((List.range j).map f).reverse := by
  rw [List.range_succ]
  simp

/-- Running the duplicate-gates wiring loop over the first `j` slots prepends
the drivers in ascending order, so the twin ends up with the reversed driver
list and slotwise-negated polarities; function, complement and output
inverter of the twin are untouched. -/
theorem wireFold_twin (t : GateId) (gate : Gate) :
    ∀ (j : Nat), j ≤ gate.inputs.length → ∀ (n : Net) (tg : Gate), n.get t = some tg →
    ∃ tg2, ((List.range j).foldl (dupGateWireStep t gate) n).get t = some tg2 ∧
      tg2.inputs = (gate.inputs.take j).reverse ++ tg.inputs ∧
      tg2.inputInverters =
        ((List.range j).map (fun i => ! gate.isInputInverting i)).reverse ++
          tg.inputInverters ∧
      tg2.gateFunction = tg.gateFunction ∧ tg2.complementaryGate = tg.complementaryGate ∧
      tg2.outputInverter = tg.outputInverter := by
  intro j
  induction j with
  | zero =>
    intro _ n tg hget
    refine ⟨tg, ?_, by simp, by simp, rfl, rfl, rfl⟩
    simpa using hget
  | succ j ih =>
    intro hj n tg hget
    have hjl : j < gate.inputs.length := hj
    obtain ⟨tg2, hget2, hin2, hinv2, hf2, hc2, ho2⟩ := ih (Nat.le_of_succ_le hj) n tg hget
    rw [List.range_succ, List.foldl_append, List.foldl_cons, List.foldl_nil]
    unfold dupGateWireStep
    rw [List.get?_eq_get hjl]
    dsimp only
    unfold Net.newInputOn
    dsimp only
    have hmod : (((List.range j).foldl (dupGateWireStep t gate) n).modifyGate t
        (fun gt => { gt with inputs := gate.inputs.get ⟨j, hjl⟩ :: gt.inputs, inputInverters := (! gate.isInputInverting j) :: gt.inputInverters })).get t =
        some { tg2 with inputs := gate.inputs.get ⟨j, hjl⟩ :: tg2.inputs, inputInverters := (! gate.isInputInverting j) :: tg2.inputInverters } := by
      rw [get_modifyGate_self, hget2]
      rfl
    obtain ⟨tgA, hgetA, hnA, hfA, hpA, hinA, hinvA, hoA, hcA⟩ :=
      core_transfer (stableUnderAt_of_stable gateCore
        (stableUnder_setDepth_core _ t _) t) hmod
    obtain ⟨tgB, hgetB, hnB, hfB, hpB, hinB, hinvB, hoB, hcB⟩ :=
      core_transfer (stableUnderAt_of_stable gateCore
        (stableUnder_newFollowOn_core _ (gate.inputs.get ⟨j, hjl⟩) (some t)) t) hgetA
    refine ⟨tgB, hgetB, ?_, ?_, ?_, ?_, ?_⟩
    · rw [hinB, hinA]
      dsimp only
      rw [hin2, take_reverse_cons gate.inputs j hjl]
      simp [List.get_eq_getElem]
    · rw [hinvB, hinvA]
      dsimp only
      rw [hinv2, List.map_append, List.reverse_append]
      simp
    · rw [hfB, hfA]
      dsimp only
      exact hf2
    · rw [hcB, hcA]
      dsimp only
      exact hc2
    · rw [hoB, hoA]
      dsimp only
      exact ho2

theorem get_alloc_self2 (net : Net) (gate : Gate) :
    (net.alloc gate).1.get (net.alloc gate).2 = some gate :=
  get_alloc_self net gate

theorem ex_get_ite (c : Prop) [Decidable c] (n1 n2 : Net) (x : GateId) (P : Gate → Prop)
    (h1 : ∃ g, n1.get x = some g ∧ P g) (h2 : ∃ g, n2.get x = some g ∧ P g) :
    ∃ g, (if c then n1 else n2).get x = some g ∧ P g := by
  split
  · exact h1
  · exact h2

/-- Running the wiring loop from a state where the twin holds the dual
function, the back-link and empty vectors, and the original holds its
snapshot with the forward link, produces the complement pair with the
reversed-negated twin shape. -/
theorem dupGateEstablishAux (n4 : Net) (a t : GateId) (gate : Gate)
    (hat : a ≠ t)
    (h4t : ∃ g, n4.get t = some g ∧ g.inputs = [] ∧ g.inputInverters = [] ∧
      g.gateFunction = convdualGetComplementaryGateFn gate.gateFunction ∧
      g.complementaryGate = some a)
    (h4a : n4.get a = some { gate with complementaryGate := some t })
    (hfa : gate.gateFunction ≠ GateFunction.XOR) :
    pairAt ((List.range gate.getFanIn).foldl (dupGateWireStep t gate) n4) a t ∧
    twinShapeAt ((List.range gate.getFanIn).foldl (dupGateWireStep t gate) n4) a t := by
  obtain ⟨g5, hg5, hgin, hginv, hgfn, hgc⟩ := h4t
  obtain ⟨tg2, hget6t, hin6, hinv6, hf6, hc6, ho6⟩ :=
    wireFold_twin t gate gate.getFanIn (Nat.le_refl _) n4 g5 hg5
  have hstA : stableUnderAt gateCore n4
      ((List.range gate.getFanIn).foldl (dupGateWireStep t gate) n4) a :=
    foldlChainAt gateCore a _ (fun s j => dupGateWireStep_core_at t gate s j a hat) _ n4
  obtain ⟨gA, hgetA, hnA2, hfA2, hpA2, hinA2, hinvA2, hoA2, hcA2⟩ := core_transfer hstA h4a
  have hin6' : tg2.inputs = gate.inputs.reverse := by
    rw [hin6, hgin]
    simp [Gate.getFanIn]
  have hdd : gate.gateFunction =
      convdualGetComplementaryGateFn (convdualGetComplementaryGateFn gate.gateFunction) := by
    cases hgf : gate.gateFunction
    · rfl
    · rfl
    · rfl
    · exact absurd hgf hfa
  constructor
  · refine ⟨?_, ?_, gate.gateFunction, convdualGetComplementaryGateFn gate.gateFunction,
      ?_, ?_, rfl, hdd⟩
    · unfold Net.getComplementOf
      rw [hgetA]
      show gA.complementaryGate = some t
      rw [hcA2]
    · unfold Net.getComplementOf
      rw [hget6t]
      show tg2.complementaryGate = some a
      rw [hc6, hgc]
    · unfold fnOf
      rw [hgetA]
      simp only [Option.map_some']
      rw [hfA2]
    · unfold fnOf
      rw [hget6t]
      simp only [Option.map_some']
      rw [hf6, hgfn]
  · refine ⟨gA, tg2, hgetA, hget6t, ?_, ?_⟩
    · rw [hin6', hinA2]
    · have hfun : (fun j => ! gA.isInputInverting j) =
          (fun i => ! gate.isInputInverting i) := by
        funext i
        unfold Gate.isInputInverting
        rw [hinvA2]
      rw [hinv6, hginv, hinA2, hfun]
      simp [Gate.getFanIn]

/-- One duplicate-gates iteration establishes the complement pair between the
iterated gate and the fresh twin, with the reversed-negated twin shape. -/
theorem dupGateStep_establish (s : Net × List GateId) (a : GateId) (gate : Gate)
    (hget : s.1.get a = some gate)
    (hfa : gate.gateFunction ≠ GateFunction.XOR) :
    pairAt (dupGateStep s a).1 a s.1.heap.length ∧
    twinShapeAt (dupGateStep s a).1 a s.1.heap.length := by
  have ha : a < s.1.heap.length := get_some_lt hget
  have hat : a ≠ (s.1.alloc (Gate.mkGate ("D_" ++ gate.gateName))).2 := Nat.ne_of_lt ha
  unfold dupGateStep
  dsimp only
  rw [hget]
  dsimp only
  refine dupGateEstablishAux _ a _ gate hat ?_ ?_ hfa
  · refine ex_get_ite _ _ _ _ _ ?_ ?_
    · rw [get_modifyGate_self, get_modifyGate_ne _ a _ _ hat.symm, get_modifyGate_self,
        get_modifyGate_self, get_alloc_self2]
      exact ⟨_, rfl, rfl, rfl, rfl, rfl⟩
    · rw [get_modifyGate_ne _ a _ _ hat.symm, get_modifyGate_self,
        get_modifyGate_self, get_alloc_self2]
      exact ⟨_, rfl, rfl, rfl, rfl, rfl⟩
  · have hca : ∀ c : Prop, ∀ inst : Decidable c, ∀ n1 n2 : Net,
        n1.get a = some { gate with complementaryGate := some (s.1.alloc (Gate.mkGate ("D_" ++ gate.gateName))).2 } →
        n2.get a = some { gate with complementaryGate := some (s.1.alloc (Gate.mkGate ("D_" ++ gate.gateName))).2 } →
        (if c then n1 else n2).get a = some { gate with complementaryGate := some (s.1.alloc (Gate.mkGate ("D_" ++ gate.gateName))).2 } := by
      intro c inst n1 n2 h1 h2
      split
      · exact h1
      · exact h2
    refine hca _ _ _ _ ?_ ?_
    · rw [get_modifyGate_ne _ _ _ a hat, get_modifyGate_self,
        get_modifyGate_ne _ _ _ a hat, get_modifyGate_ne _ _ _ a hat,
        get_alloc s.1 _ a ha, hget]
      rfl
    · rw [get_modifyGate_self, get_modifyGate_ne _ _ _ a hat,
        get_modifyGate_ne _ _ _ a hat, get_alloc s.1 _ a ha, hget]
      rfl

/-- Folding the duplicate-gates loop over a duplicate-free list of valid,
XOR-free gate ids gives every listed gate a twin: fresh, complement-linked
both ways with dual functions, and with the reversed-negated input shape. -/
theorem phaseA_fold_pairs :
    ∀ (l : List GateId) (s : Net × List GateId),
      l.Nodup → (∀ g ∈ l, g < s.1.heap.length) →
      (∀ g ∈ l, fnOf s.1 g ≠ some GateFunction.XOR) →
      ∀ g ∈ l, ∃ t, s.1.heap.length ≤ t ∧ t < (l.foldl dupGateStep s).1.heap.length ∧
        pairAt (l.foldl dupGateStep s).1 g t ∧ twinShapeAt (l.foldl dupGateStep s).1 g t := by
  intro l
  induction l with
  | nil =>
    intro s _ _ _ g hg
    exact absurd hg (List.not_mem_nil g)
  | cons a rest ih =>
    intro s hnd hval hfn g hg
    have hna : a ∉ rest := (List.nodup_cons.1 hnd).1
    have hnd' : rest.Nodup := (List.nodup_cons.1 hnd).2
    rw [List.foldl_cons]
    rcases List.mem_cons.1 hg with hga | hgr
    · subst hga
      have hga' : g < s.1.heap.length := hval g (List.mem_cons_self g rest)
      obtain ⟨gate, hgate⟩ : ∃ gt, s.1.get g = some gt :=
        ⟨s.1.heap.get ⟨g, hga'⟩, List.get?_eq_get hga'⟩
      have hfax : gate.gateFunction ≠ GateFunction.XOR := by
        intro hEq
        apply hfn g (List.mem_cons_self g rest)
        unfold fnOf
        rw [hgate]
        show some gate.gateFunction = some GateFunction.XOR
        rw [hEq]
      obtain ⟨hpair, hshape⟩ := dupGateStep_establish s g gate hgate hfax
      have hlen1 : (dupGateStep s g).1.heap.length = s.1.heap.length + 1 :=
        heapLen_dupGateStep s g gate hgate
      have hg2 : g < (dupGateStep s g).1.heap.length := by
        rw [hlen1]
        exact Nat.lt_succ_of_lt hga'
      have ht2 : s.1.heap.length < (dupGateStep s g).1.heap.length := by
        rw [hlen1]
        exact Nat.lt_succ_self _
      have hstabg : stableUnderAt gateCore (dupGateStep s g).1
          (rest.foldl dupGateStep (dupGateStep s g)).1 g :=
        foldlStableAtPair gateCore g dupGateStep heapLen_dupGateStep_le rest
          (dupGateStep s g)
          (fun s2 b hb hxlt => dupGateStep_core_at s2 b g hxlt
            (fun hEq => hna (hEq ▸ hb))) hg2
      have hstabt : stableUnderAt gateCore (dupGateStep s g).1
          (rest.foldl dupGateStep (dupGateStep s g)).1 s.1.heap.length :=
        foldlStableAtPair gateCore s.1.heap.length dupGateStep heapLen_dupGateStep_le rest
          (dupGateStep s g)
          (fun s2 b hb hxlt => dupGateStep_core_at s2 b s.1.heap.length hxlt
            (fun hEq => absurd (hval b (List.mem_cons_of_mem g hb))
              (by rw [← hEq]; exact Nat.lt_irrefl _))) ht2
      have hcoreg := stableUnderAt_field_of_core hstabg
      have hcoret := stableUnderAt_field_of_core hstabt
      refine ⟨s.1.heap.length, Nat.le_refl _, ?_, ?_, ?_⟩
      · exact Nat.lt_of_lt_of_le ht2
          (heapLen_foldl_pair_le dupGateStep heapLen_dupGateStep_le rest _)
      · exact pairAt_transfer hcoreg.1 hcoreg.2.1 hcoret.1 hcoret.2.1 hpair
      · exact twinShapeAt_transfer hstabg hstabt hshape
    · have hval' : ∀ g2 ∈ rest, g2 < (dupGateStep s a).1.heap.length :=
        fun g2 hg2 => Nat.lt_of_lt_of_le (hval g2 (List.mem_cons_of_mem a hg2))
          (heapLen_dupGateStep_le s a)
      have hfn' : ∀ g2 ∈ rest, fnOf (dupGateStep s a).1 g2 ≠ some GateFunction.XOR := by
        intro g2 hg2
        have hstab := dupGateStep_core_at s a g2 (hval g2 (List.mem_cons_of_mem a hg2))
          (fun hEq => hna (hEq ▸ hg2))
        rw [fnOf_eq_of_stableAt (stableUnderAt_field_of_core hstab).2.1]
        exact hfn g2 (List.mem_cons_of_mem a hg2)
      obtain ⟨t, h1, h2, h3, h4⟩ := ih (dupGateStep s a) hnd' hval' hfn' g hgr
      exact ⟨t, Nat.le_trans (heapLen_dupGateStep_le s a) h1, h2, h3, h4⟩

/-- The duplicate-gates phase gives every listed gate a fresh complement twin
with dual functions, mutual links and the reversed-negated input shape. -/
theorem dupGatesPhase_pairs (net : Net)
    (hnd : net.gates.Nodup) (hval : ∀ g ∈ net.gates, g < net.heap.length)
    (hfn : ∀ g ∈ net.gates, fnOf net g ≠ some GateFunction.XOR) :
    ∀ g ∈ net.gates, ∃ t, net.heap.length ≤ t ∧ t < (dupGatesPhase net).heap.length ∧
      pairAt (dupGatesPhase net) g t ∧ twinShapeAt (dupGatesPhase net) g t := by
  intro g hg
  obtain ⟨t, h1, h2, h3, h4⟩ := phaseA_fold_pairs net.gates (net, []) hnd hval hfn g hg
  exact ⟨t, h1, h2, h3, h4⟩

theorem complOf_modify_compl_self (net : Net) (i c : GateId) (hi : i < net.heap.length) :
    (net.modifyGate i (fun gt => { gt with complementaryGate := some c })).getComplementOf i = some c := by
  obtain ⟨X, hX⟩ : ∃ X, net.get i = some X := ⟨net.heap.get ⟨i, hi⟩, List.get?_eq_get hi⟩
  unfold Net.getComplementOf
  rw [get_modifyGate_self, hX]
  rfl

theorem get_newFollowOn_ne (net : Net) (g : GateId) (f : Option GateId) (x : GateId)
    (h : x ≠ g) : (net.newFollowOn g f).get x = net.get x :=
  get_modifyGate_ne net g _ x h

theorem shape3_setDepth (net : Net) (tid : GateId) (d : Nat) (i : GateId)
    (h : ∃ g, net.get tid = some g ∧ g.gateFunction = GateFunction.BUFFER ∧
      g.inputs = [i] ∧ g.inputInverters = [false]) :
    ∃ g, (net.setDepth tid d).get tid = some g ∧ g.gateFunction = GateFunction.BUFFER ∧
      g.inputs = [i] ∧ g.inputInverters = [false] := by
  obtain ⟨g0, hg0, h1, h2, h3⟩ := h
  obtain ⟨gY, hY, _, hf, _, hin, hinv, _, _⟩ := core_transfer
    (stableUnderAt_of_stable gateCore (stableUnder_setDepth_core net tid d) tid) hg0
  exact ⟨gY, hY, hf.trans h1, hin.trans h2, hinv.trans h3⟩

/-- The bookkeeping tail of a duplicate-inputs iteration: starting from a
BUFFER twin wired to `[i]` without inversion, the tail links the complements
both ways, sets the twin's output inverter and leaves the twin shape. -/
theorem dupInputEstablishAux (n3 : Net) (i t : GateId) (hti : t ≠ i)
    (h3t : ∃ g, n3.get t = some g ∧ g.gateFunction = GateFunction.BUFFER ∧
      g.inputs = [i] ∧ g.inputInverters = [false])
    (hlen : i < n3.heap.length) :
    (((((n3.newFollowOn i (some t)).modifyGate t (fun gt => { gt with outputInverter := true })).modifyGate t (fun gt => { gt with depth := 0 })).modifyGate t (fun gt => { gt with complementaryGate := some i })).modifyGate i (fun gt => { gt with complementaryGate := some t })).getComplementOf i = some t ∧
    inputTwinShape ((((((n3.newFollowOn i (some t)).modifyGate t (fun gt => { gt with outputInverter := true })).modifyGate t (fun gt => { gt with depth := 0 })).modifyGate t (fun gt => { gt with complementaryGate := some i })).modifyGate i (fun gt => { gt with complementaryGate := some t }))) t i := by
  obtain ⟨g3, hg3, hfn3, hin3, hinv3⟩ := h3t
  constructor
  · refine complOf_modify_compl_self _ i t ?_
    rw [heapLen_modifyGate, heapLen_modifyGate, heapLen_modifyGate, heapLen_newFollowOn]
    exact hlen
  · unfold inputTwinShape
    rw [get_modifyGate_ne _ i _ t hti, get_modifyGate_self, get_modifyGate_self,
      get_modifyGate_self, get_newFollowOn_ne _ i _ t hti, hg3]
    simp only [Option.map_some']
    refine ⟨_, rfl, ?_, ?_, ?_, rfl, rfl⟩
    · show g3.gateFunction = GateFunction.BUFFER
      exact hfn3
    · show g3.inputs = [i]
      exact hin3
    · show g3.inputInverters = [false]
      exact hinv3

/-- One duplicate-inputs iteration links the primary input to a fresh BUFFER
twin carrying the single non-inverting edge from the input and the output
inverter. -/
theorem dupInputStep_establish (s : Net × List GateId) (i : GateId) (gate : Gate)
    (hget : s.1.get i = some gate) :
    (dupInputStep s i).1.getComplementOf i = some s.1.heap.length ∧
    inputTwinShape (dupInputStep s i).1 s.1.heap.length i := by
  have hi : i < s.1.heap.length := get_some_lt hget
  have hit : i ≠ (s.1.alloc (Gate.mkGate ("D_" ++ gate.gateName))).2 := Nat.ne_of_lt hi
  unfold dupInputStep
  dsimp only
  rw [hget]
  dsimp only
  refine dupInputEstablishAux _ i _ hit.symm ?_ ?_
  · unfold Net.newInputOn
    dsimp only
    refine shape3_setDepth _ _ _ i ?_
    rw [get_modifyGate_self, get_modifyGate_self, get_alloc_self2]
    exact ⟨_, rfl, rfl, rfl, rfl⟩
  · rw [heapLen_newInputOn, heapLen_modifyGate, heapLen_alloc]
    exact Nat.lt_succ_of_lt hi

/-- Folding the duplicate-inputs loop over a duplicate-free list of ids below
`lo` (all valid at entry) gives every listed input a fresh complement BUFFER
twin with the single non-inverting edge and the output inverter. -/
theorem phaseB_fold (lo : Nat) :
    ∀ (l : List GateId) (s : Net × List GateId),
      l.Nodup → (∀ i ∈ l, i < lo) → lo ≤ s.1.heap.length →
      ∀ i ∈ l, ∃ t, s.1.heap.length ≤ t ∧ t < (l.foldl dupInputStep s).1.heap.length ∧
        (l.foldl dupInputStep s).1.getComplementOf i = some t ∧
        inputTwinShape (l.foldl dupInputStep s).1 t i := by
  intro l
  induction l with
  | nil =>
    intro s _ _ _ i hi
    exact absurd hi (List.not_mem_nil i)
  | cons a rest ih =>
    intro s hnd hlo hsl i hi
    have hna : a ∉ rest := (List.nodup_cons.1 hnd).1
    have hnd' : rest.Nodup := (List.nodup_cons.1 hnd).2
    rw [List.foldl_cons]
    rcases List.mem_cons.1 hi with hia | hir
    · subst hia
      have hival : i < s.1.heap.length :=
        Nat.lt_of_lt_of_le (hlo i (List.mem_cons_self i rest)) hsl
      obtain ⟨gate, hgate⟩ : ∃ gt, s.1.get i = some gt :=
        ⟨s.1.heap.get ⟨i, hival⟩, List.get?_eq_get hival⟩
      obtain ⟨hcompl, hshape⟩ := dupInputStep_establish s i gate hgate
      have hlen1 : (dupInputStep s i).1.heap.length = s.1.heap.length + 1 :=
        heapLen_dupInputStep s i gate hgate
      have hi2 : i < (dupInputStep s i).1.heap.length := by
        rw [hlen1]
        exact Nat.lt_succ_of_lt hival
      have ht2 : s.1.heap.length < (dupInputStep s i).1.heap.length := by
        rw [hlen1]
        exact Nat.lt_succ_self _
      have hstabi : stableUnderAt gateCore (dupInputStep s i).1
          (rest.foldl dupInputStep (dupInputStep s i)).1 i :=
        foldlStableAtPair gateCore i dupInputStep heapLen_dupInputStep_le rest
          (dupInputStep s i)
          (fun s2 b hb hxlt => dupInputStep_core_at s2 b i hxlt
            (fun hEq => hna (hEq ▸ hb))) hi2
      have hstabt : stableUnderAt gateCore (dupInputStep s i).1
          (rest.foldl dupInputStep (dupInputStep s i)).1 s.1.heap.length :=
        foldlStableAtPair gateCore s.1.heap.length dupInputStep heapLen_dupInputStep_le
          rest (dupInputStep s i)
          (fun s2 b hb hxlt => dupInputStep_core_at s2 b s.1.heap.length hxlt
            (fun hEq => absurd (Nat.lt_of_lt_of_le (hlo b (List.mem_cons_of_mem i hb)) hsl)
              (by rw [← hEq]; exact Nat.lt_irrefl _))) ht2
      refine ⟨s.1.heap.length, Nat.le_refl _, ?_, ?_, ?_⟩
      · exact Nat.lt_of_lt_of_le ht2
          (heapLen_foldl_pair_le dupInputStep heapLen_dupInputStep_le rest _)
      · rw [complOf_eq_of_stableAt (stableUnderAt_field_of_core hstabi).1]
        exact hcompl
      · exact inputTwinShape_transfer hstabt hshape
    · have hsl' : lo ≤ (dupInputStep s a).1.heap.length :=
        Nat.le_trans hsl (heapLen_dupInputStep_le s a)
      obtain ⟨t, h1, h2, h3, h4⟩ := ih (dupInputStep s a) hnd'
        (fun j hj => hlo j (List.mem_cons_of_mem a hj)) hsl' i hir
      exact ⟨t, Nat.le_trans (heapLen_dupInputStep_le s a) h1, h2, h3, h4⟩

theorem complOf_ite (c : Prop) [Decidable c] (n1 n2 : Net) (x : GateId)
    (v : Option GateId) (h1 : n1.getComplementOf x = v) (h2 : n2.getComplementOf x = v) :
    (if c then n1 else n2).getComplementOf x = v := by
  split
  · exact h1
  · exact h2

/-- The driver-swap tail never touches a complement field. -/
theorem stableUnder_dupOutputSwapTail_compl (o : GateId) (net6 : Net) :
    stableUnder (fun gt => gt.complementaryGate) net6 (dupOutputSwapTail o net6) := by
  unfold dupOutputSwapTail dupOutputFix4 dupOutputFix3 dupOutputFix2 dupOutputFix1
    dupOutputSwap2
  refine stableUnder_trans _ _ _ _ ?_
    (stableUnder_newFollowOnOpt (fun gt => gt.complementaryGate) (fun _ _ => rfl) _ _ _)
  refine stableUnder_trans _ _ _ _ ?_
    (stableUnder_remFollowOnOpt (fun gt => gt.complementaryGate) (fun _ _ => rfl) _ _ _)
  refine stableUnder_trans _ _ _ _ ?_
    (stableUnder_newFollowOnOpt (fun gt => gt.complementaryGate) (fun _ _ => rfl) _ _ _)
  refine stableUnder_trans _ _ _ _ ?_
    (stableUnder_remFollowOnOpt (fun gt => gt.complementaryGate) (fun _ _ => rfl) _ _ _)
  refine stableUnder_trans _ _ _ _ ?_
    (stableUnder_swapDriverOnOpt (fun gt => gt.complementaryGate)
      (fun _ _ _ => rfl) (fun _ _ => rfl) _ _ _ _)
  refine stableUnder_trans _ _ _ _ ?_ (stableUnder_dupOutputSwap1_compl o _)
  exact stableUnder_modifyGate (fun gt => gt.complementaryGate) net6 o
    (fun gt => gt.setInputNonInverting 0) (fun gt => rfl)

/-- One duplicate-outputs iteration leaves the output complement-linked to the
fresh twin. -/
theorem dupOutputStep_establish (s : Net × List GateId) (o : GateId) (gate : Gate)
    (hget : s.1.get o = some gate) :
    (dupOutputStep s o).1.getComplementOf o = some s.1.heap.length := by
  have ho : o < s.1.heap.length := get_some_lt hget
  have hpre : (dupOutputPrefix s o gate).1.getComplementOf o = some s.1.heap.length :=
    complOf_dupOutputPrefix s o gate gate ho hget
  unfold dupOutputStep
  rw [hget]
  unfold dupOutputStepSome
  dsimp only
  refine complOf_ite _ _ _ o _ ?_ hpre
  rw [complOf_eq_of_stableAt (stableUnderAt_of_stable _
    (stableUnder_dupOutputSwapTail_compl o _) o)]
  exact hpre

/-- Folding the duplicate-outputs loop over a duplicate-free list of ids below
`lo` (all valid at entry) links every listed output to a complement. -/
theorem phaseD_fold (lo : Nat) :
    ∀ (l : List GateId) (s : Net × List GateId),
      l.Nodup → (∀ o ∈ l, o < lo) → lo ≤ s.1.heap.length →
      ∀ o ∈ l, ∃ t, (l.foldl dupOutputStep s).1.getComplementOf o = some t := by
  intro l
  induction l with
  | nil =>
    intro s _ _ _ o ho
    exact absurd ho (List.not_mem_nil o)
  | cons a rest ih =>
    intro s hnd hlo hsl o ho
    have hna : a ∉ rest := (List.nodup_cons.1 hnd).1
    have hnd' : rest.Nodup := (List.nodup_cons.1 hnd).2
    rw [List.foldl_cons]
    rcases List.mem_cons.1 ho with hoa | hor
    · subst hoa
      have hoval : o < s.1.heap.length :=
        Nat.lt_of_lt_of_le (hlo o (List.mem_cons_self o rest)) hsl
      obtain ⟨gate, hgate⟩ : ∃ gt, s.1.get o = some gt :=
        ⟨s.1.heap.get ⟨o, hoval⟩, List.get?_eq_get hoval⟩
      have hcompl := dupOutputStep_establish s o gate hgate
      have ho2 : o < (dupOutputStep s o).1.heap.length :=
        Nat.lt_of_lt_of_le hoval (heapLen_dupOutputStep_le s o)
      have hstab : stableUnderAt gateCore (dupOutputStep s o).1
          (rest.foldl dupOutputStep (dupOutputStep s o)).1 o :=
        foldlStableAtPair gateCore o dupOutputStep heapLen_dupOutputStep_le rest
          (dupOutputStep s o)
          (fun s2 b hb hxlt => dupOutputStep_core_at s2 b o hxlt
            (fun hEq => hna (hEq ▸ hb))) ho2
      refine ⟨s.1.heap.length, ?_⟩
      rw [complOf_eq_of_stableAt (stableUnderAt_field_of_core hstab).1]
      exact hcompl
    · obtain ⟨t, ht⟩ := ih (dupOutputStep s a) hnd'
        (fun j hj => hlo j (List.mem_cons_of_mem a hj))
        (Nat.le_trans hsl (heapLen_dupOutputStep_le s a)) o hor
      exact ⟨t, ht⟩

theorem foldlPreserveMem {σ α : Type} (P : σ → Prop) (step : σ → α → σ) :
    ∀ (l : List α), (∀ s, ∀ a ∈ l, P s → P (step s a)) →
      ∀ s, P s → P (l.foldl step s) := by
  intro l
  induction l with
  | nil => intro _ s hs; exact hs
  | cons a t ih =>
    intro h s hs
    exact ih (fun s2 b hb hs2 => h s2 b (List.mem_cons_of_mem a hb) hs2) (step s a)
      (h s a (List.mem_cons_self a t) hs)

theorem foldlChainAtMem {β : Type} (F : Gate → β) (x : GateId) {α : Type}
    (step : Net → α → Net) :
    ∀ (l : List α), (∀ s, ∀ a ∈ l, stableUnderAt F s (step s a) x) →
      ∀ s, stableUnderAt F s (l.foldl step s) x := by
  intro l
  induction l with
  | nil => intro _ s; exact stableUnderAt_refl F s x
  | cons a t ih =>
    intro h s
    exact stableUnderAt_trans F _ _ _ x (h s a (List.mem_cons_self a t))
      (ih (fun s2 b hb => h s2 b (List.mem_cons_of_mem a hb)) (step s a))

/-- The three remove-inverters loops never touch a complement field. -/
theorem stableUnder_loops_compl (net : Net) :
    stableUnder (fun gt => gt.complementaryGate) net
      (removeInvertersLoop3 (removeInvertersLoop2 (removeInvertersLoop1 net))) := by
  refine stableUnder_trans _ _ (removeInvertersLoop2 (removeInvertersLoop1 net)) _ ?_ ?_
  · refine stableUnder_trans _ _ (removeInvertersLoop1 net) _ ?_ ?_
    · unfold removeInvertersLoop1
      exact foldlChain (stableUnder (fun gt => gt.complementaryGate))
        (stableUnder_refl _) (stableUnder_trans _) riClearOutputStep
        (fun s a => stableUnder_riClearOutputStep (fun gt => gt.complementaryGate)
          (fun _ _ _ => rfl) (fun _ => rfl) s a) net.gates net
    · unfold removeInvertersLoop2
      exact foldlChain (stableUnder (fun gt => gt.complementaryGate))
        (stableUnder_refl _) (stableUnder_trans _) riRedirectStep
        (fun s a => stableUnder_riRedirectStep (fun gt => gt.complementaryGate)
          (fun _ _ => rfl) (fun _ _ => rfl) (fun _ _ _ => rfl) (fun _ _ => rfl) s a) _ _
  · unfold removeInvertersLoop3
    exact foldlChain (stableUnder (fun gt => gt.complementaryGate))
      (stableUnder_refl _) (stableUnder_trans _) riRedirectStep
      (fun s a => stableUnder_riRedirectStep (fun gt => gt.complementaryGate)
        (fun _ _ => rfl) (fun _ _ => rfl) (fun _ _ _ => rfl) (fun _ _ => rfl) s a) _ _

/-- The three remove-inverters loops never touch a function field. -/
theorem stableUnder_loops_fn (net : Net) :
    stableUnder (fun gt => gt.gateFunction) net
      (removeInvertersLoop3 (removeInvertersLoop2 (removeInvertersLoop1 net))) := by
  refine stableUnder_trans _ _ (removeInvertersLoop2 (removeInvertersLoop1 net)) _ ?_ ?_
  · refine stableUnder_trans _ _ (removeInvertersLoop1 net) _ ?_ ?_
    · unfold removeInvertersLoop1
      exact foldlChain (stableUnder (fun gt => gt.gateFunction))
        (stableUnder_refl _) (stableUnder_trans _) riClearOutputStep
        (fun s a => stableUnder_riClearOutputStep (fun gt => gt.gateFunction)
          (fun _ _ _ => rfl) (fun _ => rfl) s a) net.gates net
    · unfold removeInvertersLoop2
      exact foldlChain (stableUnder (fun gt => gt.gateFunction))
        (stableUnder_refl _) (stableUnder_trans _) riRedirectStep
        (fun s a => stableUnder_riRedirectStep (fun gt => gt.gateFunction)
          (fun _ _ => rfl) (fun _ _ => rfl) (fun _ _ _ => rfl) (fun _ _ => rfl) s a) _ _
  · unfold removeInvertersLoop3
    exact foldlChain (stableUnder (fun gt => gt.gateFunction))
      (stableUnder_refl _) (stableUnder_trans _) riRedirectStep
      (fun s a => stableUnder_riRedirectStep (fun gt => gt.gateFunction)
        (fun _ _ => rfl) (fun _ _ => rfl) (fun _ _ _ => rfl) (fun _ _ => rfl) s a) _ _

/-- Flipping follower-edge bits of a gate other than `i` cannot touch the
input-twin shape: when the follower IS the twin, no slot of its single-entry
driver list `[i]` matches the flipped gate. -/
theorem inputTwinShape_riFlipSlot (g fj : GateId) (n3 : Net) (k : Nat) (x i : GateId)
    (hgi : g ≠ i) (h : inputTwinShape n3 x i) :
    inputTwinShape (riFlipSlot g fj n3 k) x i := by
  by_cases hfx : fj = x
  · subst hfx
    obtain ⟨tg, hget, h1, h2, h3, h4, h5⟩ := h
    unfold riFlipSlot
    rw [hget]
    have hcond : ¬ (tg.inputs.get? k = some g) := by
      rw [h2]
      cases k with
      | zero =>
        intro hc
        exact hgi (Option.some.inj hc).symm
      | succ k2 =>
        intro hc
        simp at hc
    show inputTwinShape (if tg.inputs.get? k = some g then (if tg.isInputInverting k = true then n3.modifyGate fj (fun gt => gt.setInputNonInverting k) else n3.modifyGate fj (fun gt => gt.setInputInverting k)) else n3) fj i
    rw [if_neg hcond]
    exact ⟨tg, hget, h1, h2, h3, h4, h5⟩
  · refine inputTwinShape_transfer ?_ h
    unfold riFlipSlot
    split
    · exact stableUnderAt_refl gateCore n3 x
    · split
      · split
        · exact stableUnderAt_modifyGate_ne gateCore n3 fj _ x (Ne.symm hfx)
        · exact stableUnderAt_modifyGate_ne gateCore n3 fj _ x (Ne.symm hfx)
      · exact stableUnderAt_refl gateCore n3 x

theorem inputTwinShape_riFlipFollower (g : GateId) (n : Net) (fj : GateId) (x i : GateId)
    (hgi : g ≠ i) (h : inputTwinShape n x i) :
    inputTwinShape (riFlipFollower g n fj) x i := by
  unfold riFlipFollower
  split
  · exact h
  · exact foldlPreserveMem (fun s => inputTwinShape s x i) (riFlipSlot g fj) _
      (fun s a _ hs => inputTwinShape_riFlipSlot g fj s a x i hgi hs) n h

theorem inputTwinShape_riFlipFollowStep (g : GateId) (gate : Gate) (n2 : Net) (j : Nat)
    (x i : GateId) (hgi : g ≠ i) (h : inputTwinShape n2 x i) :
    inputTwinShape (riFlipFollowStep g gate n2 j) x i := by
  unfold riFlipFollowStep
  split
  · exact h
  · exact inputTwinShape_riFlipFollower g n2 _ x i hgi h

theorem inputTwinShape_riClearOutputStep (n : Net) (g : GateId) (x i : GateId)
    (hgi : g ≠ i) (hgx : g ≠ x) (h : inputTwinShape n x i) :
    inputTwinShape (riClearOutputStep n g) x i := by
  unfold riClearOutputStep
  dsimp only
  refine inputTwinShape_transfer
    (stableUnderAt_modifyGate_ne gateCore _ g _ x (Ne.symm hgx)) ?_
  split
  · exact h
  · split
    · exact foldlPreserveMem (fun s => inputTwinShape s x i) _ _
        (fun s a _ hs => inputTwinShape_riFlipFollowStep g _ s a x i hgi hs) n h
    · exact h

/-- The first remove-inverters loop keeps the twin shape when no listed gate
is the input or the twin. -/
theorem inputTwinShape_loop1 (net : Net) (x i : GateId)
    (hl : ∀ g ∈ net.gates, g ≠ i ∧ g ≠ x) (h : inputTwinShape net x i) :
    inputTwinShape (removeInvertersLoop1 net) x i := by
  unfold removeInvertersLoop1
  exact foldlPreserveMem (fun s => inputTwinShape s x i) riClearOutputStep _
    (fun s a ha hs => inputTwinShape_riClearOutputStep s a x i (hl a ha).1 (hl a ha).2 hs)
    net h

theorem riRedirectTail_core_at (g : GateId) (j : Nat) (n3 : Net) (x : GateId)
    (hgx : x ≠ g) : stableUnderAt gateCore n3 (riRedirectTail g j n3) x := by
  unfold riRedirectTail
  dsimp only
  refine stableUnderAt_trans gateCore _ _ _ x ?_
    (stableUnderAt_of_stable gateCore (stableUnder_newFollowOnOpt_core _ _ _) x)
  refine stableUnderAt_trans gateCore _ _ _ x ?_ (swapDriverOn_core_at _ g _ _ x hgx)
  exact stableUnderAt_of_stable gateCore (stableUnder_remFollowOnOpt_core _ _ _) x

theorem riRedirectSlot_core_at (g : GateId) (n2 : Net) (j : Nat) (x : GateId)
    (hgx : x ≠ g) : stableUnderAt gateCore n2 (riRedirectSlot g n2 j) x := by
  unfold riRedirectSlot
  split
  · exact stableUnderAt_refl gateCore n2 x
  · split
    · refine stableUnderAt_trans gateCore _ _ _ x
        (stableUnderAt_modifyGate_ne gateCore n2 g _ x hgx)
        (riRedirectTail_core_at g j _ x hgx)
    · exact stableUnderAt_refl gateCore n2 x

/-- A change-inputs iteration keeps the core of every other gate. -/
theorem riRedirectStep_core_at (n : Net) (g : GateId) (x : GateId) (hgx : x ≠ g) :
    stableUnderAt gateCore n (riRedirectStep n g) x := by
  unfold riRedirectStep
  split
  · exact stableUnderAt_refl gateCore n x
  · exact foldlChainAt gateCore x (riRedirectSlot g)
      (fun s j => riRedirectSlot_core_at g s j x hgx) _ n

/-- A change-inputs loop keeps the core of every gate not in its list. -/
theorem redirectLoop_core_at (l : List GateId) (net : Net) (x : GateId)
    (hl : ∀ g ∈ l, g ≠ x) : stableUnderAt gateCore net (l.foldl riRedirectStep net) x :=
  foldlChainAtMem gateCore x riRedirectStep l
    (fun s a ha => riRedirectStep_core_at s a x (Ne.symm (hl a ha))) net

theorem dupGatesPhase_lists (net : Net) :
    (dupGatesPhase net).inputs = net.inputs ∧ (dupGatesPhase net).outputs = net.outputs ∧
    (dupGatesPhase net).gates = net.gates ++ (net.gates.foldl dupGateStep (net, [])).2 := by
  have hs := sameLists_foldl_pair dupGateStep sameLists_dupGateStep net.gates (net, [])
  unfold dupGatesPhase
  dsimp only
  refine ⟨hs.2.1, hs.2.2.1, ?_⟩
  rw [hs.1]

theorem dupInputsPhase_lists (net : Net) :
    (dupInputsPhase net).gates = net.gates ∧ (dupInputsPhase net).outputs = net.outputs ∧
    (dupInputsPhase net).inputs = net.inputs ++ (net.inputs.foldl dupInputStep (net, [])).2 := by
  have hs := sameLists_foldl_pair dupInputStep sameLists_dupInputStep net.inputs (net, [])
  unfold dupInputsPhase
  dsimp only
  refine ⟨hs.1, hs.2.2.1, ?_⟩
  rw [hs.2.1]

theorem dupOutputsPhase_lists (net : Net) :
    (dupOutputsPhase net).gates = net.gates ∧ (dupOutputsPhase net).inputs = net.inputs ∧
    (dupOutputsPhase net).outputs = net.outputs ++ (net.outputs.foldl dupOutputStep (net, [])).2 := by
  have hs := sameLists_foldl_pair dupOutputStep sameLists_dupOutputStep net.outputs (net, [])
  unfold dupOutputsPhase
  dsimp only
  refine ⟨hs.1, hs.2.1, ?_⟩
  rw [hs.2.2.1]

theorem dupGatesPhase_twins_bounds (net : Net) :
    ∀ e ∈ (net.gates.foldl dupGateStep (net, [])).2,
      net.heap.length ≤ e ∧ e < (dupGatesPhase net).heap.length := by
  have h := twinsBounds_foldl dupGateStep heapLen_dupGateStep_le twins_dupGateStep
    net.heap.length net.gates (net, [])
    (fun e he => absurd he (List.not_mem_nil e)) (Nat.le_refl _)
  exact h.1

theorem dupInputsPhase_twins_bounds (net : Net) :
    ∀ e ∈ (net.inputs.foldl dupInputStep (net, [])).2,
      net.heap.length ≤ e ∧ e < (dupInputsPhase net).heap.length := by
  have h := twinsBounds_foldl dupInputStep heapLen_dupInputStep_le twins_dupInputStep
    net.heap.length net.inputs (net, [])
    (fun e he => absurd he (List.not_mem_nil e)) (Nat.le_refl _)
  exact h.1

theorem dupOutputsPhase_twins_bounds (net : Net) :
    ∀ e ∈ (net.outputs.foldl dupOutputStep (net, [])).2,
      net.heap.length ≤ e ∧ e < (dupOutputsPhase net).heap.length := by
  have h := twinsBounds_foldl dupOutputStep heapLen_dupOutputStep_le twins_dupOutputStep
    net.heap.length net.outputs (net, [])
    (fun e he => absurd he (List.not_mem_nil e)) (Nat.le_refl _)
  exact h.1

theorem heapLen_dupGatesPhase_le (net : Net) :
    net.heap.length ≤ (dupGatesPhase net).heap.length :=
  heapLen_foldl_pair_le dupGateStep heapLen_dupGateStep_le net.gates (net, [])

theorem heapLen_dupInputsPhase_le (net : Net) :
    net.heap.length ≤ (dupInputsPhase net).heap.length :=
  heapLen_foldl_pair_le dupInputStep heapLen_dupInputStep_le net.inputs (net, [])

theorem heapLen_dupOutputsPhase_le (net : Net) :
    net.heap.length ≤ (dupOutputsPhase net).heap.length :=
  heapLen_foldl_pair_le dupOutputStep heapLen_dupOutputStep_le net.outputs (net, [])

/-- The duplicate-inputs phase keeps the core of every valid id outside the
input list. -/
theorem dupInputsPhase_core_at (net : Net) (x : GateId) (hx : x < net.heap.length)
    (hxi : ∀ i ∈ net.inputs, x ≠ i) : stableUnderAt gateCore net (dupInputsPhase net) x :=
  foldlStableAtPair gateCore x dupInputStep heapLen_dupInputStep_le net.inputs (net, [])
    (fun s a ha hlt => dupInputStep_core_at s a x hlt (hxi a ha)) hx

/-- The duplicate-outputs phase keeps the core of every valid id outside the
output list. -/
theorem dupOutputsPhase_core_at (net : Net) (x : GateId) (hx : x < net.heap.length)
    (hxo : ∀ o ∈ net.outputs, x ≠ o) : stableUnderAt gateCore net (dupOutputsPhase net) x :=
  foldlStableAtPair gateCore x dupOutputStep heapLen_dupOutputStep_le net.outputs (net, [])
    (fun s a ha hlt => dupOutputStep_core_at s a x hlt (hxo a ha)) hx

/-- C6: After convDualRail every listed inner gate is complement-linked to a
twin, symmetrically and with dual functions (surviving the inverter-removal
loops, which never write function or complement fields); every primary input
and every primary output is complement-linked; and the twin built by the
duplicate-gates loop carries the REVERSED driver list with slotwise NEGATED
polarities (not an identical driver shape). -/
theorem C6_convDualRail_complement_pairs (net : Net)
    (hgn : net.gates.Nodup)
    (hgv : ∀ g ∈ net.gates, g < net.heap.length)
    (hgx : ∀ g ∈ net.gates, fnOf net g ≠ some GateFunction.XOR)
    (hgi : ∀ g ∈ net.gates, g ∉ net.inputs)
    (hgo : ∀ g ∈ net.gates, g ∉ net.outputs)
    (hin : net.inputs.Nodup)
    (hiv : ∀ i ∈ net.inputs, i < net.heap.length)
    (hio : ∀ i ∈ net.inputs, i ∉ net.outputs)
    (hon : net.outputs.Nodup)
    (hov : ∀ o ∈ net.outputs, o < net.heap.length) :
    (∀ g ∈ net.gates, ∃ t, pairAt net.convDualRail g t) ∧
    (∀ i ∈ net.inputs, complSome net.convDualRail i) ∧
    (∀ o ∈ net.outputs, complSome net.convDualRail o) ∧
    (∀ g ∈ net.gates, ∃ t, (dupGatesPhase net).getComplementOf g = some t ∧
      twinShapeAt (dupGatesPhase net) g t) := by
  have hAl := dupGatesPhase_lists net
  have hBl := dupInputsPhase_lists (dupGatesPhase net)
  have hA := dupGatesPhase_pairs net hgn hgv hgx
  have hlenA := heapLen_dupGatesPhase_le net
  have hlenB := heapLen_dupInputsPhase_le (dupGatesPhase net)
  have hconv : net.convDualRail = removeInvertersLoop3 (removeInvertersLoop2
      (removeInvertersLoop1 (dupOutputsPhase (dupInputsPhase (dupGatesPhase net))))) := rfl
  refine ⟨?_, ?_, ?_, ?_⟩
  · intro g hg
    obtain ⟨t, htN, htA, hpair, _⟩ := hA g hg
    have hgA : g < (dupGatesPhase net).heap.length :=
      Nat.lt_of_lt_of_le (hgv g hg) hlenA
    have hBg : stableUnderAt gateCore (dupGatesPhase net)
        (dupInputsPhase (dupGatesPhase net)) g := by
      refine dupInputsPhase_core_at _ g hgA ?_
      rw [hAl.1]
      intro i2 hi2 hEq
      exact hgi g hg (hEq ▸ hi2)
    have hBt : stableUnderAt gateCore (dupGatesPhase net)
        (dupInputsPhase (dupGatesPhase net)) t := by
      refine dupInputsPhase_core_at _ t htA ?_
      rw [hAl.1]
      intro i2 hi2 hEq
      exact absurd (Nat.lt_of_lt_of_le (hiv i2 hi2) htN) (by rw [← hEq]; exact Nat.lt_irrefl t)
    have hDg : stableUnderAt gateCore (dupInputsPhase (dupGatesPhase net))
        (dupOutputsPhase (dupInputsPhase (dupGatesPhase net))) g := by
      refine dupOutputsPhase_core_at _ g (Nat.lt_of_lt_of_le hgA hlenB) ?_
      rw [hBl.2.1, hAl.2.1]
      intro o2 ho2 hEq
      exact hgo g hg (hEq ▸ ho2)
    have hDt : stableUnderAt gateCore (dupInputsPhase (dupGatesPhase net))
        (dupOutputsPhase (dupInputsPhase (dupGatesPhase net))) t := by
      refine dupOutputsPhase_core_at _ t (Nat.lt_of_lt_of_le htA hlenB) ?_
      rw [hBl.2.1, hAl.2.1]
      intro o2 ho2 hEq
      exact absurd (Nat.lt_of_lt_of_le (hov o2 ho2) htN) (by rw [← hEq]; exact Nat.lt_irrefl t)
    have hADg := stableUnderAt_trans gateCore _ _ _ g hBg hDg
    have hADt := stableUnderAt_trans gateCore _ _ _ t hBt hDt
    have hpD : pairAt (dupOutputsPhase (dupInputsPhase (dupGatesPhase net))) g t :=
      pairAt_transfer (stableUnderAt_field_of_core hADg).1
        (stableUnderAt_field_of_core hADg).2.1
        (stableUnderAt_field_of_core hADt).1
        (stableUnderAt_field_of_core hADt).2.1 hpair
    refine ⟨t, ?_⟩
    rw [hconv]
    exact pairAt_transfer
      (stableUnderAt_of_stable _ (stableUnder_loops_compl _) g)
      (stableUnderAt_of_stable _ (stableUnder_loops_fn _) g)
      (stableUnderAt_of_stable _ (stableUnder_loops_compl _) t)
      (stableUnderAt_of_stable _ (stableUnder_loops_fn _) t) hpD
  · intro i hi
    have hin2 : (dupGatesPhase net).inputs.Nodup := by
      rw [hAl.1]
      exact hin
    have hiv2 : ∀ j ∈ (dupGatesPhase net).inputs, j < (dupGatesPhase net).heap.length := by
      rw [hAl.1]
      intro j hj
      exact Nat.lt_of_lt_of_le (hiv j hj) hlenA
    obtain ⟨t, htN, htB, hcompl, _⟩ :=
      phaseB_fold (dupGatesPhase net).heap.length (dupGatesPhase net).inputs
        (dupGatesPhase net, []) hin2 hiv2 (Nat.le_refl _) i (by rw [hAl.1]; exact hi)
    have hiA : i < (dupGatesPhase net).heap.length :=
      Nat.lt_of_lt_of_le (hiv i hi) hlenA
    have hDi : stableUnderAt gateCore (dupInputsPhase (dupGatesPhase net))
        (dupOutputsPhase (dupInputsPhase (dupGatesPhase net))) i := by
      refine dupOutputsPhase_core_at _ i (Nat.lt_of_lt_of_le hiA hlenB) ?_
      rw [hBl.2.1, hAl.2.1]
      intro o2 ho2 hEq
      exact hio i hi (hEq ▸ ho2)
    refine ⟨t, ?_⟩
    rw [hconv]
    rw [complOf_eq_of_stableAt (stableUnderAt_of_stable _ (stableUnder_loops_compl _) i)]
    rw [complOf_eq_of_stableAt (stableUnderAt_field_of_core hDi).1]
    exact hcompl
  · intro o ho
    have hon2 : (dupInputsPhase (dupGatesPhase net)).outputs.Nodup := by
      rw [hBl.2.1, hAl.2.1]
      exact hon
    have hov2 : ∀ j ∈ (dupInputsPhase (dupGatesPhase net)).outputs,
        j < (dupInputsPhase (dupGatesPhase net)).heap.length := by
      rw [hBl.2.1, hAl.2.1]
      intro j hj
      exact Nat.lt_of_lt_of_le (Nat.lt_of_lt_of_le (hov j hj) hlenA) hlenB
    obtain ⟨t, hcompl⟩ :=
      phaseD_fold (dupInputsPhase (dupGatesPhase net)).heap.length
        (dupInputsPhase (dupGatesPhase net)).outputs
        (dupInputsPhase (dupGatesPhase net), []) hon2 hov2 (Nat.le_refl _) o
        (by rw [hBl.2.1, hAl.2.1]; exact ho)
    refine ⟨t, ?_⟩
    rw [hconv]
    rw [complOf_eq_of_stableAt (stableUnderAt_of_stable _ (stableUnder_loops_compl _) o)]
    exact hcompl
  · intro g hg
    obtain ⟨t, _, _, hpair, hshape⟩ := hA g hg
    exact ⟨t, hpair.1, hshape⟩

/-- C8: convDualRail gives every primary input a complementary BUFFER twin
whose single input edge comes from the input with a NON-inverting bit; the
inversion lives in the twin's output inverter (which survives the loops: the
twin is listed among the inputs, not the gates the first loop clears). -/
theorem C8_convDualRail_input_twins (net : Net)
    (hin : net.inputs.Nodup)
    (hiv : ∀ i ∈ net.inputs, i < net.heap.length)
    (hio : ∀ i ∈ net.inputs, i ∉ net.outputs)
    (hgv : ∀ g ∈ net.gates, g < net.heap.length)
    (hgi : ∀ g ∈ net.gates, g ∉ net.inputs)
    (hov : ∀ o ∈ net.outputs, o < net.heap.length) :
    ∀ i ∈ net.inputs, ∃ t, (net.convDualRail).getComplementOf i = some t ∧
      inputTwinShape (net.convDualRail) t i := by
  have hAl := dupGatesPhase_lists net
  have hBl := dupInputsPhase_lists (dupGatesPhase net)
  have hDl := dupOutputsPhase_lists (dupInputsPhase (dupGatesPhase net))
  have hlenA := heapLen_dupGatesPhase_le net
  have hlenB := heapLen_dupInputsPhase_le (dupGatesPhase net)
  have htwA := dupGatesPhase_twins_bounds net
  have htwD := dupOutputsPhase_twins_bounds (dupInputsPhase (dupGatesPhase net))
  have hconv : net.convDualRail = removeInvertersLoop3 (removeInvertersLoop2
      (removeInvertersLoop1 (dupOutputsPhase (dupInputsPhase (dupGatesPhase net))))) := rfl
  intro i hi
  have hin2 : (dupGatesPhase net).inputs.Nodup := by
    rw [hAl.1]
    exact hin
  have hiv2 : ∀ j ∈ (dupGatesPhase net).inputs, j < (dupGatesPhase net).heap.length := by
    rw [hAl.1]
    intro j hj
    exact Nat.lt_of_lt_of_le (hiv j hj) hlenA
  obtain ⟨t, htN, htB, hcompl, hshape⟩ :=
    phaseB_fold (dupGatesPhase net).heap.length (dupGatesPhase net).inputs
      (dupGatesPhase net, []) hin2 hiv2 (Nat.le_refl _) i (by rw [hAl.1]; exact hi)
  have hiA : i < (dupGatesPhase net).heap.length :=
    Nat.lt_of_lt_of_le (hiv i hi) hlenA
  have hDi : stableUnderAt gateCore (dupInputsPhase (dupGatesPhase net))
      (dupOutputsPhase (dupInputsPhase (dupGatesPhase net))) i := by
    refine dupOutputsPhase_core_at _ i (Nat.lt_of_lt_of_le hiA hlenB) ?_
    rw [hBl.2.1, hAl.2.1]
    intro o2 ho2 hEq
    exact hio i hi (hEq ▸ ho2)
  have hto : ∀ o2 ∈ net.outputs, t ≠ o2 := by
    intro o2 ho2 hEq
    exact absurd (Nat.lt_of_lt_of_le (Nat.lt_of_lt_of_le (hov o2 ho2) hlenA) htN)
      (by rw [← hEq]; exact Nat.lt_irrefl t)
  have hDt : stableUnderAt gateCore (dupInputsPhase (dupGatesPhase net))
      (dupOutputsPhase (dupInputsPhase (dupGatesPhase net))) t := by
    refine dupOutputsPhase_core_at _ t htB ?_
    rw [hBl.2.1, hAl.2.1]
    exact hto
  have hshapeD : inputTwinShape (dupOutputsPhase (dupInputsPhase (dupGatesPhase net))) t i :=
    inputTwinShape_transfer hDt hshape
  have hgl : (dupOutputsPhase (dupInputsPhase (dupGatesPhase net))).gates =
      net.gates ++ (net.gates.foldl dupGateStep (net, [])).2 := by
    rw [hDl.1, hBl.1, hAl.2.2]
  have hgelem : ∀ g ∈ (dupOutputsPhase (dupInputsPhase (dupGatesPhase net))).gates,
      g ≠ i ∧ g ≠ t := by
    rw [hgl]
    intro g hgmem
    rcases List.mem_append.1 hgmem with horig | htwin
    · constructor
      · intro hEq
        exact hgi g horig (hEq ▸ hi)
      · intro hEq
        exact absurd (Nat.lt_of_lt_of_le (Nat.lt_of_lt_of_le (hgv g horig) hlenA) htN)
          (by rw [hEq]; exact Nat.lt_irrefl t)
    · obtain ⟨he1, he2⟩ := htwA g htwin
      constructor
      · intro hEq
        exact absurd (Nat.lt_of_lt_of_le (hiv i hi) he1) (by rw [← hEq]; exact Nat.lt_irrefl g)
      · intro hEq
        exact absurd (Nat.lt_of_lt_of_le he2 htN) (by rw [hEq]; exact Nat.lt_irrefl t)
  have hshape1 : inputTwinShape (removeInvertersLoop1
      (dupOutputsPhase (dupInputsPhase (dupGatesPhase net)))) t i :=
    inputTwinShape_loop1 _ t i hgelem hshapeD
  have hstab2 : stableUnderAt gateCore
      (removeInvertersLoop1 (dupOutputsPhase (dupInputsPhase (dupGatesPhase net))))
      (removeInvertersLoop2 (removeInvertersLoop1
        (dupOutputsPhase (dupInputsPhase (dupGatesPhase net))))) t := by
    unfold removeInvertersLoop2
    refine redirectLoop_core_at _ _ t ?_
    rw [(sameLists_removeInvertersLoop1 _).1]
    intro g hgmem
    exact (hgelem g hgmem).2
  have hstab3 : stableUnderAt gateCore
      (removeInvertersLoop2 (removeInvertersLoop1
        (dupOutputsPhase (dupInputsPhase (dupGatesPhase net)))))
      (removeInvertersLoop3 (removeInvertersLoop2 (removeInvertersLoop1
        (dupOutputsPhase (dupInputsPhase (dupGatesPhase net)))))) t := by
    unfold removeInvertersLoop3
    refine redirectLoop_core_at _ _ t ?_
    rw [(sameLists_removeInvertersLoop2 _).2.2.1, (sameLists_removeInvertersLoop1 _).2.2.1,
      hDl.2.2]
    intro o2 ho2mem
    rcases List.mem_append.1 ho2mem with horig | htwin
    · refine Ne.symm (hto o2 ?_)
      rw [hBl.2.1, hAl.2.1] at horig
      exact horig
    · obtain ⟨he1, _⟩ := htwD o2 htwin
      intro hEq
      exact absurd (Nat.lt_of_lt_of_le htB he1) (by rw [hEq]; exact Nat.lt_irrefl t)
  refine ⟨t, ?_, ?_⟩
  · rw [hconv]
    rw [complOf_eq_of_stableAt (stableUnderAt_of_stable _ (stableUnder_loops_compl _) i)]
    rw [complOf_eq_of_stableAt (stableUnderAt_field_of_core hDi).1]
    exact hcompl
  · rw [hconv]
    exact inputTwinShape_transfer hstab3 (inputTwinShape_transfer hstab2 hshape1)

/-- C6 witness: the concrete net has a complement pair for its inner gate,
complements for an input and an output, and the reversed-negated twin shape
after the duplicate-gates loop. -/
theorem C6_convDualRail_complement_pairs_witness :
    (∃ t, pairAt (netDual.convDualRail) 2 t) ∧ complSome (netDual.convDualRail) 0 ∧
    complSome (netDual.convDualRail) 3 ∧
    (∃ t, (dupGatesPhase netDual).getComplementOf 2 = some t ∧
      twinShapeAt (dupGatesPhase netDual) 2 t) := by
  have h := C6_convDualRail_complement_pairs netDual (by decide) (by decide) (by decide)
    (by decide) (by decide) (by decide) (by decide) (by decide) (by decide) (by decide)
  exact ⟨h.1 2 (by decide), h.2.1 0 (by decide), h.2.2.1 3 (by decide), h.2.2.2 2 (by decide)⟩

/-- C6 counterexample: on the concrete net the complement of inner gate 2 is
gate 4, but the twin's driver list is NOT the gate's driver list (it is
reversed and redirected), and its polarities are NOT the negated originals
(the loops cleared them), refuting the identical-shape/inverted-polarity
reading of the claim. -/
theorem C6_counterexample_twin_input_shape :
    (netDual.convDualRail).getComplementOf 2 = some 4 ∧
    ¬ (((netDual.convDualRail).get 4).map (fun tg => tg.inputs) =
        ((netDual.convDualRail).get 2).map (fun gg => gg.inputs) ∧
       ((netDual.convDualRail).get 4).map (fun tg => tg.inputInverters) =
        ((netDual.convDualRail).get 2).map (fun gg => gg.inputInverters.map (fun b => ! b))) := by
  decide

/-- C8 witness: input 0 of the concrete net gets complement 5, a BUFFER with
the single NON-inverting edge from 0 and the output inverter set. -/
theorem C8_convDualRail_input_twins_witness :
    ∃ t, (netDual.convDualRail).getComplementOf 0 = some t ∧
      inputTwinShape (netDual.convDualRail) t 0 := by
  have h := C8_convDualRail_input_twins netDual (by decide) (by decide) (by decide)
    (by decide) (by decide) (by decide)
  exact h 0 (by decide)

/-- C8 counterexample: the complementary buffer of input 0 is gate 5 with the
single driver 0, but its edge bit is NOT the inverting bit the claim
promises: the code passes false and inverts through the output inverter. -/
theorem C8_counterexample_edge_not_inverting :
    (netDual.convDualRail).getComplementOf 0 = some 5 ∧
    ((netDual.convDualRail).get 5).map (fun tg => tg.inputs) = some [0] ∧
    ¬ (((netDual.convDualRail).get 5).map (fun tg => tg.inputInverters) = some [true]) := by
  decide
